import Mathlib

/-!
# theitzin/raytracer : a shallow embedding of the ray tracing core

The C++ sources (`vec3.hpp`, `ray.hpp`, `world.hpp`, `handler.hpp`) compute with
`float`.
Here a `float` is an element of an arbitrary linearly ordered field `F` with
exact arithmetic, so the rounding of the `float` operations, infinities and
NaN are outside the model.  The functions of `<cmath>` that are not field
operations are the operations of the class `LibM`; where a result needs one of
them to be exact at some argument, that is a hypothesis.  `fmin`, `fmax` and
`fabs` are `min`, `max` and `|.|`; `pow` with an `int` exponent is the integer
power of the field.  Division by zero follows the field convention `x / 0 = 0`
(the C++ code produces an infinity or NaN there).

Rounding is modelled in two places.  Where the sources store a `double` in a
`float` that is then held against a `double` bound or handed to the library
(the pitch in `Camera::setRotation`, the locals `modx` and `modz` in
`S_Pattern::getColor`), the conversion is the operation `toFloat` of `LibM`;
over the rationals it is `F32.round`, the rounding to the nearest binary32
value.  And the methods behind `Ray::Ray` are embedded a second time over the
rationals, with the rounding of every `float` operation (`F32.length2`,
`F32.normalise`, `F32.ray`).

`int` values are `Int` and no wrap-around is modelled: the indices of objects
and the recursion depth stay far below `2^31`, and so do the values of the
refinement scheduler of `handler.hpp` and the indices into its texture for a
canvas of up to `2^14` cells in width and height.  For larger canvases the
length of the texture and the index of a cell are also given with the
wrap-around at 32 bits (`wrapInt`).
-/

namespace Raytracer

/-! ## `<cmath>` -/

/-- The functions of `<cmath>` used by the sources that are not field
operations, and the conversion of a `double` to a `float`. -/
class LibM (F : Type) where
  /-- The C function `sqrt`. -/
  sqrt : F → F
  /-- The C function `sin`. -/
  sin : F → F
  /-- The C function `cos`. -/
  cos : F → F
  /-- The C function `tan`. -/
  tan : F → F
  /-- The C function `fmod`. -/
  fmod : F → F → F
  /-- The constant `M_PI`. -/
  pi : F
  /-- The conversion of a `double` to a `float`, which rounds. -/
  toFloat : F → F

/-- The value `y` is the non-negative square root of `x`. -/
def IsSqrt {F : Type} [LinearOrderedField F] (x y : F) : Prop :=
  0 ≤ y ∧ y * y = x

/-- The library square root is exact at the argument `x`. -/
def SqrtExactAt {F : Type} [LinearOrderedField F] [LibM F] (x : F) : Prop :=
  IsSqrt x (LibM.sqrt x)

/-- Square root on the rationals: exact on the squares of rationals (the
numerator and the denominator are rooted separately), rounded down otherwise;
a negative argument gives `0`. -/
def sqrtRat (q : ℚ) : ℚ :=
  (Nat.sqrt q.num.toNat : ℚ) / (Nat.sqrt q.den : ℚ)

/-- Truncated remainder on the rationals, as `fmod` computes it. -/
def fmodRat (x y : ℚ) : ℚ :=
  if y = 0 then 0
  else x - y * (if 0 ≤ x / y then (⌊x / y⌋ : ℚ) else (⌈x / y⌉ : ℚ))

/-- The integer nearest to `x`; of two nearest integers the even one. -/
def roundHalfEven (x : ℚ) : Int :=
  if 2 * Int.fract x < 1 then ⌊x⌋
  else if 1 < 2 * Int.fract x then ⌊x⌋ + 1
  else if ⌊x⌋ % 2 = 0 then ⌊x⌋ else ⌊x⌋ + 1

namespace F32

/-- The exponent of the last binary digit of the binary32 values next to `q`:
`23` below the binary exponent of `q`, and `-149` in the subnormal range. -/
def ulpExp (q : ℚ) : Int := max (Int.log 2 |q| - 23) (-149)

/-- The binary32 value nearest to `q`, of two nearest values the one with the
even last digit: the value of a `float` operation with the exact result `q`
and of the conversion of the `double` `q` to `float`.  The overflow to an
infinity is not modelled. -/
def round (q : ℚ) : ℚ := (roundHalfEven (q / 2 ^ ulpExp q) : ℚ) * 2 ^ ulpExp q

/-- The binary32 value nearest to the square root of `q`, as `sqrt` returns
it for a `float` (the result is correctly rounded, also when the root is
taken in `double` and converted): with `t = q / 4^e` in
`[2^46, 2^48)` and `m` the integer part of the root of `t`, the root of `t`
is rounded up exactly when `t` exceeds `(m + 1/2)^2`.  A non-positive argument
gives `0`. -/
def sqrt (q : ℚ) : ℚ :=
  if q ≤ 0 then 0
  else
    let e : Int := Int.log 2 q / 2 - 23
    let t : ℚ := q / 4 ^ e
    let m : Nat := Nat.sqrt ⌊t⌋₊
    if (m : ℚ) * m + m + 1 / 4 < t then ((m : ℚ) + 1) * 2 ^ e else (m : ℚ) * 2 ^ e

end F32

/-- The value of the constant `M_PI`, a `double`. -/
def piDouble : ℚ := 884279719003555 / 281474976710656

/-- The Taylor polynomial of the sine of degree `17`. -/
def sinPoly (x : ℚ) : ℚ :=
  x - x ^ 3 / 6 + x ^ 5 / 120 - x ^ 7 / 5040 + x ^ 9 / 362880 - x ^ 11 / 39916800 +
    x ^ 13 / 6227020800 - x ^ 15 / 1307674368000 + x ^ 17 / 355687428096000

/-- The Taylor polynomial of the cosine of degree `16`. -/
def cosPoly (x : ℚ) : ℚ :=
  1 - x ^ 2 / 2 + x ^ 4 / 24 - x ^ 6 / 720 + x ^ 8 / 40320 - x ^ 10 / 3628800 +
    x ^ 12 / 479001600 - x ^ 14 / 87178291200 + x ^ 16 / 20922789888000

/-- A rational sine: with `s` and `c` the Taylor polynomials at `t / 2`, the
double angle formula `2 s c / (s^2 + c^2)`.  On `[-pi, pi]` it is within
`10^-11` of the sine. -/
def sinRat (t : ℚ) : ℚ :=
  2 * sinPoly (t / 2) * cosPoly (t / 2) / (sinPoly (t / 2) ^ 2 + cosPoly (t / 2) ^ 2)

/-- A rational cosine: `(c^2 - s^2) / (s^2 + c^2)` for the same `s` and `c`, so
that `sinRat^2 + cosRat^2 = 1` holds exactly. -/
def cosRat (t : ℚ) : ℚ :=
  if sinPoly (t / 2) ^ 2 + cosPoly (t / 2) ^ 2 = 0 then 1
  else (cosPoly (t / 2) ^ 2 - sinPoly (t / 2) ^ 2) /
    (sinPoly (t / 2) ^ 2 + cosPoly (t / 2) ^ 2)

/-- A rational stand-in for `<cmath>`, used to evaluate the embedding on
concrete scenes: `sqrt` is exact on squares, `fmod` is exact, the
trigonometric functions are rational approximations that keep
`sin^2 + cos^2 = 1`, `M_PI` has its `double` value and the conversion to
`float` rounds to binary32. -/
instance : LibM ℚ where
  sqrt := sqrtRat
  sin := sinRat
  cos := cosRat
  tan := fun x => sinRat x / cosRat x
  fmod := fmodRat
  pi := piDouble
  toFloat := F32.round

/-! ## `vec3.hpp` : `Vec3` -/

/-- The class `Vec3<T>`. -/
@[ext]
structure Vec3 (F : Type) where
  x : F
  y : F
  z : F
deriving DecidableEq, Repr

namespace Vec3

variable {F : Type} [LinearOrderedField F]

/-- The method `Vec3::length2`. -/
def length2 (v : Vec3 F) : F :=
  (v.x * v.x) + (v.y * v.y) + (v.z * v.z)

/-- The method `Vec3::length`. -/
def length [LibM F] (v : Vec3 F) : F :=
  LibM.sqrt v.length2

/-- The method `Vec3::normalise`: every component is divided by the magnitude. -/
def normalise [LibM F] (v : Vec3 F) : Vec3 F :=
  let magnitude := LibM.sqrt ((v.x * v.x) + (v.y * v.y) + (v.z * v.z))
  ⟨v.x / magnitude, v.y / magnitude, v.z / magnitude⟩

/-- The non-static method `Vec3::dotProduct`. -/
def dotProduct (v vec : Vec3 F) : F :=
  v.x * vec.x + v.y * vec.y + v.z * vec.z

/-- The operator `Vec3::operator+`. -/
def add (v vector : Vec3 F) : Vec3 F :=
  ⟨v.x + vector.x, v.y + vector.y, v.z + vector.z⟩

/-- The operator `Vec3::operator-`. -/
def sub (v vector : Vec3 F) : Vec3 F :=
  ⟨v.x - vector.x, v.y - vector.y, v.z - vector.z⟩

/-- The operator `Vec3::operator*(const T &)`: multiplication by a scalar. -/
def smul (v : Vec3 F) (value : F) : Vec3 F :=
  ⟨v.x * value, v.y * value, v.z * value⟩

/-- The operator `Vec3::operator/(const T &)`: division by a scalar. -/
def sdiv (v : Vec3 F) (value : F) : Vec3 F :=
  ⟨v.x / value, v.y / value, v.z / value⟩

instance : Add (Vec3 F) := ⟨add⟩
instance : Sub (Vec3 F) := ⟨sub⟩
instance : HMul (Vec3 F) F (Vec3 F) := ⟨smul⟩
instance : HDiv (Vec3 F) F (Vec3 F) := ⟨sdiv⟩

end Vec3

/-! ## `ray.hpp` : `Color`, `Surface`, `Ray` -/

/-- The class `Color`. -/
@[ext]
structure Color (F : Type) where
  r : F
  g : F
  b : F
deriving DecidableEq, Repr

namespace Color

variable {F : Type} [LinearOrderedField F]

/-- The operator `Color::operator+`. -/
def add (c color : Color F) : Color F :=
  ⟨min (c.r + color.r) 1, min (c.g + color.g) 1, min (c.b + color.b) 1⟩

/-- The operator `Color::operator+=`, as the new value of the left operand. -/
def addAssign (c color : Color F) : Color F :=
  ⟨min (c.r + color.r) 1, min (c.g + color.g) 1, min (c.b + color.b) 1⟩

/-- The operator `Color::operator*`. -/
def mul (c : Color F) (scalar : F) : Color F :=
  ⟨min (scalar * c.r) 1, min (scalar * c.g) 1, min (scalar * c.b) 1⟩

/-- The operator `Color::operator*=`, as the new value of the left operand. -/
def mulAssign (c : Color F) (scalar : F) : Color F :=
  ⟨min (c.r * scalar) 1, min (c.g * scalar) 1, min (c.b * scalar) 1⟩

/-- The method `Color::intersect`. -/
def intersect (c color : Color F) : Color F :=
  ⟨min c.r color.r, min c.g color.g, min c.b color.b⟩

/-- All three channels lie in `[0,1]`. -/
def InRange (c : Color F) : Prop :=
  (0 ≤ c.r ∧ c.r ≤ 1) ∧ (0 ≤ c.g ∧ c.g ≤ 1) ∧ (0 ≤ c.b ∧ c.b ≤ 1)

/-- No channel exceeds `1`. -/
def LeOne (c : Color F) : Prop :=
  c.r ≤ 1 ∧ c.g ≤ 1 ∧ c.b ≤ 1

end Color

/-- The two surface classes: `Surface` itself and its subclass `S_Pattern`. -/
inductive SurfaceKind where
  | uniform
  | pattern
deriving DecidableEq, Repr

/-- The class `Surface` with its subclass `S_Pattern`, told apart by `kind`.
`phongModel` is only ever assigned an `int`, and is read back as an `int`. -/
structure Surface (F : Type) where
  kind : SurfaceKind
  color : Color F
  ambientCoef : F
  diffuseCoef : F
  specularCoef : F
  phongModel : Int
  mirrorCoef : F

namespace Surface

variable {F : Type} [LinearOrderedField F]

/-- The constructors `Surface::Surface` and `S_Pattern::S_Pattern`. -/
def new (kind : SurfaceKind) : Surface F :=
  { kind := kind, color := ⟨1, 0, 0⟩, ambientCoef := 3 / 10, diffuseCoef := 4 / 10,
    specularCoef := 5 / 10, phongModel := 20, mirrorCoef := 0 }

/-- The method `Surface::setColor`. -/
def setColor (s : Surface F) (color : Color F) : Surface F :=
  { s with color := color }

/-- The method `Surface::setShadingModel`. -/
def setShadingModel (s : Surface F) (ambientCoef diffuseCoef specularCoef : F) : Surface F :=
  { s with ambientCoef := ambientCoef, diffuseCoef := diffuseCoef, specularCoef := specularCoef }

/-- The method `Surface::setPhongModel`. -/
def setPhongModel (s : Surface F) (phongModel : Int) : Surface F :=
  { s with phongModel := phongModel }

/-- The method `Surface::setMirror`. -/
def setMirror (s : Surface F) (mirrorCoef : F) : Surface F :=
  { s with mirrorCoef := mirrorCoef }

/-- The virtual method `getColor` of `Surface` and of `S_Pattern`.  In
`S_Pattern` the two values of `fmod`, which are `double`, are stored in the
`float` locals `modx` and `modz`. -/
def getColor [LibM F] (s : Surface F) (point : Vec3 F) : Color F :=
  match s.kind with
  | .uniform => s.color
  | .pattern =>
    let modx := LibM.toFloat (LibM.fmod |point.x| LibM.pi)
    let modz := LibM.toFloat (LibM.fmod |point.z| LibM.pi)
    ⟨s.color.r * LibM.sin modx * LibM.sin modz,
     s.color.g * LibM.sin modx * LibM.sin modz,
     s.color.b * LibM.sin modx * LibM.sin modz⟩

/-- The method `Surface::getAmbient`. -/
def getAmbient (s : Surface F) : F := s.ambientCoef

/-- The method `Surface::getDiffuse`. -/
def getDiffuse (s : Surface F) : F := s.diffuseCoef

/-- The method `Surface::getSpecular`. -/
def getSpecular (s : Surface F) : F := s.specularCoef

/-- The method `Surface::getPhongModel`. -/
def getPhongModel (s : Surface F) : Int := s.phongModel

/-- The method `Surface::getMirror`. -/
def getMirror (s : Surface F) (_point : Vec3 F) : F := s.mirrorCoef

end Surface

/-- The class `Ray`. -/
structure Ray (F : Type) where
  origin : Vec3 F
  direction : Vec3 F

/-- The constructor `Ray::Ray`: the direction is normalised. -/
def Ray.new {F : Type} [LinearOrderedField F] [LibM F] (origin direction : Vec3 F) : Ray F :=
  ⟨origin, direction.normalise⟩

/-! ## `world.hpp` : `Light`, `WorldObject`, `World` -/

/-- The class `Light`. -/
structure Light (F : Type) where
  color : Color F
  origin : Vec3 F

/-- The class `WorldObject` with its subclasses `WO_Plane` (members `point`,
`norm`) and `WO_Sphere` (members `origin`, `radius`). -/
inductive WorldObject (F : Type) where
  | plane (surf : Surface F) (point norm : Vec3 F)
  | sphere (surf : Surface F) (origin : Vec3 F) (radius : F)

/-- The constructor `WO_Plane::WO_Plane`: the normal is normalised. -/
def WO_Plane {F : Type} [LinearOrderedField F] [LibM F]
    (surf : Surface F) (point norm : Vec3 F) : WorldObject F :=
  .plane surf point norm.normalise

/-- The constructor `WO_Sphere::WO_Sphere`. -/
def WO_Sphere {F : Type} (surf : Surface F) (origin : Vec3 F) (radius : F) : WorldObject F :=
  .sphere surf origin radius

/-- The local `tmp` of `WO_Sphere::distance`: the discriminant `b * b - 4 * a * c`. -/
def sphereTmp {F : Type} [LinearOrderedField F] (origin : Vec3 F) (radius : F) (ray : Ray F) : F :=
  let a := ray.direction.length2
  let b := 2 * ray.direction.dotProduct (ray.origin - origin)
  let c := (ray.origin - origin).length2 - radius * radius
  b * b - 4 * a * c

/-- The local `b` of `WO_Sphere::distance`. -/
def sphereB {F : Type} [LinearOrderedField F] (origin : Vec3 F) (ray : Ray F) : F :=
  2 * ray.direction.dotProduct (ray.origin - origin)

/-- The farther root `(-b + sqrt(tmp)) / 2a` of the quadratic of `WO_Sphere::distance`. -/
def sphereFar {F : Type} [LinearOrderedField F] [LibM F]
    (origin : Vec3 F) (radius : F) (ray : Ray F) : F :=
  (-sphereB origin ray + LibM.sqrt (sphereTmp origin radius ray)) / (2 * ray.direction.length2)

namespace WorldObject

variable {F : Type} [LinearOrderedField F] [LibM F]

/-- The method `WorldObject::surface`. -/
def surface : WorldObject F → Surface F
  | .plane surf _ _ => surf
  | .sphere surf _ _ => surf

/-- The virtual method `distance`: `WO_Plane::distance` and `WO_Sphere::distance`. -/
def distance : WorldObject F → Ray F → F
  | .plane _ point norm, ray =>
    if ray.direction.dotProduct norm = 0 then -1
    else -norm.dotProduct (ray.origin - point) / norm.dotProduct ray.direction
  | .sphere _ origin radius, ray =>
    let a := ray.direction.length2
    let b := 2 * ray.direction.dotProduct (ray.origin - origin)
    let c := (ray.origin - origin).length2 - radius * radius
    let tmp := b * b - 4 * a * c
    if tmp < 0 then -1
    else if -b + LibM.sqrt tmp < 0 then -1
    else if -b - LibM.sqrt tmp > 0 then (-b - LibM.sqrt tmp) / a / 2
    else (-b + LibM.sqrt tmp) / a / 2

/-- The virtual method `normal`: `WO_Plane::normal` and `WO_Sphere::normal`. -/
def normal : WorldObject F → Ray F → Vec3 F
  | .plane _ _ norm, _ => norm
  | .sphere surf origin radius, ray =>
    let dist := distance (.sphere surf origin radius) ray
    (ray.origin + (ray.direction * dist) - origin).normalise

/-- The method `WorldObject::intersection`. -/
def intersection (o : WorldObject F) (ray : Ray F) : Vec3 F :=
  let dist := o.distance ray
  ray.origin + (ray.direction * dist)

end WorldObject

/-- The class `World`: the two registries.  The private members `minCastDist`,
`maxLightError`, `voidColor` and `ambientColor` are set once by the constructor
and never assigned again; they are the constant functions below. -/
structure World (F : Type) where
  objects : List (WorldObject F)
  lights : List (Light F)

namespace World

variable {F : Type} [LinearOrderedField F]

/-- The constructor `World::World`: both registries are empty. -/
def new : World F := ⟨[], []⟩

/-- The member `minCastDist`, set to `0.001f` by the constructor. -/
def minCastDist (_w : World F) : F := 1 / 1000

/-- The member `maxLightError`, set to `0.001f` by the constructor. -/
def maxLightError (_w : World F) : F := 1 / 1000

/-- The member `voidColor`, set to white by the constructor. -/
def voidColor (_w : World F) : Color F := ⟨1, 1, 1⟩

/-- The member `ambientColor`, set to white by the constructor. -/
def ambientColor (_w : World F) : Color F := ⟨1, 1, 1⟩

/-- The method `World::addWorldObject`. -/
def addWorldObject (w : World F) (wo : WorldObject F) : World F :=
  { w with objects := w.objects ++ [wo] }

/-- The method `World::addLight`. -/
def addLight (w : World F) (l : Light F) : World F :=
  { w with lights := w.lights ++ [l] }

variable [LibM F]

/-- The loop of `World::castRay` from position `i` on, over the objects not
yet visited; the state is the pair of the locals `index` and `smallestDist`. -/
def castRayLoop (w : World F) (ray : Ray F) :
    List (WorldObject F) → Nat → Int × F → Int × F
  | [], _, st => st
  | o :: rest, i, (index, smallestDist) =>
    let tmpDist := o.distance ray
    if tmpDist > 0 then
      if tmpDist > w.minCastDist ∧ (index = -1 ∨ tmpDist < smallestDist) then
        castRayLoop w ray rest (i + 1) ((i : Int), tmpDist)
      else castRayLoop w ray rest (i + 1) (index, smallestDist)
    else castRayLoop w ray rest (i + 1) (index, smallestDist)

/-- The method `World::castRay`.  The local `smallestDist` is uninitialised
until the first hit and is not read before; it starts at `0` here. -/
def castRay (w : World F) (ray : Ray F) : Int :=
  (castRayLoop w ray w.objects 0 (-1, 0)).1

/-- One round of the light loop of `World::getColor`, for the light `l`: the
new value of the local `lightColor`.  `obj`, `inter`, `norm` and `surf` are the
locals of the same name. -/
def lightStep (w : World F) (ray : Ray F) (obj : Int) (inter norm : Vec3 F) (surf : Surface F)
    (lightColor : Color F) (l : Light F) : Color F :=
  let lightDir := (inter - l.origin).normalise
  let lightRay := Ray.new l.origin lightDir
  let lightObj := w.castRay lightRay
  if lightObj = -1 ∨ lightObj ≠ obj then lightColor
  else
    -- diffuse
    let diffusion := max 0 (-norm.dotProduct lightDir)
    let lightColor := lightColor.addAssign (l.color.mul (surf.getDiffuse * diffusion))
    -- specular
    let bisector := (ray.direction + lightDir).normalise
    let specular := (max 0 (-norm.dotProduct bisector)) ^ surf.getPhongModel
    lightColor.addAssign (l.color.mul (surf.getSpecular * specular))

/-- The local `lightColor` of `World::getColor` after the light loop. -/
def lightLoop (w : World F) (ray : Ray F) (obj : Int) (inter norm : Vec3 F) (surf : Surface F) :
    Color F :=
  w.lights.foldl (lightStep w ray obj inter norm surf) (w.ambientColor.mul surf.getAmbient)

/-- The local `reflectionDir` of `World::getColor`. -/
def reflectionDir (norm : Vec3 F) (ray : Ray F) : Vec3 F :=
  norm * (-2 * norm.dotProduct ray.direction) + ray.direction

/-- The method `World::getColor`.  The recursion is on `depth`: a call is made
only when `depth <= 10`, with `depth + 1`.  `objects[obj]` is an access at the
index that `castRay` returned; the branch for an index outside the registry
is never taken (`castRay_lt_length`). -/
def getColor (w : World F) (ray : Ray F) (depth : Int) : Color F :=
  if _h : depth > 10 then w.voidColor
  else
    let obj := w.castRay ray
    if obj = -1 then w.voidColor
    else
      match w.objects[obj.toNat]? with
      | none => w.voidColor
      | some o =>
        let inter := o.intersection ray
        let norm := o.normal ray
        let surf := o.surface
        let lightColor := lightLoop w ray obj inter norm surf
        let mir := surf.getMirror inter
        let surfaceColor :=
          if mir ≠ 0 then
            let mirrorColor := getColor w (Ray.new inter (reflectionDir norm ray)) (depth + 1)
            ((surf.getColor inter).mul (1 - mir)).add (mirrorColor.mul mir)
          else surf.getColor inter
        surfaceColor.intersect lightColor
termination_by (11 - depth).toNat
decreasing_by omega

/-- What one call of `World::getColor` does: the colour it returns, the values
of `depth` of all evaluations of `getColor` it causes (itself first), and the
number of calls of `castRay`. -/
structure Trace (F : Type) where
  color : Color F
  depths : List Int
  casts : Nat

/-- The method `World::getColor` again, recording its evaluations and its
calls of `castRay`: one for the primary ray and one for each light on a hit. -/
def getColorTrace (w : World F) (ray : Ray F) (depth : Int) : Trace F :=
  if _h : depth > 10 then ⟨w.voidColor, [depth], 0⟩
  else
    let obj := w.castRay ray
    if obj = -1 then ⟨w.voidColor, [depth], 1⟩
    else
      match w.objects[obj.toNat]? with
      | none => ⟨w.voidColor, [depth], 1⟩
      | some o =>
        let inter := o.intersection ray
        let norm := o.normal ray
        let surf := o.surface
        let lightColor := lightLoop w ray obj inter norm surf
        let mir := surf.getMirror inter
        if mir ≠ 0 then
          let sub := getColorTrace w (Ray.new inter (reflectionDir norm ray)) (depth + 1)
          let surfaceColor := ((surf.getColor inter).mul (1 - mir)).add (sub.color.mul mir)
          ⟨surfaceColor.intersect lightColor, depth :: sub.depths, 1 + w.lights.length + sub.casts⟩
        else
          ⟨(surf.getColor inter).intersect lightColor, [depth], 1 + w.lights.length⟩
termination_by (11 - depth).toNat
decreasing_by omega

/-- The object `o` qualifies as a hit of `ray`: its distance exceeds `minCastDist`. -/
def Qualifies (w : World F) (ray : Ray F) (o : WorldObject F) : Prop :=
  w.minCastDist < o.distance ray

/-- The invariant of the loop of `World::castRay` after the objects `l` have
been visited, for the state `st` of the locals `index` and `smallestDist`. -/
def CastInv (w : World F) (ray : Ray F) (l : List (WorldObject F)) (st : Int × F) : Prop :=
  (st.1 = -1 ∧ ∀ (j : Nat) (oj : WorldObject F), l[j]? = some oj → ¬ Qualifies w ray oj) ∨
  (∃ (k : Nat) (o : WorldObject F), st.1 = (k : Int) ∧ l[k]? = some o ∧
    o.distance ray = st.2 ∧ w.minCastDist < st.2 ∧
    (∀ (j : Nat) (oj : WorldObject F), l[j]? = some oj → Qualifies w ray oj →
      st.2 ≤ oj.distance ray) ∧
    (∀ (j : Nat) (oj : WorldObject F), j < k → l[j]? = some oj → Qualifies w ray oj →
      st.2 < oj.distance ray))

end World

/-! ## `vec3.hpp` : `Mat3` -/

/-- The class `Mat3<T>`: its three members are the columns of the matrix. -/
@[ext]
structure Mat3 (F : Type) where
  x : Vec3 F
  y : Vec3 F
  z : Vec3 F

namespace Mat3

variable {F : Type} [LinearOrderedField F]

/-- The constructor `Mat3::Mat3` with nine scalars, given column by column. -/
def ofScalars (xx yx zx xy yy zy xz yz zz : F) : Mat3 F :=
  ⟨⟨xx, yx, zx⟩, ⟨xy, yy, zy⟩, ⟨xz, yz, zz⟩⟩

/-- The method `Mat3::getRowX`. -/
def getRowX (m : Mat3 F) : Vec3 F := ⟨m.x.x, m.y.x, m.z.x⟩

/-- The method `Mat3::getRowY`. -/
def getRowY (m : Mat3 F) : Vec3 F := ⟨m.x.y, m.y.y, m.z.y⟩

/-- The method `Mat3::getRowZ`. -/
def getRowZ (m : Mat3 F) : Vec3 F := ⟨m.x.z, m.y.z, m.z.z⟩

/-- The operator `Mat3::operator*(const Mat3 &)`. -/
def mul (m mat : Mat3 F) : Mat3 F :=
  let v1 : Vec3 F :=
    ⟨m.getRowX.dotProduct mat.x, m.getRowY.dotProduct mat.x, m.getRowZ.dotProduct mat.x⟩
  let v2 : Vec3 F :=
    ⟨m.getRowX.dotProduct mat.y, m.getRowY.dotProduct mat.y, m.getRowZ.dotProduct mat.y⟩
  let v3 : Vec3 F :=
    ⟨m.getRowX.dotProduct mat.z, m.getRowY.dotProduct mat.z, m.getRowZ.dotProduct mat.z⟩
  ⟨v1, v2, v3⟩

/-- The operator `Mat3::operator*(const Vec3<T> &)`. -/
def mulVec (m : Mat3 F) (vec : Vec3 F) : Vec3 F :=
  ⟨m.getRowX.dotProduct vec, m.getRowY.dotProduct vec, m.getRowZ.dotProduct vec⟩

/-- The method `Mat3::rotateHor`. -/
def rotateHor [LibM F] (m : Mat3 F) (val : F) : Mat3 F :=
  m.mul (ofScalars 1 0 0 0 (LibM.cos val) (LibM.sin val) 0 (-LibM.sin val) (LibM.cos val))

/-- The method `Mat3::rotateVer`. -/
def rotateVer [LibM F] (m : Mat3 F) (val : F) : Mat3 F :=
  m.mul (ofScalars (LibM.cos val) 0 (-LibM.sin val) 0 1 0 (LibM.sin val) 0 (LibM.cos val))

end Mat3

/-- The function `Mat3Identity`. -/
def Mat3Identity {F : Type} [LinearOrderedField F] : Mat3 F :=
  Mat3.ofScalars 1 0 0 0 1 0 0 0 1

/-! ## `world.hpp` : `Camera`, `Cam_Std` -/

/-- The class `Camera`. -/
structure Camera (F : Type) where
  w : Int
  h : Int
  origin : Vec3 F
  rotHor : F
  rotVer : F
  rotation : Mat3 F

namespace Camera

variable {F : Type} [LinearOrderedField F] [LibM F]

/-- The method `Camera::setRotation`.  The clamp is computed in `double`
(`M_PI / 2` is one) and stored in the `float` member `rotHor`. -/
def setRotation (c : Camera F) (_rotHor _rotVer : F) : Camera F :=
  let rotHor := LibM.toFloat (min (LibM.pi / 2) (max (-LibM.pi / 2) _rotHor))
  let rotVer := _rotVer
  { c with
    rotHor := rotHor
    rotVer := rotVer
    rotation := (Mat3Identity.rotateVer rotVer).rotateHor rotHor }

/-- The constructor `Camera::Camera`.  The members `rotHor`, `rotVer` and
`rotation` have no value before `setRotation` assigns all three; they start
at zero here. -/
def new (_w _h : Int) (_origin : Vec3 F) (_rotHor _rotVer : F) : Camera F :=
  setRotation
    { w := _w, h := _h, origin := _origin, rotHor := 0, rotVer := 0,
      rotation := ⟨⟨0, 0, 0⟩, ⟨0, 0, 0⟩, ⟨0, 0, 0⟩⟩ }
    _rotHor _rotVer

/-- The method `Camera::updateRotation`. -/
def updateRotation (c : Camera F) (diffHor diffVer : F) : Camera F :=
  c.setRotation (c.rotHor + diffHor) (c.rotVer + diffVer)

end Camera

/-- The class `Cam_Std`, the one subclass of `Camera`. -/
structure Cam_Std (F : Type) extends Camera F where
  viewPort : F
  pixelSize : F

namespace Cam_Std

variable {F : Type} [LinearOrderedField F] [LibM F]

/-- The method `Cam_Std::resize`. -/
def resize (c : Cam_Std F) (_w _h : Int) : Cam_Std F :=
  { c with
    w := _w
    h := _h
    pixelSize := LibM.tan (c.viewPort / 2) / (_w : F) }

/-- The constructor `Cam_Std::Cam_Std`.  `pixelSize` has no value before
`resize` assigns it; it starts at zero here. -/
def new (_w _h : Int) (_origin : Vec3 F) (_rotHor _rotVer _viewPort : F) : Cam_Std F :=
  resize
    { toCamera := Camera.new _w _h _origin _rotHor _rotVer, viewPort := _viewPort,
      pixelSize := 0 }
    _w _h

/-- The method `Cam_Std::getRay`.  The two divisions are divisions of `int`,
which truncate. -/
def getRay (c : Cam_Std F) (x y : Int) : Ray F :=
  let relX : Int := x - Int.tdiv c.w 2
  let relY : Int := y - Int.tdiv c.h 2
  let direction : Vec3 F := ⟨(relX : F) * c.pixelSize, (relY : F) * c.pixelSize, 1⟩
  Ray.new c.origin (c.rotation.mulVec direction)

end Cam_Std

namespace World

variable {F : Type} [LinearOrderedField F] [LibM F]

/-- The local `lightRay` of `World::getColor` for the light `l`, `inter` being
the local of that name: the ray from the light in the direction `lightDir`. -/
def lightRay (inter : Vec3 F) (l : Light F) : Ray F :=
  Ray.new l.origin ((inter - l.origin).normalise)

/-- The diffuse term that `World::getColor` adds for the light `l`. -/
def diffuseTerm (inter norm : Vec3 F) (surf : Surface F) (l : Light F) : Color F :=
  let lightDir := (inter - l.origin).normalise
  let diffusion := max 0 (-norm.dotProduct lightDir)
  l.color.mul (surf.getDiffuse * diffusion)

/-- The specular term that `World::getColor` adds for the light `l`. -/
def specularTerm (ray : Ray F) (inter norm : Vec3 F) (surf : Surface F) (l : Light F) :
    Color F :=
  let lightDir := (inter - l.origin).normalise
  let bisector := (ray.direction + lightDir).normalise
  let specular := (max 0 (-norm.dotProduct bisector)) ^ surf.getPhongModel
  l.color.mul (surf.getSpecular * specular)

/-- The local `surfaceColor` of `World::getColor` for a hit on the object `o`. -/
def surfaceColor (w : World F) (ray : Ray F) (depth : Int) (o : WorldObject F) : Color F :=
  let inter := o.intersection ray
  let norm := o.normal ray
  let surf := o.surface
  let mir := surf.getMirror inter
  if mir ≠ 0 then
    let mirrorColor := w.getColor (Ray.new inter (reflectionDir norm ray)) (depth + 1)
    ((surf.getColor inter).mul (1 - mir)).add (mirrorColor.mul mir)
  else surf.getColor inter

end World

/-! ## `handler.hpp` : `DrawMode`, `DM_Iterative` -/

/-- The loop `while (tmp < a || tmp < b) tmp *= 2` (in `updateWindowContent`
written with `tmp <<= 1`), started at a positive `tmp`: the final value of
`tmp`.  The loop ends because `tmp` is positive and doubles. -/
def pow2Loop (a b : Int) (tmp : Int) (hpos : 0 < tmp) : Int :=
  if h : tmp < a ∨ tmp < b then pow2Loop a b (tmp * 2) (by omega)
  else tmp
termination_by (max a b - tmp).toNat
decreasing_by omega

/-- The values of the variable of a loop `for (i = a; i < b; i++)`, in order. -/
def intRange (a b : Int) : List Int :=
  (List.range (b - a).toNat).map (fun (k : Nat) => a + (k : Int))

/-- The cells `(j, i)` that the two loops of `DM_Iterative::drawRect` visit,
in order. -/
def rectCells (left bottom right top : Int) : List (Int × Int) :=
  (intRange bottom top).flatMap (fun i => (intRange left right).map (fun j => (j, i)))

/-- The local `index` of `DM_Iterative::drawRect` for the cell `(j, i)`. -/
def cellIndex (win_pow2 : Int) (cell : Int × Int) : Int :=
  (cell.2 * win_pow2 + cell.1) * 3

/-- The body of the inner loop of `DM_Iterative::drawRect`: the three
assignments to `texture`. -/
def writeCell {F : Type} (win_pow2 : Int) (color : Color F) (texture : Int → F)
    (cell : Int × Int) : Int → F :=
  let index := cellIndex win_pow2 cell
  Function.update
    (Function.update (Function.update texture index color.r) (index + 1) color.g)
    (index + 2) color.b

/-- The channel of a colour that is stored at the offset `k` of a cell. -/
def Color.chan {F : Type} (c : Color F) (k : Int) : F :=
  if k = 0 then c.r else if k = 1 then c.g else c.b

/-- The classes `DrawMode` and `DM_Iterative`, its one subclass.  `texture` is
the content of the buffer by index; the members for OpenGL are left out. -/
structure DM_Iterative (F : Type) where
  camera : Cam_Std F
  world : World F
  win_height : Int
  win_width : Int
  win_pow2 : Int
  texture : Int → F
  done : Bool
  win_size_pad : Int
  tile_size : Int
  tile_bottom : Int
  tile_left : Int

namespace DM_Iterative

variable {F : Type} [LinearOrderedField F]

/-- The method `DrawMode::finished`. -/
def finished (s : DM_Iterative F) : Bool := s.done

/-- The method `DrawMode::setFinishedState`. -/
def setFinishedState (s : DM_Iterative F) (state : Bool) : DM_Iterative F :=
  { s with done := state }

/-- The method `DrawMode::updateWindowSize`; `fresh` is the content of the
newly allocated buffer. -/
def updateWindowSize (s : DM_Iterative F) (width height : Int) (fresh : Int → F) :
    DM_Iterative F :=
  { s with
    win_width := width
    win_height := height
    win_pow2 := pow2Loop width height 1 Int.one_pos
    texture := fresh }

/-- The method `DM_Iterative::updateWindowContent`. -/
def updateWindowContent (s : DM_Iterative F) : DM_Iterative F :=
  let tmp := pow2Loop s.win_height s.win_width 1 Int.one_pos
  { s with
    win_size_pad := tmp
    tile_size := tmp
    tile_bottom := 0
    tile_left := 0
    done := false }

/-- The method `DM_Iterative::drawRect`. -/
def drawRect (s : DM_Iterative F) (left bottom right top : Int) (color : Color F) :
    DM_Iterative F :=
  { s with
    texture := (rectCells left bottom right top).foldl (writeCell s.win_pow2 color) s.texture }

end DM_Iterative

/-- The members of `DM_Iterative` that steer the refinement: `tile_size`,
`tile_left`, `tile_bottom` and `done`. -/
structure Cursor where
  tile_size : Int
  tile_left : Int
  tile_bottom : Int
  done : Bool
deriving DecidableEq, Repr

/-- The steering members of a state. -/
def DM_Iterative.cursor {F : Type} (s : DM_Iterative F) : Cursor :=
  ⟨s.tile_size, s.tile_left, s.tile_bottom, s.done⟩

namespace Cursor

/-- The last part of `DM_Iterative::drawNext`, which moves the cursor, on a
canvas of width `w` and height `h`.  `tile_size >>= 1` is the division by
`2`. -/
def advance (w h : Int) (c : Cursor) : Cursor :=
  let c4 := { c with tile_bottom := c.tile_bottom + (c.tile_size + c.tile_size) }
  let c5 :=
    if c4.tile_bottom ≥ h then
      { c4 with tile_bottom := 0, tile_left := c4.tile_left + (c4.tile_size + c4.tile_size) }
    else c4
  if c5.tile_left ≥ w then
    let c6 := { c5 with tile_bottom := 0, tile_left := 0 }
    if c6.tile_size ≤ 1 then { c6 with done := true }
    else { c6 with tile_size := c6.tile_size / 2 }
  else c5

/-- The cells of the three rectangles that `DM_Iterative::drawNext` hands to
`drawRect`, in the order in which they are written. -/
def stepCells (w h : Int) (c : Cursor) : List (Int × Int) :=
  rectCells
    (min (w - 1) (c.tile_left + c.tile_size))
    c.tile_bottom
    (min (w - 1) (c.tile_left + c.tile_size + c.tile_size))
    (min (h - 1) (c.tile_bottom + c.tile_size)) ++
  rectCells
    c.tile_left
    (min (h - 1) (c.tile_bottom + c.tile_size))
    (min (w - 1) (c.tile_left + c.tile_size))
    (min (h - 1) (c.tile_bottom + c.tile_size + c.tile_size)) ++
  rectCells
    (min (w - 1) (c.tile_left + c.tile_size))
    (min (h - 1) (c.tile_bottom + c.tile_size))
    (min (w - 1) (c.tile_left + c.tile_size + c.tile_size))
    (min (h - 1) (c.tile_bottom + c.tile_size + c.tile_size))

/-- The cells written by the first `n` steps from the cursor `c`. -/
def runCells (w h : Int) : Nat → Cursor → List (Int × Int)
  | 0, _ => []
  | n + 1, c => stepCells w h c ++ runCells w h n (advance w h c)

/-- The step completes a pass: the cursor leaves the canvas on both axes. -/
def PassComplete (w h : Int) (c : Cursor) : Prop :=
  c.tile_bottom + (c.tile_size + c.tile_size) ≥ h ∧
  c.tile_left + (c.tile_size + c.tile_size) ≥ w

/-- The cell lies in the right, the below or the diagonal quadrant of the
block of the cursor `c`. -/
def InPaintedQuadrant (c : Cursor) (cell : Int × Int) : Prop :=
  (c.tile_left + c.tile_size ≤ cell.1 ∧ cell.1 < c.tile_left + c.tile_size + c.tile_size ∧
    c.tile_bottom ≤ cell.2 ∧ cell.2 < c.tile_bottom + c.tile_size) ∨
  (c.tile_left ≤ cell.1 ∧ cell.1 < c.tile_left + c.tile_size ∧
    c.tile_bottom + c.tile_size ≤ cell.2 ∧
    cell.2 < c.tile_bottom + c.tile_size + c.tile_size) ∨
  (c.tile_left + c.tile_size ≤ cell.1 ∧ cell.1 < c.tile_left + c.tile_size + c.tile_size ∧
    c.tile_bottom + c.tile_size ≤ cell.2 ∧
    cell.2 < c.tile_bottom + c.tile_size + c.tile_size)

/-- The cell lies in the top-left quadrant of the block of the cursor `c`. -/
def InTopLeftQuadrant (c : Cursor) (cell : Int × Int) : Prop :=
  c.tile_left ≤ cell.1 ∧ cell.1 < c.tile_left + c.tile_size ∧
  c.tile_bottom ≤ cell.2 ∧ cell.2 < c.tile_bottom + c.tile_size

/-- The invariant of a run on a canvas of width `w` and height `h`: the tile
size is a power of two, the cursor lies on the canvas, and `done` is set only
at tile size `1`. -/
def RunInv (w h : Int) (c : Cursor) : Prop :=
  (∃ k : Nat, c.tile_size = 2 ^ k) ∧ 0 ≤ c.tile_left ∧ c.tile_left < w ∧
  0 ≤ c.tile_bottom ∧ c.tile_bottom < h ∧ (c.done = true → c.tile_size = 1)

end Cursor

namespace DM_Iterative

variable {F : Type} [LinearOrderedField F]

/-- The three calls of `drawRect` in `DM_Iterative::drawNext`. -/
def paint (s : DM_Iterative F) (color : Color F) : DM_Iterative F :=
  let s1 := s.drawRect
    (min (s.win_width - 1) (s.tile_left + s.tile_size))
    s.tile_bottom
    (min (s.win_width - 1) (s.tile_left + s.tile_size + s.tile_size))
    (min (s.win_height - 1) (s.tile_bottom + s.tile_size))
    color
  let s2 := s1.drawRect
    s.tile_left
    (min (s.win_height - 1) (s.tile_bottom + s.tile_size))
    (min (s.win_width - 1) (s.tile_left + s.tile_size))
    (min (s.win_height - 1) (s.tile_bottom + s.tile_size + s.tile_size))
    color
  s2.drawRect
    (min (s.win_width - 1) (s.tile_left + s.tile_size))
    (min (s.win_height - 1) (s.tile_bottom + s.tile_size))
    (min (s.win_width - 1) (s.tile_left + s.tile_size + s.tile_size))
    (min (s.win_height - 1) (s.tile_bottom + s.tile_size + s.tile_size))
    color

/-- The method `DM_Iterative::drawNext`: one colour is computed, the three
rectangles are painted with it, and the cursor is moved. -/
def drawNext [LibM F] (s : DM_Iterative F) : DM_Iterative F :=
  let ray := s.camera.getRay s.tile_left s.tile_bottom
  let color := s.world.getColor ray 0
  let s3 := s.paint color
  let c := Cursor.advance s3.win_width s3.win_height s3.cursor
  { s3 with
    tile_size := c.tile_size
    tile_left := c.tile_left
    tile_bottom := c.tile_bottom
    done := c.done }

end DM_Iterative

namespace Mat3

variable {F : Type} [LinearOrderedField F]

/-- The operator `Mat3::operator*(const T &)`: multiplication by a scalar. -/
def smul (m : Mat3 F) (value : F) : Mat3 F :=
  ⟨m.x * value, m.y * value, m.z * value⟩

/-- The local `det` of `Mat3::inverse`. -/
def det (m : Mat3 F) : F :=
  let a := m.x.x
  let b := m.y.x
  let c := m.z.x
  let d := m.x.y
  let e := m.y.y
  let f := m.z.y
  let g := m.x.z
  let h := m.y.z
  let i := m.z.z
  a * (e * i - f * h) - b * (d * i - f * g) + c * (d * h - e * g)

/-- The method `Mat3::inverse`. -/
def inverse (m : Mat3 F) : Mat3 F :=
  let a := m.x.x
  let b := m.y.x
  let c := m.z.x
  let d := m.x.y
  let e := m.y.y
  let f := m.z.y
  let g := m.x.z
  let h := m.y.z
  let i := m.z.z
  let det := a * (e * i - f * h) - b * (d * i - f * g) + c * (d * h - e * g)
  let v1 : Vec3 F := ⟨e * i - f * h, f * g - d * i, d * h - e * g⟩
  let v2 : Vec3 F := ⟨c * h - b * i, a * i - c * g, b * g - a * h⟩
  let v3 : Vec3 F := ⟨b * f - c * e, c * d - a * f, a * e - b * d⟩
  ⟨v1 * det, v2 * det, v3 * det⟩

end Mat3

/-- The library sine and cosine satisfy `sin^2 + cos^2 = 1` at the angle `t`. -/
def TrigExactAt {F : Type} [LinearOrderedField F] [LibM F] (t : F) : Prop :=
  LibM.sin t * LibM.sin t + LibM.cos t * LibM.cos t = 1

namespace Cursor

/-- The tile size is at most `pad`, and both coordinates of the cursor are
multiples of twice the tile size. -/
def GridInv (pad : Int) (c : Cursor) : Prop :=
  c.tile_size ≤ pad ∧
  (∃ m : Nat, c.tile_left = (m : Int) * (2 * c.tile_size)) ∧
  (∃ m : Nat, c.tile_bottom = (m : Int) * (2 * c.tile_size))

end Cursor

/-- The quotient `a / b` rounded up, for a positive `b`. -/
def ceilDiv (a b : Int) : Int :=
  (a + b - 1) / b

/-- The number `ceil(w / (2t)) * ceil(h / (2t))` of blocks of a pass with the
tile size `t` on a canvas of width `w` and height `h`. -/
def passSteps (w h t : Int) : Nat :=
  (ceilDiv w (2 * t)).toNat * (ceilDiv h (2 * t)).toNat

/-- The sum of `passSteps` over the tile sizes `2^k, ..., 2, 1`. -/
def stepCount (w h : Int) (k : Nat) : Nat :=
  ((List.range (k + 1)).map (fun (i : Nat) => passSteps w h (2 ^ i))).sum

/-! ## `float` operations with rounding -/

namespace F32

/-- The method `Vec3<float>::length2` with the rounding of its five `float`
operations. -/
def length2 (v : Vec3 ℚ) : ℚ :=
  round (round (round (v.x * v.x) + round (v.y * v.y)) + round (v.z * v.z))

/-- The method `Vec3<float>::normalise` with the rounding of its `float`
operations: five for the argument of `sqrt`, the square root itself and the
three divisions. -/
def normalise (v : Vec3 ℚ) : Vec3 ℚ :=
  let magnitude := sqrt (round (round (round (v.x * v.x) + round (v.y * v.y)) + round (v.z * v.z)))
  ⟨round (v.x / magnitude), round (v.y / magnitude), round (v.z / magnitude)⟩

/-- The constructor `Ray::Ray` with the rounding of the `float` operations of
`normalise`. -/
def ray (origin direction : Vec3 ℚ) : Ray ℚ :=
  ⟨origin, normalise direction⟩

/-- The unit roundoff of binary32, `2^-24`: half the distance between `1` and
the next value. -/
def unitRoundoff : ℚ := 1 / 2 ^ 24

/-- The value `v` is the exact value `e >= 0` up to `k` roundings: it lies
between `e * (1 - 2^-24)^k` and `e * (1 + 2^-24)^k`. -/
def Near (k : Nat) (v e : ℚ) : Prop :=
  e * (1 - unitRoundoff) ^ k ≤ v ∧ v ≤ e * (1 + unitRoundoff) ^ k

/-- A component of a vector is zero or of a magnitude between `2^-30` and
`2^30`: far from overflow and underflow in `normalise`. -/
def MidRange (x : ℚ) : Prop :=
  x = 0 ∨ (1 / 2 ^ 30 ≤ |x| ∧ |x| ≤ 2 ^ 30)

end F32

/-! ## Well-formed scenes -/

/-- No channel is negative. -/
def Color.Nonneg {F : Type} [LinearOrderedField F] (c : Color F) : Prop :=
  0 ≤ c.r ∧ 0 ≤ c.g ∧ 0 ≤ c.b

/-- A well-formed surface: the channels of the base colour lie in `[0,1]`, the
ambient, diffuse and specular coefficients and the Phong exponent are not
negative, and the mirror coefficient lies in `[0,1]`. -/
def Surface.WellFormed {F : Type} [LinearOrderedField F] (s : Surface F) : Prop :=
  s.color.InRange ∧ 0 ≤ s.ambientCoef ∧ 0 ≤ s.diffuseCoef ∧ 0 ≤ s.specularCoef ∧
  0 ≤ s.phongModel ∧ (0 ≤ s.mirrorCoef ∧ s.mirrorCoef ≤ 1)

/-- A well-formed world: the surface of every object is well-formed and the
channels of the colour of every light lie in `[0,1]`. -/
def World.WellFormed {F : Type} [LinearOrderedField F] (w : World F) : Prop :=
  (∀ o ∈ w.objects, o.surface.WellFormed) ∧ (∀ l ∈ w.lights, l.color.InRange)

/-- Every surface of the world is of the class `Surface` itself, none of its
subclass `S_Pattern`. -/
def World.Plain {F : Type} (w : World F) : Prop :=
  ∀ o ∈ w.objects, o.surface.kind = .uniform

/-! ## `int` with wrap-around -/

namespace Examples

/-- The plane `y = 0` with normal `(0,1,0)` and a default surface. -/
def floorPlane : WorldObject ℚ :=
  WO_Plane (Surface.new .uniform) ⟨0, 0, 0⟩ ⟨0, 1, 0⟩

/-- The ray from `(0,10,0)` straight down. -/
def downRay : Ray ℚ :=
  Ray.new ⟨0, 10, 0⟩ ⟨0, -1, 0⟩

/-- The world whose only object is `floorPlane`; it has no light. -/
def floorWorld : World ℚ :=
  World.new.addWorldObject floorPlane

/-- The empty world. -/
def emptyWorld : World ℚ :=
  World.new

/-- The sphere about `(0,0,-5)` with radius `5`; the origin lies on it. -/
def touchSphere : WorldObject ℚ :=
  WO_Sphere (Surface.new .uniform) ⟨0, 0, -5⟩ 5

/-- The ray from the origin along the z axis: it starts on `touchSphere` and
leaves it. -/
def touchRay : Ray ℚ :=
  Ray.new ⟨0, 0, 0⟩ ⟨0, 0, 1⟩

/-- A default surface whose ambient coefficient was set to `-1`. -/
def darkSurface : Surface ℚ :=
  (Surface.new .uniform).setShadingModel (-1) (4 / 10) (5 / 10)

/-- The world whose only object is the plane `y = 0` with `darkSurface`; it
has no light. -/
def darkWorld : World ℚ :=
  World.new.addWorldObject (WO_Plane darkSurface ⟨0, 0, 0⟩ ⟨0, 1, 0⟩)

/-- A default surface with the mirror coefficient `1/2`. -/
def mirrorSurface : Surface ℚ :=
  (Surface.new .uniform).setMirror (1 / 2)

/-- The world whose only object is the plane `y = 0` with `mirrorSurface`; it
has no light. -/
def mirrorWorld : World ℚ :=
  World.new.addWorldObject (WO_Plane mirrorSurface ⟨0, 0, 0⟩ ⟨0, 1, 0⟩)

/-- The world `floorWorld` with a white light at `(0,20,0)`. -/
def litWorld : World ℚ :=
  floorWorld.addLight ⟨⟨1, 1, 1⟩, ⟨0, 20, 0⟩⟩

/-- A `DM_Iterative` as its constructor leaves it, for a camera above
`floorWorld`; the members without a value yet are zero. -/
def blankCanvas : DM_Iterative ℚ :=
  { camera := Cam_Std.new 4 4 ⟨0, 10, 0⟩ 0 0 (3 / 2), world := floorWorld,
    win_height := 0, win_width := 0, win_pow2 := 0, texture := fun _ => 0, done := false,
    win_size_pad := 0, tile_size := 0, tile_bottom := 0, tile_left := 0 }

/-- The scheduler on a canvas of `4 x 4` cells after `updateWindowSize(4, 4)`
and `updateWindowContent()`. -/
def canvas4 : DM_Iterative ℚ :=
  (blankCanvas.updateWindowSize 4 4 (fun _ => 0)).updateWindowContent

/-- The matrix `2 * identity`. -/
def doubleMat : Mat3 ℚ :=
  Mat3.ofScalars 2 0 0 0 2 0 0 0 2

/-- A default surface of the class `S_Pattern`. -/
def patternSurface : Surface ℚ :=
  Surface.new .pattern

/-- The world whose only object is the plane `y = 0` with `patternSurface`; it
has no light. -/
def patternWorld : World ℚ :=
  World.new.addWorldObject (WO_Plane patternSurface ⟨0, 0, 0⟩ ⟨0, 1, 0⟩)

/-- The ray from `(5744379708833792, 10, 1)` straight down; the first
coordinate is the `float` with the bits `0x59a343dd`. -/
def patternRay : Ray ℚ :=
  Ray.new ⟨5744379708833792, 10, 1⟩ ⟨0, -1, 0⟩

end Examples

/-! # Theorems -/

section Rounding

theorem roundHalfEven_eq_of_lt (x : ℚ) (m : Int) (h1 : (m : ℚ) - 1 / 2 < x)
    (h2 : x < (m : ℚ) + 1 / 2) : roundHalfEven x = m := by
  unfold roundHalfEven
  by_cases hx : (m : ℚ) ≤ x
  · have hfl : ⌊x⌋ = m := by
      rw [Int.floor_eq_iff]
      constructor
      · exact hx
      · linarith
    have hfr : Int.fract x = x - m := by
      unfold Int.fract
      rw [hfl]
    rw [if_pos (by rw [hfr]; linarith), hfl]
  · have hfl : ⌊x⌋ = m - 1 := by
      rw [Int.floor_eq_iff]
      push_cast
      constructor
      · linarith
      · linarith
    have hfr : Int.fract x = x - (m - 1) := by
      unfold Int.fract
      rw [hfl]
      push_cast
      ring
    rw [if_neg (by rw [hfr]; linarith), if_pos (by rw [hfr]; linarith), hfl]
    ring

theorem log_two_eq (q : ℚ) (e : Int) (hlo : (2 : ℚ) ^ e ≤ q) (hhi : q < 2 ^ (e + 1)) :
    Int.log 2 q = e := by
  have hpos : 0 < q := lt_of_lt_of_le (zpow_pos (by norm_num) e) hlo
  have h1 : e ≤ Int.log 2 q := by
    rw [← Int.zpow_le_iff_le_log (by norm_num) hpos]
    exact_mod_cast hlo
  have h2 : Int.log 2 q < e + 1 := by
    rw [← Int.lt_zpow_iff_log_lt (by norm_num) hpos]
    exact_mod_cast hhi
  omega

theorem F32.round_eq (q : ℚ) (e m : Int) (hlo : (2 : ℚ) ^ (e + 23) ≤ |q|)
    (hhi : |q| < 2 ^ (e + 24)) (he : -149 ≤ e)
    (h1 : (m : ℚ) - 1 / 2 < q / 2 ^ e) (h2 : q / 2 ^ e < (m : ℚ) + 1 / 2) :
    F32.round q = m * 2 ^ e := by
  have hlog : Int.log 2 |q| = e + 23 := log_two_eq _ _ hlo (by rw [show e + 23 + 1 = e + 24 by ring]; exact hhi)
  have hu : F32.ulpExp q = e := by
    unfold F32.ulpExp
    rw [hlog]
    simp [he]
  unfold F32.round
  rw [hu, roundHalfEven_eq_of_lt _ m h1 h2]


theorem roundHalfEven_intCast (m : Int) : roundHalfEven (m : ℚ) = m :=
  roundHalfEven_eq_of_lt _ m (by linarith) (by linarith)

theorem roundHalfEven_mono (x y : ℚ) (h : x ≤ y) : roundHalfEven x ≤ roundHalfEven y := by
  have hfloor : ⌊x⌋ ≤ ⌊y⌋ := Int.floor_mono h
  have hx0 := Int.fract_nonneg x
  have hx1 := Int.fract_lt_one x
  have hy0 := Int.fract_nonneg y
  have hy1 := Int.fract_lt_one y
  rcases lt_or_eq_of_le hfloor with hlt | heq
  · have h1 : roundHalfEven x ≤ ⌊x⌋ + 1 := by
      unfold roundHalfEven
      split_ifs <;> omega
    have h2 : ⌊y⌋ ≤ roundHalfEven y := by
      unfold roundHalfEven
      split_ifs <;> omega
    omega
  · have hfr : Int.fract x ≤ Int.fract y := by
      unfold Int.fract
      rw [heq]
      linarith
    unfold roundHalfEven
    rw [← heq]
    split_ifs <;> first | omega | (exfalso; linarith)

theorem roundHalfEven_le_of_le (x : ℚ) (n : Int) (h : x ≤ n) : roundHalfEven x ≤ n := by
  have := roundHalfEven_mono x n h
  rwa [roundHalfEven_intCast] at this

theorem le_roundHalfEven_of_le (x : ℚ) (n : Int) (h : (n : ℚ) ≤ x) : n ≤ roundHalfEven x := by
  have := roundHalfEven_mono n x h
  rwa [roundHalfEven_intCast] at this

namespace F32

theorem abs_lt_ulp (q : ℚ) : |q| < 2 ^ (ulpExp q + 24) := by
  have h1 : |q| < ((2 : ℕ) : ℚ) ^ (Int.log 2 |q| + 1) := Int.lt_zpow_succ_log_self (by norm_num) _
  have h2 : Int.log 2 |q| + 1 ≤ ulpExp q + 24 := by
    unfold ulpExp
    have := le_max_left (Int.log 2 |q| - 23) (-149)
    omega
  have h3 : ((2 : ℕ) : ℚ) ^ (Int.log 2 |q| + 1) ≤ (2 : ℚ) ^ (ulpExp q + 24) := by
    rw [Nat.cast_ofNat]
    exact zpow_le_zpow_right₀ (by norm_num) h2
  exact lt_of_lt_of_le h1 h3

theorem ulp_le_abs (q : ℚ) (hq : q ≠ 0) (he : -149 < ulpExp q) : 2 ^ (ulpExp q + 23) ≤ |q| := by
  have hlog : ulpExp q = Int.log 2 |q| - 23 := by
    unfold ulpExp at he ⊢
    rcases max_choice (Int.log 2 |q| - 23) (-149) with h | h
    · exact h
    · rw [h] at he
      omega
  have h1 : ((2 : ℕ) : ℚ) ^ Int.log 2 |q| ≤ |q| := Int.zpow_log_le_self (by norm_num) (abs_pos.mpr hq)
  rw [hlog, show Int.log 2 |q| - 23 + 23 = Int.log 2 |q| by ring]
  rw [Nat.cast_ofNat] at h1
  exact h1

theorem ulpExp_mono (q1 q2 : ℚ) (hq : q1 ≠ 0) (h : |q1| ≤ |q2|) : ulpExp q1 ≤ ulpExp q2 := by
  unfold ulpExp
  have hlog : Int.log 2 |q1| ≤ Int.log 2 |q2| := Int.log_mono_right (abs_pos.mpr hq) h
  exact max_le_max (by omega) (le_refl _)

theorem ulpExp_ge (q : ℚ) : -149 ≤ ulpExp q := le_max_right _ _

theorem round_nonneg (q : ℚ) (h : 0 ≤ q) : 0 ≤ round q := by
  unfold round
  have hp : (0 : ℚ) < 2 ^ ulpExp q := zpow_pos (by norm_num) _
  have h1 : (0 : Int) ≤ roundHalfEven (q / 2 ^ ulpExp q) :=
    le_roundHalfEven_of_le _ 0 (by simpa using div_nonneg h hp.le)
  have h2 : (0 : ℚ) ≤ (roundHalfEven (q / 2 ^ ulpExp q) : ℚ) := by exact_mod_cast h1
  exact mul_nonneg h2 hp.le

theorem round_nonpos (q : ℚ) (h : q ≤ 0) : round q ≤ 0 := by
  unfold round
  have hp : (0 : ℚ) < 2 ^ ulpExp q := zpow_pos (by norm_num) _
  have h1 : roundHalfEven (q / 2 ^ ulpExp q) ≤ (0 : Int) :=
    roundHalfEven_le_of_le _ 0 (by simpa using div_nonpos_of_nonpos_of_nonneg h hp.le)
  have h2 : (roundHalfEven (q / 2 ^ ulpExp q) : ℚ) ≤ 0 := by exact_mod_cast h1
  exact mul_nonpos_of_nonpos_of_nonneg h2 hp.le

/-- The value `round q` for positive `q` lies between the powers of two around `q`. -/
theorem round_le_pow (q : ℚ) : round q ≤ 2 ^ (ulpExp q + 24) := by
  unfold round
  have hp : (0 : ℚ) < 2 ^ ulpExp q := zpow_pos (by norm_num) _
  have hlt := abs_lt_ulp q
  have hq : q / 2 ^ ulpExp q ≤ ((2 ^ 24 : Int) : ℚ) := by
    rw [div_le_iff₀ hp]
    have : (2 : ℚ) ^ (ulpExp q + 24) = ((2 ^ 24 : Int) : ℚ) * 2 ^ ulpExp q := by
      rw [zpow_add₀ (by norm_num)]
      push_cast
      ring
    rw [← this]
    exact le_trans (le_abs_self q) hlt.le
  have h1 := roundHalfEven_le_of_le _ _ hq
  have h2 : (roundHalfEven (q / 2 ^ ulpExp q) : ℚ) ≤ ((2 ^ 24 : Int) : ℚ) := by exact_mod_cast h1
  have h3 := mul_le_mul_of_nonneg_right h2 hp.le
  have : (2 : ℚ) ^ (ulpExp q + 24) = ((2 ^ 24 : Int) : ℚ) * 2 ^ ulpExp q := by
    rw [zpow_add₀ (by norm_num)]
    push_cast
    ring
  rw [this]
  exact h3

theorem neg_pow_le_round (q : ℚ) : -(2 ^ (ulpExp q + 24)) ≤ round q := by
  unfold round
  have hp : (0 : ℚ) < 2 ^ ulpExp q := zpow_pos (by norm_num) _
  have hlt := abs_lt_ulp q
  have hpow : (2 : ℚ) ^ (ulpExp q + 24) = ((2 ^ 24 : Int) : ℚ) * 2 ^ ulpExp q := by
    rw [zpow_add₀ (by norm_num)]
    push_cast
    ring
  have hq : ((-(2 ^ 24) : Int) : ℚ) ≤ q / 2 ^ ulpExp q := by
    rw [le_div_iff₀ hp]
    have h1 : -(2 : ℚ) ^ (ulpExp q + 24) ≤ q := by
      have := neg_abs_le q
      linarith
    rw [hpow] at h1
    push_cast at h1 ⊢
    linarith
  have h1 := le_roundHalfEven_of_le _ _ hq
  have h2 : ((-(2 ^ 24) : Int) : ℚ) ≤ (roundHalfEven (q / 2 ^ ulpExp q) : ℚ) := by
    exact_mod_cast h1
  have h3 := mul_le_mul_of_nonneg_right h2 hp.le
  rw [hpow]
  push_cast at h3 ⊢
  linarith

theorem pow_le_round (q : ℚ) (hq : 0 < q) (he : -149 < ulpExp q) :
    2 ^ (ulpExp q + 23) ≤ round q := by
  unfold round
  have hp : (0 : ℚ) < 2 ^ ulpExp q := zpow_pos (by norm_num) _
  have hlo := ulp_le_abs q hq.ne' he
  rw [abs_of_pos hq] at hlo
  have hpow : (2 : ℚ) ^ (ulpExp q + 23) = ((2 ^ 23 : Int) : ℚ) * 2 ^ ulpExp q := by
    rw [zpow_add₀ (by norm_num)]
    push_cast
    ring
  have hx : ((2 ^ 23 : Int) : ℚ) ≤ q / 2 ^ ulpExp q := by
    rw [le_div_iff₀ hp, ← hpow]
    exact hlo
  have h1 := le_roundHalfEven_of_le _ _ hx
  have h2 : ((2 ^ 23 : Int) : ℚ) ≤ (roundHalfEven (q / 2 ^ ulpExp q) : ℚ) := by
    exact_mod_cast h1
  rw [hpow]
  exact mul_le_mul_of_nonneg_right h2 hp.le

theorem round_le_neg_pow (q : ℚ) (hq : q < 0) (he : -149 < ulpExp q) :
    round q ≤ -(2 ^ (ulpExp q + 23)) := by
  unfold round
  have hp : (0 : ℚ) < 2 ^ ulpExp q := zpow_pos (by norm_num) _
  have hlo := ulp_le_abs q hq.ne he
  rw [abs_of_neg hq] at hlo
  have hpow : (2 : ℚ) ^ (ulpExp q + 23) = ((2 ^ 23 : Int) : ℚ) * 2 ^ ulpExp q := by
    rw [zpow_add₀ (by norm_num)]
    push_cast
    ring
  have hx : q / 2 ^ ulpExp q ≤ ((-(2 ^ 23) : Int) : ℚ) := by
    rw [div_le_iff₀ hp]
    rw [hpow] at hlo
    push_cast at hlo ⊢
    linarith
  have h1 := roundHalfEven_le_of_le _ _ hx
  have h2 : (roundHalfEven (q / 2 ^ ulpExp q) : ℚ) ≤ ((-(2 ^ 23) : Int) : ℚ) := by
    exact_mod_cast h1
  have h3 := mul_le_mul_of_nonneg_right h2 hp.le
  rw [hpow]
  push_cast at h3 ⊢
  linarith

theorem round_same_ulp (q1 q2 : ℚ) (h : q1 ≤ q2) (he : ulpExp q1 = ulpExp q2) :
    round q1 ≤ round q2 := by
  unfold round
  rw [he]
  have hp : (0 : ℚ) < 2 ^ ulpExp q2 := zpow_pos (by norm_num) _
  have h1 := roundHalfEven_mono (q1 / 2 ^ ulpExp q2) (q2 / 2 ^ ulpExp q2)
    (div_le_div_of_nonneg_right h hp.le)
  have h2 : (roundHalfEven (q1 / 2 ^ ulpExp q2) : ℚ) ≤ (roundHalfEven (q2 / 2 ^ ulpExp q2) : ℚ) := by
    exact_mod_cast h1
  exact mul_le_mul_of_nonneg_right h2 hp.le

/-- The conversion to binary32 is monotone. -/
theorem round_mono : Monotone round := by
  intro q1 q2 h
  rcases le_or_lt q1 0 with h1 | h1
  · rcases le_or_lt 0 q2 with h2 | h2
    · exact le_trans (round_nonpos q1 h1) (round_nonneg q2 h2)
    · -- both negative
      have hq1 : q1 < 0 := lt_of_le_of_lt h h2
      have habs : |q2| ≤ |q1| := by
        rw [abs_of_neg h2, abs_of_neg hq1]
        linarith
      have hexp := ulpExp_mono q2 q1 h2.ne habs
      rcases lt_or_eq_of_le hexp with hlt | heq
      · have ha := round_le_neg_pow q1 hq1 (lt_of_le_of_lt (ulpExp_ge q2) hlt)
        have hb := neg_pow_le_round q2
        have hc : (2 : ℚ) ^ (ulpExp q2 + 24) ≤ 2 ^ (ulpExp q1 + 23) :=
          zpow_le_zpow_right₀ (by norm_num) (by omega)
        linarith
      · exact round_same_ulp q1 q2 h heq.symm
  · have hq2 : 0 < q2 := lt_of_lt_of_le h1 h
    have habs : |q1| ≤ |q2| := by
      rw [abs_of_pos h1, abs_of_pos hq2]
      exact h
    have hexp := ulpExp_mono q1 q2 h1.ne' habs
    rcases lt_or_eq_of_le hexp with hlt | heq
    · have ha := round_le_pow q1
      have hb := pow_le_round q2 hq2 (lt_of_le_of_lt (ulpExp_ge q1) hlt)
      have hc : (2 : ℚ) ^ (ulpExp q1 + 24) ≤ 2 ^ (ulpExp q2 + 23) :=
        zpow_le_zpow_right₀ (by norm_num) (by omega)
      linarith
    · exact round_same_ulp q1 q2 h heq

end F32

theorem roundHalfEven_zero : roundHalfEven 0 = 0 := by
  have h := roundHalfEven_intCast 0
  rwa [Int.cast_zero] at h

namespace F32

theorem round_zero : round 0 = 0 := by
  unfold round
  rw [zero_div, roundHalfEven_zero]
  simp

theorem round_one : round 1 = 1 := by
  rw [round_eq 1 (-23) (2 ^ 23) (by norm_num) (by norm_num) (by norm_num) (by norm_num)
    (by norm_num)]
  norm_num

theorem round_two : round 2 = 2 := by
  rw [round_eq 2 (-22) (2 ^ 23) (by norm_num) (by norm_num) (by norm_num) (by norm_num)
    (by norm_num)]
  norm_num

theorem round_three : round 3 = 3 := by
  rw [round_eq 3 (-22) (3 * 2 ^ 22) (by norm_num) (by norm_num) (by norm_num) (by norm_num)
    (by norm_num)]
  norm_num

theorem round_half_pi : round (piDouble / 2) = 13176795 / 8388608 := by
  rw [round_eq (piDouble / 2) (-23) 13176795 (by norm_num [piDouble, abs_of_pos])
    (by norm_num [piDouble, abs_of_pos]) (by norm_num)
    (by norm_num [piDouble]) (by norm_num [piDouble])]
  norm_num

theorem round_neg_half_pi : round (-piDouble / 2) = -(13176795 / 8388608) := by
  rw [round_eq (-piDouble / 2) (-23) (-13176795) (by norm_num [piDouble, abs_of_neg])
    (by norm_num [piDouble, abs_of_neg]) (by norm_num)
    (by norm_num [piDouble]) (by norm_num [piDouble])]
  norm_num

theorem sqrt_three : sqrt 3 = 14529495 / 8388608 := by
  have hlog : Int.log 2 (3 : ℚ) = 1 := log_two_eq 3 1 (by norm_num) (by norm_num)
  have ht : (3 : ℚ) / 4 ^ (-23 : Int) = ((211106232532992 : Nat) : ℚ) := by norm_num
  have hs : Nat.sqrt 211106232532992 = 14529495 := by
    symm
    rw [Nat.eq_sqrt]
    norm_num
  unfold sqrt
  rw [if_neg (by norm_num)]
  simp only [hlog]
  rw [show (1 : Int) / 2 - 23 = -23 by norm_num, ht, Nat.floor_natCast, hs]
  rw [if_neg (by norm_num)]
  norm_num

theorem round_inv_sqrt_three : round (8388608 / 14529495) = 4843165 / 8388608 := by
  rw [round_eq (8388608 / 14529495) (-24) 9686330 (by norm_num [abs_of_pos])
    (by norm_num [abs_of_pos]) (by norm_num) (by norm_num) (by norm_num)]
  norm_num

theorem round_third : round (23456247217225 / 70368744177664) = 5592405 / 16777216 := by
  rw [round_eq (23456247217225 / 70368744177664) (-25) 11184810 (by norm_num [abs_of_pos])
    (by norm_num [abs_of_pos]) (by norm_num) (by norm_num) (by norm_num)]
  norm_num

theorem round_two_thirds : round (5592405 / 8388608) = 5592405 / 8388608 := by
  rw [round_eq (5592405 / 8388608) (-24) 11184810 (by norm_num [abs_of_pos])
    (by norm_num [abs_of_pos]) (by norm_num) (by norm_num) (by norm_num)]
  norm_num

theorem round_below_one : round (16777215 / 16777216) = 16777215 / 16777216 := by
  rw [round_eq (16777215 / 16777216) (-24) 16777215 (by norm_num [abs_of_pos])
    (by norm_num [abs_of_pos]) (by norm_num) (by norm_num) (by norm_num)]
  norm_num

theorem normalise_ones :
    normalise ⟨1, 1, 1⟩ = ⟨4843165 / 8388608, 4843165 / 8388608, 4843165 / 8388608⟩ := by
  have h1 : round (round (round ((1 : ℚ) * 1) + round (1 * 1)) + round (1 * 1)) = 3 := by
    rw [mul_one, round_one, show (1 : ℚ) + 1 = 2 by norm_num, round_two,
      show (2 : ℚ) + 1 = 3 by norm_num, round_three]
  have h2 : (1 : ℚ) / (14529495 / 8388608) = 8388608 / 14529495 := by norm_num
  unfold normalise
  simp only [h1, sqrt_three, h2, round_inv_sqrt_three]

theorem length2_ones :
    length2 ⟨4843165 / 8388608, 4843165 / 8388608, 4843165 / 8388608⟩ =
      16777215 / 16777216 := by
  have h1 : (4843165 / 8388608 : ℚ) * (4843165 / 8388608) =
      23456247217225 / 70368744177664 := by norm_num
  have h2 : (5592405 / 16777216 : ℚ) + 5592405 / 16777216 = 5592405 / 8388608 := by norm_num
  have h3 : (5592405 / 8388608 : ℚ) + 5592405 / 16777216 = 16777215 / 16777216 := by norm_num
  unfold length2
  simp only [h1, round_third, h2, round_two_thirds, h3, round_below_one]

end F32

theorem trigExactAt_rat (t : ℚ) : TrigExactAt t := by
  show sinRat t * sinRat t + cosRat t * cosRat t = 1
  unfold sinRat cosRat
  by_cases h : sinPoly (t / 2) ^ 2 + cosPoly (t / 2) ^ 2 = 0
  · rw [if_pos h, h]
    simp
  · rw [if_neg h]
    field_simp
    ring

theorem sinRat_float_pi : sinRat (13176795 / 4194304) < 0 := by
  have hs : 0 < sinPoly (13176795 / 4194304 / 2) := by
    norm_num [sinPoly]
  have hc : cosPoly (13176795 / 4194304 / 2) < 0 := by
    norm_num [cosPoly]
  unfold sinRat
  apply div_neg_of_neg_of_pos
  · nlinarith
  · positivity

theorem sinRat_one : 0 < sinRat 1 := by
  have hs : 0 < sinPoly (1 / 2) := by
    norm_num [sinPoly]
  have hc : 0 < cosPoly (1 / 2) := by
    norm_num [cosPoly]
  unfold sinRat
  positivity

theorem fmodRat_far :
    fmodRat |5744379708833792| piDouble = 27633741036961 / 8796093022208 := by
  have hfloor : ⌊(5744379708833792 : ℚ) / piDouble⌋ = 1828492851315360 := by
    rw [Int.floor_eq_iff]
    norm_num [piDouble]
  unfold fmodRat
  rw [if_neg (by norm_num [piDouble]), abs_of_pos (by norm_num),
    if_pos (by norm_num [piDouble]), hfloor]
  norm_num [piDouble]

theorem round_fmod_far : F32.round (27633741036961 / 8796093022208) = 13176795 / 4194304 := by
  rw [F32.round_eq (27633741036961 / 8796093022208) (-22) 13176795 (by norm_num [abs_of_pos])
    (by norm_num [abs_of_pos]) (by norm_num) (by norm_num) (by norm_num)]
  norm_num

theorem fmodRat_one : fmodRat |1| piDouble = 1 := by
  have hfloor : ⌊(1 : ℚ) / piDouble⌋ = 0 := by
    rw [Int.floor_eq_iff]
    norm_num [piDouble]
  unfold fmodRat
  rw [if_neg (by norm_num [piDouble]), abs_one, if_pos (by norm_num [piDouble]), hfloor]
  norm_num

theorem roundHalfEven_err (x : ℚ) : |(roundHalfEven x : ℚ) - x| ≤ 1 / 2 := by
  unfold roundHalfEven
  have h0 := Int.fract_nonneg x
  have h1 := Int.fract_lt_one x
  have hx : (⌊x⌋ : ℚ) + Int.fract x = x := Int.floor_add_fract x
  rw [abs_le]
  split_ifs <;> push_cast <;> constructor <;> linarith

namespace F32

theorem unitRoundoff_pos : 0 < unitRoundoff := by
  norm_num [unitRoundoff]

theorem unitRoundoff_lt : unitRoundoff < 1 := by
  norm_num [unitRoundoff]

/-- In the normal range the rounding has a relative error of at most `2^-24`. -/
theorem round_rel (q : ℚ) (h : 1 / 2 ^ 126 ≤ |q|) :
    |round q - q| ≤ |q| * unitRoundoff := by
  have hpos : 0 < |q| := lt_of_lt_of_le (by norm_num) h
  have hlog : -126 ≤ Int.log 2 |q| := by
    rw [← Int.zpow_le_iff_le_log (by norm_num) hpos]
    have : ((2 : ℕ) : ℚ) ^ (-126 : Int) = 1 / 2 ^ 126 := by norm_num [zpow_neg]
    rw [this]
    exact h
  have he : ulpExp q = Int.log 2 |q| - 23 := by
    unfold ulpExp
    exact max_eq_left (by omega)
  have hp : (0 : ℚ) < 2 ^ ulpExp q := zpow_pos (by norm_num) _
  have key : round q - q = ((roundHalfEven (q / 2 ^ ulpExp q) : ℚ) - q / 2 ^ ulpExp q) *
      2 ^ ulpExp q := by
    unfold round
    field_simp
  have hle : (2 : ℚ) ^ Int.log 2 |q| ≤ |q| := by
    have h2 : ((2 : ℕ) : ℚ) ^ Int.log 2 |q| ≤ |q| := Int.zpow_log_le_self (by norm_num) hpos
    exact_mod_cast h2
  have hsplit : (2 : ℚ) ^ ulpExp q = 2 ^ Int.log 2 |q| * (1 / 2 ^ 23) := by
    rw [he, zpow_sub₀ (by norm_num)]
    norm_num [div_eq_mul_inv]
  rw [key, abs_mul, abs_of_pos hp]
  have herr := roundHalfEven_err (q / 2 ^ ulpExp q)
  calc |(roundHalfEven (q / 2 ^ ulpExp q) : ℚ) - q / 2 ^ ulpExp q| * 2 ^ ulpExp q
      ≤ 1 / 2 * 2 ^ ulpExp q := mul_le_mul_of_nonneg_right herr hp.le
    _ = 2 ^ Int.log 2 |q| * unitRoundoff := by
        rw [hsplit]
        unfold unitRoundoff
        ring
    _ ≤ |q| * unitRoundoff := mul_le_mul_of_nonneg_right hle unitRoundoff_pos.le

theorem round_nonneg_rel (q : ℚ) (h0 : 0 ≤ q) (h : q = 0 ∨ 1 / 2 ^ 126 ≤ q) :
    q * (1 - unitRoundoff) ≤ round q ∧ round q ≤ q * (1 + unitRoundoff) := by
  rcases h with h | h
  · rw [h, round_zero]
    simp
  · have habs : |q| = q := abs_of_nonneg h0
    have hr := round_rel q (by rw [habs]; exact h)
    rw [habs, abs_le] at hr
    constructor <;> linarith [hr.1, hr.2]

theorem near_zero (k : Nat) (v : ℚ) (h : Near k v 0) : v = 0 := by
  obtain ⟨h1, h2⟩ := h
  rw [zero_mul] at h1 h2
  exact le_antisymm h2 h1

theorem one_sub_pow_nonneg (k : Nat) : 0 ≤ (1 - unitRoundoff) ^ k :=
  pow_nonneg (by linarith [unitRoundoff_lt]) k

theorem near_nonneg (k : Nat) (v e : ℚ) (he : 0 ≤ e) (h : Near k v e) : 0 ≤ v :=
  le_trans (mul_nonneg he (one_sub_pow_nonneg k)) h.1

theorem near_refl (e : ℚ) : Near 0 e e := by
  unfold Near
  simp

theorem near_add (k : Nat) (v1 v2 e1 e2 : ℚ) (h1 : Near k v1 e1) (h2 : Near k v2 e2) :
    Near k (v1 + v2) (e1 + e2) := by
  obtain ⟨a1, b1⟩ := h1
  obtain ⟨a2, b2⟩ := h2
  constructor
  · rw [add_mul]
    linarith
  · rw [add_mul]
    linarith

theorem near_mono (k j : Nat) (v e : ℚ) (hkj : k ≤ j) (he : 0 ≤ e) (h : Near k v e) :
    Near j v e := by
  obtain ⟨h1, h2⟩ := h
  have hu := unitRoundoff_pos
  have hu1 := unitRoundoff_lt
  constructor
  · have : (1 - unitRoundoff) ^ j ≤ (1 - unitRoundoff) ^ k :=
      pow_le_pow_of_le_one (by linarith) (by linarith) hkj
    exact le_trans (mul_le_mul_of_nonneg_left this he) h1
  · have : (1 + unitRoundoff) ^ k ≤ (1 + unitRoundoff) ^ j :=
      pow_le_pow_right₀ (by linarith) hkj
    exact le_trans h2 (mul_le_mul_of_nonneg_left this he)

theorem near_round (k : Nat) (v e : ℚ) (he : 0 ≤ e) (h : Near k v e)
    (hv : v = 0 ∨ 1 / 2 ^ 126 ≤ v) : Near (k + 1) (round v) e := by
  have hv0 := near_nonneg k v e he h
  obtain ⟨h1, h2⟩ := h
  obtain ⟨r1, r2⟩ := round_nonneg_rel v hv0 hv
  have hu := unitRoundoff_pos
  have hu1 := unitRoundoff_lt
  constructor
  · rw [pow_succ, ← mul_assoc]
    exact le_trans (mul_le_mul_of_nonneg_right h1 (by linarith)) r1
  · rw [pow_succ, ← mul_assoc]
    exact le_trans r2 (mul_le_mul_of_nonneg_right h2 (by linarith))

theorem half_le_pow : (1 : ℚ) / 2 ≤ (1 - unitRoundoff) ^ 7 := by
  norm_num [unitRoundoff]

/-- A value near an exact value that is zero or at least `2^-125` is zero or
in the normal range. -/
theorem near_normal (k : Nat) (v e : ℚ) (hk : k ≤ 7) (h : Near k v e)
    (he : e = 0 ∨ 1 / 2 ^ 125 ≤ e) : v = 0 ∨ 1 / 2 ^ 126 ≤ v := by
  rcases he with he | he
  · left
    rw [he] at h
    exact near_zero k v h
  · right
    have he0 : 0 ≤ e := le_trans (by norm_num) he
    have h7 := (near_mono k 7 v e hk he0 h).1
    have := mul_le_mul_of_nonneg_left half_le_pow he0
    calc (1 : ℚ) / 2 ^ 126 = 1 / 2 ^ 125 * (1 / 2) := by norm_num
      _ ≤ e * (1 / 2) := mul_le_mul_of_nonneg_right he (by norm_num)
      _ ≤ e * (1 - unitRoundoff) ^ 7 := this
      _ ≤ v := h7

theorem sq_round (q : ℚ) (h : q = 0 ∨ 1 / 2 ^ 126 ≤ |q|) : Near 2 (round q ^ 2) (q ^ 2) := by
  rcases h with h | h
  · rw [h, round_zero]
    unfold Near
    simp
  · have hr := round_rel q h
    have hu := unitRoundoff_pos
    have hu1 := unitRoundoff_lt
    have habs := abs_nonneg q
    have h1 : |q| * (1 - unitRoundoff) ≤ |round q| := by
      have := abs_sub_abs_le_abs_sub q (round q)
      rw [abs_sub_comm] at this
      linarith
    have h2 : |round q| ≤ |q| * (1 + unitRoundoff) := by
      have := abs_sub_abs_le_abs_sub (round q) q
      linarith
    have h3 : 0 ≤ |q| * (1 - unitRoundoff) := mul_nonneg habs (by linarith)
    constructor
    · rw [← sq_abs q, ← sq_abs (round q), ← mul_pow]
      exact pow_le_pow_left₀ h3 h1 2
    · rw [← sq_abs q, ← sq_abs (round q), ← mul_pow]
      exact pow_le_pow_left₀ (abs_nonneg _) h2 2

end F32

namespace F32

theorem four_zpow (e : Int) : (4 : ℚ) ^ e = (2 ^ e) ^ 2 := by
  rw [show (4 : ℚ) = 2 * 2 by norm_num, mul_zpow, sq]

/-- The scaled argument `t = q / 4^e` of `sqrt` is at least `2^46`. -/
theorem sqrt_scaled_ge (s : ℚ) (hs : 0 < s) :
    (2 : ℚ) ^ 46 ≤ s / 4 ^ (Int.log 2 s / 2 - 23) := by
  have hlog : ((2 : ℕ) : ℚ) ^ Int.log 2 s ≤ s := Int.zpow_log_le_self (by norm_num) hs
  rw [Nat.cast_ofNat] at hlog
  have hp : (0 : ℚ) < 4 ^ (Int.log 2 s / 2 - 23) := zpow_pos (by norm_num) _
  rw [le_div_iff₀ hp]
  have h4 : (4 : ℚ) ^ (Int.log 2 s / 2 - 23) = 2 ^ (2 * (Int.log 2 s / 2 - 23)) := by
    rw [show (4 : ℚ) = 2 ^ (2 : Int) by norm_num, ← zpow_mul]
  rw [h4, show (2 : ℚ) ^ 46 = 2 ^ (46 : Int) by norm_num, ← zpow_add₀ (by norm_num)]
  refine le_trans (zpow_le_zpow_right₀ (by norm_num) ?_) hlog
  omega

/-- The correctly rounded square root has a relative error of at most
`2^-24`, stated for the squares. -/
theorem sqrt_rel (s : ℚ) (hs : 0 < s) :
    0 < sqrt s ∧ sqrt s ^ 2 * (1 - unitRoundoff) ^ 2 ≤ s ∧
      s ≤ sqrt s ^ 2 * (1 + unitRoundoff) ^ 2 := by
  have ht := sqrt_scaled_ge s hs
  have hp4 : (0 : ℚ) < 4 ^ (Int.log 2 s / 2 - 23) := zpow_pos (by norm_num) _
  have hp2 : (0 : ℚ) < 2 ^ (Int.log 2 s / 2 - 23) := zpow_pos (by norm_num) _
  have h4 := four_zpow (Int.log 2 s / 2 - 23)
  have hst : s = s / 4 ^ (Int.log 2 s / 2 - 23) * (2 ^ (Int.log 2 s / 2 - 23)) ^ 2 := by
    rw [← h4]
    field_simp
  unfold sqrt
  rw [if_neg (not_le.mpr hs)]
  simp only
  generalize s / 4 ^ (Int.log 2 s / 2 - 23) = t at ht hst
  generalize (2 : ℚ) ^ (Int.log 2 s / 2 - 23) = p at hp2 hst
  have ht0 : 0 ≤ t := le_trans (by norm_num) ht
  have hfl : ((⌊t⌋₊ : Nat) : ℚ) ≤ t := Nat.floor_le ht0
  have hfl2 : t < ((⌊t⌋₊ : Nat) : ℚ) + 1 := Nat.lt_floor_add_one t
  have hn : 2 ^ 46 ≤ ⌊t⌋₊ := by
    apply Nat.le_floor
    push_cast
    exact ht
  have hm1 : Nat.sqrt ⌊t⌋₊ * Nat.sqrt ⌊t⌋₊ ≤ ⌊t⌋₊ := Nat.sqrt_le _
  have hm2 : ⌊t⌋₊ < (Nat.sqrt ⌊t⌋₊ + 1) * (Nat.sqrt ⌊t⌋₊ + 1) := Nat.lt_succ_sqrt _
  have hm3 : 2 ^ 23 ≤ Nat.sqrt ⌊t⌋₊ := by
    rw [Nat.le_sqrt]
    exact le_trans (by norm_num) hn
  generalize Nat.sqrt ⌊t⌋₊ = m at hm1 hm2 hm3
  generalize ⌊t⌋₊ = n at hfl hfl2 hn hm1 hm2
  have hq1 : (m : ℚ) * m ≤ n := by exact_mod_cast hm1
  have hq2 : (n : ℚ) + 1 ≤ ((m : ℚ) + 1) * (m + 1) := by exact_mod_cast hm2
  have hq3 : (2 : ℚ) ^ 23 ≤ m := by exact_mod_cast hm3
  have hu : unitRoundoff = 1 / 2 ^ 24 := rfl
  have hmu : (1 : ℚ) / 2 ≤ m * unitRoundoff := by
    rw [hu]
    linarith
  have hm0 : (0 : ℚ) < m := lt_of_lt_of_le (by norm_num) hq3
  have hu0 := unitRoundoff_pos
  have hu1 := unitRoundoff_lt
  have hpsq : 0 < p ^ 2 := pow_pos hp2 2
  have hsq : ((m : ℚ) + 1 / 2) ^ 2 = (m : ℚ) * m + m + 1 / 4 := by ring
  by_cases hup : (m : ℚ) * m + m + 1 / 4 < t
  · rw [if_pos hup]
    have hr0 : (0 : ℚ) < (m : ℚ) + 1 := by linarith
    refine ⟨mul_pos hr0 hp2, ?_, ?_⟩
    · have h1 : ((m : ℚ) + 1) * (1 - unitRoundoff) ≤ (m : ℚ) + 1 / 2 := by
        have : ((m : ℚ) + 1) * (1 - unitRoundoff) =
            (m : ℚ) + 1 - m * unitRoundoff - unitRoundoff := by ring
        linarith
      have h2 : 0 ≤ ((m : ℚ) + 1) * (1 - unitRoundoff) := mul_nonneg hr0.le (by linarith)
      have h3 : (((m : ℚ) + 1) * (1 - unitRoundoff)) ^ 2 ≤ ((m : ℚ) + 1 / 2) ^ 2 :=
        pow_le_pow_left₀ h2 h1 2
      have h4 : (((m : ℚ) + 1) * (1 - unitRoundoff)) ^ 2 ≤ t := by linarith
      calc (((m : ℚ) + 1) * p) ^ 2 * (1 - unitRoundoff) ^ 2
          = (((m : ℚ) + 1) * (1 - unitRoundoff)) ^ 2 * p ^ 2 := by ring
        _ ≤ t * p ^ 2 := mul_le_mul_of_nonneg_right h4 hpsq.le
        _ = s := hst.symm
    · have h0 : (m : ℚ) + 1 ≤ ((m : ℚ) + 1) * (1 + unitRoundoff) := by
        have : ((m : ℚ) + 1) * (1 + unitRoundoff) =
            (m : ℚ) + 1 + ((m : ℚ) + 1) * unitRoundoff := by ring
        have hnn : 0 ≤ ((m : ℚ) + 1) * unitRoundoff := mul_nonneg hr0.le hu0.le
        linarith
      have h2 : ((m : ℚ) + 1) ^ 2 ≤ (((m : ℚ) + 1) * (1 + unitRoundoff)) ^ 2 :=
        pow_le_pow_left₀ hr0.le h0 2
      have h3 : ((m : ℚ) + 1) ^ 2 = ((m : ℚ) + 1) * (m + 1) := by ring
      have h1 : t ≤ (((m : ℚ) + 1) * (1 + unitRoundoff)) ^ 2 := by linarith
      calc s = t * p ^ 2 := hst
        _ ≤ (((m : ℚ) + 1) * (1 + unitRoundoff)) ^ 2 * p ^ 2 :=
            mul_le_mul_of_nonneg_right h1 hpsq.le
        _ = (((m : ℚ) + 1) * p) ^ 2 * (1 + unitRoundoff) ^ 2 := by ring
  · rw [if_neg hup]
    have hup2 : t ≤ (m : ℚ) * m + m + 1 / 4 := not_lt.mp hup
    refine ⟨mul_pos hm0 hp2, ?_, ?_⟩
    · have h0 : (m : ℚ) * (1 - unitRoundoff) ≤ m := by
        have : (m : ℚ) * (1 - unitRoundoff) = (m : ℚ) - m * unitRoundoff := by ring
        linarith
      have h2 : ((m : ℚ) * (1 - unitRoundoff)) ^ 2 ≤ (m : ℚ) ^ 2 :=
        pow_le_pow_left₀ (mul_nonneg hm0.le (by linarith)) h0 2
      have h3 : (m : ℚ) ^ 2 = (m : ℚ) * m := by ring
      have h1 : ((m : ℚ) * (1 - unitRoundoff)) ^ 2 ≤ t := by linarith
      calc ((m : ℚ) * p) ^ 2 * (1 - unitRoundoff) ^ 2
          = ((m : ℚ) * (1 - unitRoundoff)) ^ 2 * p ^ 2 := by ring
        _ ≤ t * p ^ 2 := mul_le_mul_of_nonneg_right h1 hpsq.le
        _ = s := hst.symm
    · have h1 : (m : ℚ) + 1 / 2 ≤ (m : ℚ) * (1 + unitRoundoff) := by
        have : (m : ℚ) * (1 + unitRoundoff) = (m : ℚ) + m * unitRoundoff := by ring
        linarith
      have h3 : ((m : ℚ) + 1 / 2) ^ 2 ≤ ((m : ℚ) * (1 + unitRoundoff)) ^ 2 :=
        pow_le_pow_left₀ (by linarith) h1 2
      have h4 : t ≤ ((m : ℚ) * (1 + unitRoundoff)) ^ 2 := by linarith
      calc s = t * p ^ 2 := hst
        _ ≤ ((m : ℚ) * (1 + unitRoundoff)) ^ 2 * p ^ 2 :=
            mul_le_mul_of_nonneg_right h4 hpsq.le
        _ = ((m : ℚ) * p) ^ 2 * (1 + unitRoundoff) ^ 2 := by ring

end F32

namespace F32

theorem midRange_sq (x : ℚ) (h : MidRange x) :
    (x * x = 0 ∨ 1 / 2 ^ 125 ≤ x * x) ∧ 0 ≤ x * x ∧ x * x ≤ 2 ^ 60 ∧
      (x ≠ 0 → 1 / 2 ^ 60 ≤ x * x) := by
  have h0 : 0 ≤ x * x := mul_self_nonneg x
  rcases h with h | ⟨h1, h2⟩
  · subst h
    exact ⟨Or.inl (by simp), h0, by norm_num, fun hne => absurd rfl hne⟩
  · have habs : x * x = |x| * |x| := (abs_mul_abs_self x).symm
    have hlo : 1 / 2 ^ 60 ≤ x * x := by
      rw [habs]
      calc (1 : ℚ) / 2 ^ 60 = 1 / 2 ^ 30 * (1 / 2 ^ 30) := by norm_num
        _ ≤ |x| * |x| := mul_le_mul h1 h1 (by norm_num) (abs_nonneg x)
    have hhi : x * x ≤ 2 ^ 60 := by
      rw [habs]
      calc |x| * |x| ≤ 2 ^ 30 * 2 ^ 30 := mul_le_mul h2 h2 (abs_nonneg x) (by norm_num)
        _ = 2 ^ 60 := by norm_num
    exact ⟨Or.inr (le_trans (by norm_num) hlo), h0, hhi, fun _ => hlo⟩

theorem sum_normal (a b : ℚ) (ha0 : 0 ≤ a) (hb0 : 0 ≤ b) (ha : a = 0 ∨ 1 / 2 ^ 125 ≤ a)
    (hb : b = 0 ∨ 1 / 2 ^ 125 ≤ b) : a + b = 0 ∨ 1 / 2 ^ 125 ≤ a + b := by
  rcases ha with ha | ha
  · rcases hb with hb | hb
    · left
      rw [ha, hb, add_zero]
    · right
      linarith
  · right
    linarith

/-- The sum of three values, rounded after each addition, as `length2`
computes it. -/
theorem near_sum3 (k : Nat) (pa pb pc ea eb ec : ℚ) (hk : k + 1 ≤ 7)
    (ha : Near k pa ea) (hb : Near k pb eb) (hc : Near k pc ec)
    (ha0 : 0 ≤ ea) (hb0 : 0 ≤ eb) (hc0 : 0 ≤ ec)
    (han : ea = 0 ∨ 1 / 2 ^ 125 ≤ ea) (hbn : eb = 0 ∨ 1 / 2 ^ 125 ≤ eb)
    (hcn : ec = 0 ∨ 1 / 2 ^ 125 ≤ ec) :
    Near (k + 2) (round (round (pa + pb) + pc)) (ea + eb + ec) := by
  have hab := near_add k pa pb ea eb ha hb
  have habn := sum_normal ea eb ha0 hb0 han hbn
  have h1 : Near (k + 1) (round (pa + pb)) (ea + eb) :=
    near_round k _ _ (add_nonneg ha0 hb0) hab (near_normal k _ _ (by omega) hab habn)
  have hc1 : Near (k + 1) pc ec := near_mono k (k + 1) pc ec (by omega) hc0 hc
  have h2 := near_add (k + 1) _ _ _ _ h1 hc1
  have h2n := sum_normal (ea + eb) ec (add_nonneg ha0 hb0) hc0 habn hcn
  exact near_round (k + 1) _ _ (add_nonneg (add_nonneg ha0 hb0) hc0) h2
    (near_normal (k + 1) _ _ hk h2 h2n)

theorem near_square (x : ℚ) (h : MidRange x) : Near 1 (round (x * x)) (x * x) := by
  obtain ⟨hn, h0, _, _⟩ := midRange_sq x h
  refine near_round 0 _ _ h0 (near_refl _) ?_
  rcases hn with hn | hn
  · exact Or.inl hn
  · exact Or.inr (le_trans (by norm_num) hn)

/-- A component of the normalised vector, squared and rounded. -/
theorem near_component (x m : ℚ) (hx : MidRange x) (hm : 0 < m) (hm2 : m ≤ 2 ^ 32) :
    Near 3 (round (round (x / m) * round (x / m))) (x * x / (m * m)) ∧
    0 ≤ x * x / (m * m) ∧ (x * x / (m * m) = 0 ∨ 1 / 2 ^ 125 ≤ x * x / (m * m)) := by
  obtain ⟨_, h0, _, hlo⟩ := midRange_sq x hx
  have hmm : 0 < m * m := mul_pos hm hm
  have hmm2 : m * m ≤ 2 ^ 64 := by
    calc m * m ≤ 2 ^ 32 * 2 ^ 32 := mul_le_mul hm2 hm2 hm.le (by norm_num)
      _ = 2 ^ 64 := by norm_num
  have he0 : 0 ≤ x * x / (m * m) := div_nonneg h0 hmm.le
  have hsq : (x / m) ^ 2 = x * x / (m * m) := by
    field_simp
    ring
  have hen : x * x / (m * m) = 0 ∨ 1 / 2 ^ 125 ≤ x * x / (m * m) := by
    by_cases hx0 : x = 0
    · left
      rw [hx0]
      simp
    · right
      rw [le_div_iff₀ hmm]
      have := hlo hx0
      calc (1 : ℚ) / 2 ^ 125 * (m * m) ≤ 1 / 2 ^ 125 * 2 ^ 64 :=
            mul_le_mul_of_nonneg_left hmm2 (by norm_num)
        _ ≤ 1 / 2 ^ 60 := by norm_num
        _ ≤ x * x := this
  have hq : x / m = 0 ∨ 1 / 2 ^ 126 ≤ |x / m| := by
    by_cases hx0 : x = 0
    · left
      rw [hx0, zero_div]
    · right
      rcases hx with hx | ⟨hx1, _⟩
      · exact absurd hx hx0
      · rw [abs_div, abs_of_pos hm, le_div_iff₀ hm]
        calc (1 : ℚ) / 2 ^ 126 * m ≤ 1 / 2 ^ 126 * 2 ^ 32 :=
              mul_le_mul_of_nonneg_left hm2 (by norm_num)
          _ ≤ 1 / 2 ^ 30 := by norm_num
          _ ≤ |x| := hx1
  have h2 : Near 2 (round (x / m) * round (x / m)) (x * x / (m * m)) := by
    have := sq_round (x / m) hq
    rwa [hsq, sq] at this
  exact ⟨near_round 2 _ _ he0 h2 (near_normal 2 _ _ (by norm_num) h2 hen), he0, hen⟩

theorem pow_ratio_upper :
    (1 + unitRoundoff) ^ 2 * (1 + unitRoundoff) ^ 5 ≤
      (1 + 1 / 2 ^ 20) * (1 - unitRoundoff) ^ 3 := by
  norm_num [unitRoundoff]

theorem pow_ratio_lower :
    (1 - 1 / 2 ^ 20) * (1 + unitRoundoff) ^ 3 ≤
      (1 - unitRoundoff) ^ 2 * (1 - unitRoundoff) ^ 5 := by
  norm_num [unitRoundoff]

/-- The squared length of a normalised vector in binary32 arithmetic is `1` up
to `2^-20`, for a vector that is not zero with components in the middle
range. -/
theorem normalise_near_unit (v : Vec3 ℚ) (hx : MidRange v.x) (hy : MidRange v.y)
    (hz : MidRange v.z) (hv : v ≠ ⟨0, 0, 0⟩) :
    |length2 (normalise v) - 1| ≤ 1 / 2 ^ 20 := by
  obtain ⟨x, y, z⟩ := v
  dsimp only at hx hy hz
  unfold length2 normalise
  dsimp only
  obtain ⟨hxn, hx0, hxhi, hxlo⟩ := midRange_sq x hx
  obtain ⟨hyn, hy0, hyhi, hylo⟩ := midRange_sq y hy
  obtain ⟨hzn, hz0, hzhi, hzlo⟩ := midRange_sq z hz
  have hu0 := unitRoundoff_pos
  have hu1 := unitRoundoff_lt
  -- the exact squared length
  have hSlo : 1 / 2 ^ 60 ≤ x * x + y * y + z * z := by
    by_cases h1 : x = 0
    · by_cases h2 : y = 0
      · by_cases h3 : z = 0
        · exact absurd (by rw [h1, h2, h3]) hv
        · linarith [hzlo h3]
      · linarith [hylo h2]
    · linarith [hxlo h1]
  have hShi : x * x + y * y + z * z ≤ 3 * 2 ^ 60 := by linarith
  -- the rounded squared length
  have hs : Near 3 (round (round (round (x * x) + round (y * y)) + round (z * z)))
      (x * x + y * y + z * z) :=
    near_sum3 1 _ _ _ _ _ _ (by norm_num) (near_square x hx) (near_square y hy)
      (near_square z hz) hx0 hy0 hz0 hxn hyn hzn
  generalize round (round (round (x * x) + round (y * y)) + round (z * z)) = s at hs ⊢
  generalize hS : x * x + y * y + z * z = S at hs hSlo hShi
  have hS0 : 0 < S := lt_of_lt_of_le (by norm_num) hSlo
  obtain ⟨hs1, hs2⟩ := hs
  have hpow3 : 0 < (1 - unitRoundoff) ^ 3 := pow_pos (by linarith) 3
  have hspos : 0 < s := lt_of_lt_of_le (mul_pos hS0 hpow3) hs1
  -- the magnitude
  obtain ⟨hm0, hm1, hm2⟩ := sqrt_rel s hspos
  generalize sqrt s = m at hm0 hm1 hm2 ⊢
  have hM1 : m ^ 2 * (1 - unitRoundoff) ^ 2 ≤ S * (1 + unitRoundoff) ^ 3 := le_trans hm1 hs2
  have hM2 : S * (1 - unitRoundoff) ^ 3 ≤ m ^ 2 * (1 + unitRoundoff) ^ 2 := le_trans hs1 hm2
  have hmle : m ≤ 2 ^ 32 := by
    by_contra hcon
    have hgt : (2 : ℚ) ^ 32 < m := not_le.mp hcon
    have h1 : (2 ^ 32 : ℚ) ^ 2 < m ^ 2 := pow_lt_pow_left₀ hgt (by norm_num) (by norm_num)
    have h2 : (1 : ℚ) / 2 ≤ (1 - unitRoundoff) ^ 2 := by norm_num [unitRoundoff]
    have h3 : (1 + unitRoundoff) ^ 3 ≤ 2 := by norm_num [unitRoundoff]
    have h4 : m ^ 2 * (1 / 2) ≤ m ^ 2 * (1 - unitRoundoff) ^ 2 :=
      mul_le_mul_of_nonneg_left h2 (sq_nonneg m)
    have h5 : S * (1 + unitRoundoff) ^ 3 ≤ 3 * 2 ^ 60 * 2 :=
      mul_le_mul hShi h3 (pow_nonneg (by linarith) 3) (by norm_num)
    norm_num at h1 h5
    linarith
  -- the components
  obtain ⟨hpx, hex0, hexn⟩ := near_component x m hx hm0 hmle
  obtain ⟨hpy, hey0, heyn⟩ := near_component y m hy hm0 hmle
  obtain ⟨hpz, hez0, hezn⟩ := near_component z m hz hm0 hmle
  have hL := near_sum3 3 _ _ _ _ _ _ (by norm_num) hpx hpy hpz hex0 hey0 hez0 hexn heyn hezn
  have hmm : 0 < m * m := mul_pos hm0 hm0
  have hE : x * x / (m * m) + y * y / (m * m) + z * z / (m * m) = S / m ^ 2 := by
    rw [← hS, sq, ← add_div, ← add_div]
  rw [hE] at hL
  generalize round (round (round (round (x / m) * round (x / m)) +
      round (round (y / m) * round (y / m))) + round (round (z / m) * round (z / m))) = l
    at hL ⊢
  obtain ⟨hL1, hL2⟩ := hL
  have hm2pos : 0 < m ^ 2 := pow_pos hm0 2
  have hp3 : 0 < (1 + unitRoundoff) ^ 3 := pow_pos (by linarith) 3
  -- bounds of S / m^2
  have hr1 : S / m ^ 2 ≤ (1 + unitRoundoff) ^ 2 / (1 - unitRoundoff) ^ 3 := by
    rw [div_le_div_iff₀ hm2pos hpow3]
    linarith
  have hr2 : (1 - unitRoundoff) ^ 2 / (1 + unitRoundoff) ^ 3 ≤ S / m ^ 2 := by
    rw [div_le_div_iff₀ hp3 hm2pos]
    linarith
  have hp5 : 0 ≤ (1 + unitRoundoff) ^ 5 := pow_nonneg (by linarith) 5
  have hq5 : 0 ≤ (1 - unitRoundoff) ^ 5 := pow_nonneg (by linarith) 5
  have hupper : l ≤ 1 + 1 / 2 ^ 20 := by
    have h1 : l ≤ (1 + unitRoundoff) ^ 2 / (1 - unitRoundoff) ^ 3 * (1 + unitRoundoff) ^ 5 :=
      le_trans hL2 (mul_le_mul_of_nonneg_right hr1 hp5)
    have h2 : (1 + unitRoundoff) ^ 2 / (1 - unitRoundoff) ^ 3 * (1 + unitRoundoff) ^ 5 ≤
        1 + 1 / 2 ^ 20 := by
      rw [div_mul_eq_mul_div, div_le_iff₀ hpow3]
      exact pow_ratio_upper
    exact le_trans h1 h2
  have hlower : 1 - 1 / 2 ^ 20 ≤ l := by
    have h1 : (1 - unitRoundoff) ^ 2 / (1 + unitRoundoff) ^ 3 * (1 - unitRoundoff) ^ 5 ≤ l :=
      le_trans (mul_le_mul_of_nonneg_right hr2 hq5) hL1
    have h2 : 1 - 1 / 2 ^ 20 ≤
        (1 - unitRoundoff) ^ 2 / (1 + unitRoundoff) ^ 3 * (1 - unitRoundoff) ^ 5 := by
      rw [div_mul_eq_mul_div, le_div_iff₀ hp3]
      exact pow_ratio_lower
    exact le_trans h2 h1
  rw [abs_le]
  constructor <;> linarith

end F32

end Rounding

section Lists

variable {α : Type}

theorem getElem?_snoc_cases (pre : List α) (o : α) (j : Nat) (oj : α)
    (h : (pre ++ [o])[j]? = some oj) : pre[j]? = some oj ∨ (j = pre.length ∧ oj = o) := by
  rcases Nat.lt_or_ge j pre.length with hj | hj
  · left
    rw [List.getElem?_append_left hj] at h
    exact h
  · right
    rw [List.getElem?_append_right hj] at h
    rcases Nat.eq_zero_or_pos (j - pre.length) with h0 | h0
    · rw [h0] at h
      simp at h
      exact ⟨by omega, h.symm⟩
    · obtain ⟨m, hm⟩ : ∃ m, j - pre.length = m + 1 := ⟨j - pre.length - 1, by omega⟩
      rw [hm] at h
      simp at h

theorem getElem?_snoc_of_lt (pre : List α) (o : α) (j : Nat) (oj : α)
    (h : pre[j]? = some oj) : (pre ++ [o])[j]? = some oj := by
  have hj : j < pre.length := by
    by_contra hc
    rw [List.getElem?_eq_none (by omega)] at h
    exact absurd h (by simp)
  rw [List.getElem?_append_left hj]
  exact h

theorem getElem?_lt_length (l : List α) (j : Nat) (oj : α) (h : l[j]? = some oj) :
    j < l.length := by
  by_contra hc
  rw [List.getElem?_eq_none (by omega)] at h
  exact absurd h (by simp)

end Lists

namespace Vec3

variable {F : Type} [LinearOrderedField F]

@[simp]
theorem add_x (a b : Vec3 F) : (a + b).x = a.x + b.x := rfl
@[simp]
theorem add_y (a b : Vec3 F) : (a + b).y = a.y + b.y := rfl
@[simp]
theorem add_z (a b : Vec3 F) : (a + b).z = a.z + b.z := rfl
@[simp]
theorem sub_x (a b : Vec3 F) : (a - b).x = a.x - b.x := rfl
@[simp]
theorem sub_y (a b : Vec3 F) : (a - b).y = a.y - b.y := rfl
@[simp]
theorem sub_z (a b : Vec3 F) : (a - b).z = a.z - b.z := rfl
@[simp]
theorem smul_x (a : Vec3 F) (s : F) : (a * s).x = a.x * s := rfl
@[simp]
theorem smul_y (a : Vec3 F) (s : F) : (a * s).y = a.y * s := rfl
@[simp]
theorem smul_z (a : Vec3 F) (s : F) : (a * s).z = a.z * s := rfl
end Vec3

theorem sqrtRat_mul_self (q : ℚ) (hq : 0 ≤ q) : sqrtRat (q * q) = q := by
  unfold sqrtRat
  rw [Rat.mul_self_num, Rat.mul_self_den]
  have hn : 0 ≤ q.num := Rat.num_nonneg.mpr hq
  have h1 : (q.num * q.num).toNat = q.num.toNat * q.num.toNat := by
    have := Int.toNat_of_nonneg hn
    zify
    rw [Int.toNat_of_nonneg (mul_nonneg hn hn), this]
  rw [h1, Nat.sqrt_eq, Nat.sqrt_eq]
  have h2 : ((q.num.toNat : ℕ) : ℚ) = (q.num : ℚ) := by
    have := Int.toNat_of_nonneg hn
    exact_mod_cast this
  rw [h2]
  exact Rat.num_div_den q

theorem sqrtExactAt_mul_self (q : ℚ) (hq : 0 ≤ q) : SqrtExactAt (q * q) := by
  unfold SqrtExactAt IsSqrt
  show 0 ≤ sqrtRat (q * q) ∧ sqrtRat (q * q) * sqrtRat (q * q) = q * q
  rw [sqrtRat_mul_self q hq]
  exact ⟨hq, rfl⟩

namespace World

variable {F : Type} [LinearOrderedField F]

theorem minCastDist_pos (w : World F) : (0 : F) < w.minCastDist := by
  unfold minCastDist
  positivity

variable [LibM F]

/-- One round of the loop of `castRay` keeps the invariant. -/
theorem castInv_step (w : World F) (ray : Ray F) (pre : List (WorldObject F))
    (o : WorldObject F) (index : Int) (sm : F) (hinv : CastInv w ray pre (index, sm)) :
    CastInv w ray (pre ++ [o])
      (if o.distance ray > 0 ∧ o.distance ray > w.minCastDist ∧
          (index = -1 ∨ o.distance ray < sm)
        then ((pre.length : Int), o.distance ray) else (index, sm)) := by
  have hlen : (pre ++ [o])[pre.length]? = some o := by
    rw [List.getElem?_append_right (le_refl _)]
    simp
  split_ifs with hc
  · obtain ⟨_, hq, hlt⟩ := hc
    right
    refine ⟨pre.length, o, rfl, hlen, rfl, hq, ?_, ?_⟩
    · intro j oj hj hqj
      rcases getElem?_snoc_cases pre o j oj hj with hj1 | ⟨_, rfl⟩
      · rcases hinv with ⟨_, hnone⟩ | ⟨k, ok, hk, _, _, _, hmin, _⟩
        · exact absurd hqj (hnone j oj hj1)
        · have h1 : sm ≤ oj.distance ray := hmin j oj hj1 hqj
          rcases hlt with hm | hm
          · simp only at hk
            omega
          · exact le_of_lt (lt_of_lt_of_le hm h1)
      · exact le_refl _
    · intro j oj hjlt hj hqj
      rcases getElem?_snoc_cases pre o j oj hj with hj1 | ⟨hjeq, _⟩
      · rcases hinv with ⟨_, hnone⟩ | ⟨k, ok, hk, _, _, _, hmin, _⟩
        · exact absurd hqj (hnone j oj hj1)
        · have h1 : sm ≤ oj.distance ray := hmin j oj hj1 hqj
          rcases hlt with hm | hm
          · simp only at hk
            omega
          · exact lt_of_lt_of_le hm h1
      · omega
  · have hpos : ∀ d : F, d > w.minCastDist → d > 0 :=
      fun d hd => lt_trans (minCastDist_pos w) hd
    rcases hinv with ⟨hidx, hnone⟩ | ⟨k, ok, hk, hok, hd, hq, hmin, hfirst⟩
    · left
      refine ⟨hidx, ?_⟩
      intro j oj hj hqj
      rcases getElem?_snoc_cases pre o j oj hj with hj1 | ⟨_, rfl⟩
      · exact hnone j oj hj1 hqj
      · exact hc ⟨hpos _ hqj, hqj, Or.inl hidx⟩
    · right
      refine ⟨k, ok, hk, getElem?_snoc_of_lt pre o k ok hok, hd, hq, ?_, ?_⟩
      · intro j oj hj hqj
        rcases getElem?_snoc_cases pre o j oj hj with hj1 | ⟨_, rfl⟩
        · exact hmin j oj hj1 hqj
        · by_contra hlt
          exact hc ⟨hpos _ hqj, hqj, Or.inr (lt_of_not_le hlt)⟩
      · intro j oj hjk hj hqj
        have hklt : k < pre.length := getElem?_lt_length pre k ok hok
        rcases getElem?_snoc_cases pre o j oj hj with hj1 | ⟨hjeq, _⟩
        · exact hfirst j oj hjk hj1 hqj
        · omega

/-- The loop of `castRay` keeps the invariant over all remaining objects. -/
theorem castRayLoop_inv (w : World F) (ray : Ray F) (rest : List (WorldObject F)) :
    ∀ (pre : List (WorldObject F)) (st : Int × F), CastInv w ray pre st →
      CastInv w ray (pre ++ rest) (castRayLoop w ray rest pre.length st) := by
  induction rest with
  | nil =>
    intro pre st h
    simpa [castRayLoop] using h
  | cons o rest ih =>
    intro pre st h
    obtain ⟨index, sm⟩ := st
    have hstep := castInv_step w ray pre o index sm h
    have hnext := ih (pre ++ [o]) _ hstep
    have hl : (pre ++ [o]).length = pre.length + 1 := by simp
    rw [hl] at hnext
    have happ : pre ++ [o] ++ rest = pre ++ o :: rest := by simp
    rw [happ] at hnext
    simp only [castRayLoop]
    by_cases h0 : o.distance ray > 0
    · by_cases h1 : o.distance ray > w.minCastDist ∧ (index = -1 ∨ o.distance ray < sm)
      · rw [if_pos h0, if_pos h1]
        rw [if_pos ⟨h0, h1.1, h1.2⟩] at hnext
        exact hnext
      · rw [if_pos h0, if_neg h1]
        rw [if_neg (fun hc => h1 ⟨hc.2.1, hc.2.2⟩)] at hnext
        exact hnext
    · rw [if_neg h0]
      rw [if_neg (fun hc => h0 hc.1)] at hnext
      exact hnext

/-- The invariant holds for the final state of `castRay`. -/
theorem castRay_inv (w : World F) (ray : Ray F) :
    CastInv w ray w.objects (castRayLoop w ray w.objects 0 (-1, 0)) := by
  have h := castRayLoop_inv w ray w.objects [] (-1, 0)
    (Or.inl ⟨rfl, fun j oj hj => by simp at hj⟩)
  simpa using h

/-- The index that `castRay` returns is `-1` or the index of an object. -/
theorem castRay_lt_length (w : World F) (ray : Ray F) (h : w.castRay ray ≠ -1) :
    ∃ o, 0 ≤ w.castRay ray ∧ w.objects[(w.castRay ray).toNat]? = some o := by
  rcases castRay_inv w ray with ⟨h1, _⟩ | ⟨k, o, hk, hok, _⟩
  · exact absurd h1 h
  · refine ⟨o, ?_, ?_⟩
    · unfold castRay
      rw [hk]
      exact Int.natCast_nonneg k
    · unfold castRay
      rw [hk]
      simpa using hok

/-- C1. Whenever `World::castRay` returns an index `i` other than `-1`: `i` is
the index of an object `o` of the registry, the distance of `o` exceeds
`minCastDist = 0.001`, no object whose distance exceeds `minCastDist` is
nearer than `o`, and every such object at a smaller index is strictly farther
(of several nearest objects the first one is returned). -/
theorem castRay_nearest_hit (w : World F) (ray : Ray F) (i : Int)
    (hret : w.castRay ray = i) (hi : i ≠ -1) :
    ∃ o : WorldObject F, 0 ≤ i ∧ i.toNat < w.objects.length ∧
      w.objects[i.toNat]? = some o ∧
      w.minCastDist = 1 / 1000 ∧ w.minCastDist < o.distance ray ∧
      (∀ (j : Nat) (oj : WorldObject F), w.objects[j]? = some oj →
        w.minCastDist < oj.distance ray → o.distance ray ≤ oj.distance ray) ∧
      (∀ (j : Nat) (oj : WorldObject F), (j : Int) < i → w.objects[j]? = some oj →
        w.minCastDist < oj.distance ray → o.distance ray < oj.distance ray) := by
  subst hret
  rcases castRay_inv w ray with ⟨h1, _⟩ | ⟨k, o, hk, hok, hd, hq, hmin, hfirst⟩
  · exact absurd h1 hi
  · have hcast : w.castRay ray = (k : Int) := hk
    have hklt : k < w.objects.length := getElem?_lt_length w.objects k o hok
    refine ⟨o, ?_, ?_, ?_, rfl, ?_, ?_, ?_⟩
    · rw [hcast]
      exact Int.natCast_nonneg k
    · rw [hcast]
      simpa using hklt
    · rw [hcast]
      simpa using hok
    · rw [hd]
      exact hq
    · intro j oj hj hqj
      rw [hd]
      exact hmin j oj hj hqj
    · intro j oj hjlt hj hqj
      rw [hd]
      rw [hcast] at hjlt
      exact hfirst j oj (by exact_mod_cast hjlt) hj hqj

/-- C2. `World::castRay` returns `-1` exactly when no object of the registry
has a distance greater than `minCastDist`, and whenever it returns `-1`,
`World::getColor` returns `voidColor` at every depth. -/
theorem castRay_no_hit (w : World F) (ray : Ray F) :
    (w.castRay ray = -1 ↔ ∀ o ∈ w.objects, ¬ w.minCastDist < o.distance ray) ∧
    (w.castRay ray = -1 → ∀ depth : Int, w.getColor ray depth = w.voidColor) := by
  constructor
  · constructor
    · intro h o ho
      rcases castRay_inv w ray with ⟨_, hnone⟩ | ⟨k, ok, hk, _⟩
      · obtain ⟨j, hj⟩ := List.getElem?_of_mem ho
        exact hnone j o hj
      · have hcast : w.castRay ray = (k : Int) := hk
        rw [hcast] at h
        omega
    · intro h
      rcases castRay_inv w ray with ⟨h1, _⟩ | ⟨k, ok, _, hok, hd, hq, _⟩
      · exact h1
      · have hmem : ok ∈ w.objects := List.getElem?_mem hok
        rw [← hd] at hq
        exact absurd hq (h ok hmem)
  · intro h depth
    rw [getColor]
    by_cases hd : depth > 10
    · simp [hd]
    · simp [hd, h]

/-- The recording version of `getColor` returns the colour of `getColor`. -/
theorem getColorTrace_color_aux (w : World F) (n : Nat) :
    ∀ (ray : Ray F) (depth : Int), (11 - depth).toNat = n →
      (getColorTrace w ray depth).color = w.getColor ray depth := by
  induction n with
  | zero =>
    intro ray depth hn
    have hd : depth > 10 := by omega
    rw [getColor, getColorTrace]
    simp [hd]
  | succ n ih =>
    intro ray depth hn
    have hd : ¬ depth > 10 := by omega
    rw [getColor, getColorTrace]
    simp only [hd, dite_false, ↓reduceDIte]
    by_cases hobj : w.castRay ray = -1
    · simp [hobj]
    · simp only [hobj, if_false, ↓reduceIte]
      cases hget : w.objects[(w.castRay ray).toNat]? with
      | none => simp
      | some o =>
        simp only []
        by_cases hmir : o.surface.getMirror (o.intersection ray) = 0
        · simp [hmir]
        · simp only [hmir, ne_eq, not_false_eq_true, if_true, ↓reduceIte]
          rw [ih _ (depth + 1) (by omega)]

/-- The evaluations of `getColor` caused by one call form a chain of depths
`depth, depth + 1, ...` that is not longer than `12 - depth` (or `1`). -/
theorem trace_shape_aux (w : World F) (n : Nat) :
    ∀ (ray : Ray F) (depth : Int), (11 - depth).toNat = n →
      1 ≤ (getColorTrace w ray depth).depths.length ∧
      ((getColorTrace w ray depth).depths.length : Int) ≤ max 1 (12 - depth) ∧
      ∀ (k : Nat) (d : Int), (getColorTrace w ray depth).depths[k]? = some d → d = depth + k := by
  induction n with
  | zero =>
    intro ray depth hn
    have hd : depth > 10 := by omega
    rw [getColorTrace]
    simp only [hd, dite_true, ↓reduceDIte, List.length_singleton]
    refine ⟨le_refl _, by simp, ?_⟩
    intro k d hk
    cases k with
    | zero => simp at hk; simp [hk]
    | succ k => simp at hk
  | succ n ih =>
    intro ray depth hn
    have hd : ¬ depth > 10 := by omega
    have hsingle : ∀ (k : Nat) (d : Int), [depth][k]? = some d → d = depth + k := by
      intro k d hk
      cases k with
      | zero => simp at hk; simp [hk]
      | succ k => simp at hk
    rw [getColorTrace]
    simp only [hd, dite_false, ↓reduceDIte]
    by_cases hobj : w.castRay ray = -1
    · simp only [hobj, if_true, ↓reduceIte, List.length_singleton]
      exact ⟨le_refl _, by simp, hsingle⟩
    · simp only [hobj, if_false, ↓reduceIte]
      cases hget : w.objects[(w.castRay ray).toNat]? with
      | none =>
        simp only [List.length_singleton]
        exact ⟨le_refl _, by simp, hsingle⟩
      | some o =>
        simp only []
        by_cases hmir : o.surface.getMirror (o.intersection ray) = 0
        · simp only [hmir, ne_eq, not_true_eq_false, if_false, ↓reduceIte, List.length_singleton]
          exact ⟨le_refl _, by simp, hsingle⟩
        · simp only [hmir, ne_eq, not_false_eq_true, if_true, ↓reduceIte, List.length_cons]
          obtain ⟨h1, h2, h3⟩ := ih (Ray.new (o.intersection ray) (reflectionDir (o.normal ray) ray))
            (depth + 1) (by omega)
          refine ⟨by omega, ?_, ?_⟩
          · have : max 1 (12 - (depth + 1)) = 12 - (depth + 1) := max_eq_right (by omega)
            rw [this] at h2
            have : max 1 (12 - depth) = 12 - depth := max_eq_right (by omega)
            rw [this]
            push_cast
            omega
          · intro k d hk
            cases k with
            | zero => simp at hk; simp [hk]
            | succ k =>
              simp at hk
              have := h3 k d hk
              push_cast
              omega

/-- C3. `World::getColor` is a total function (the recursion on `depth` is
well founded).  Called with `depth > 10` it returns `voidColor`, calls
`castRay` zero times and evaluates nothing else; the evaluations caused by
one call are a chain `depth, depth + 1, depth + 2, ...` (one recursive call
at most per evaluation, each with `depth + 1`); a call with depth `0` causes
at most `12` evaluations, all at depths `0..11`. -/
theorem getColor_depth_bound (w : World F) (ray : Ray F) (depth : Int) :
    (getColorTrace w ray depth).color = w.getColor ray depth ∧
    (depth > 10 → w.getColor ray depth = w.voidColor ∧
      (getColorTrace w ray depth).casts = 0 ∧ (getColorTrace w ray depth).depths = [depth]) ∧
    (∀ (k : Nat) (d : Int), (getColorTrace w ray depth).depths[k]? = some d → d = depth + k) ∧
    (getColorTrace w ray 0).depths.length ≤ 12 ∧
    (∀ d ∈ (getColorTrace w ray 0).depths, 0 ≤ d ∧ d ≤ 11) := by
  refine ⟨getColorTrace_color_aux w _ ray depth rfl, ?_,
    (trace_shape_aux w _ ray depth rfl).2.2, ?_, ?_⟩
  · intro hd
    rw [getColor, getColorTrace]
    simp [hd]
  · have h := (trace_shape_aux w _ ray 0 rfl).2.1
    have hmax : max (1 : Int) (12 - 0) = 12 := by decide
    rw [hmax] at h
    exact_mod_cast h
  · intro d hd
    obtain ⟨k, hk⟩ := List.getElem?_of_mem hd
    have hlen := (trace_shape_aux w _ ray 0 rfl).2.1
    have hmax : max (1 : Int) (12 - 0) = 12 := by decide
    rw [hmax] at hlen
    have hklt : k < (getColorTrace w ray 0).depths.length := getElem?_lt_length _ k d hk
    have hdk := (trace_shape_aux w _ ray 0 rfl).2.2 k d hk
    omega

end World

section Geometry

variable {F : Type} [LinearOrderedField F]

theorem length2_pos_of_ne_zero (v : Vec3 F) (hv : v ≠ ⟨0, 0, 0⟩) : 0 < v.length2 := by
  unfold Vec3.length2
  by_contra hc
  have hx := mul_self_nonneg v.x
  have hy := mul_self_nonneg v.y
  have hz := mul_self_nonneg v.z
  have hx0 : v.x * v.x = 0 := by linarith
  have hy0 : v.y * v.y = 0 := by linarith
  have hz0 : v.z * v.z = 0 := by linarith
  apply hv
  ext
  · exact mul_self_eq_zero.mp hx0
  · exact mul_self_eq_zero.mp hy0
  · exact mul_self_eq_zero.mp hz0

variable [LibM F]

theorem sqrt_pos_of_exact (x : F) (hx : 0 < x) (hs : SqrtExactAt x) : 0 < LibM.sqrt x := by
  obtain ⟨h0, h1⟩ := hs
  rcases eq_or_lt_of_le h0 with h | h
  · rw [← h] at h1
    simp at h1
    rw [← h1] at hx
    exact absurd hx (lt_irrefl _)
  · exact h

theorem normalise_length2 (v : Vec3 F) (hv : v ≠ ⟨0, 0, 0⟩) (hs : SqrtExactAt v.length2) :
    v.normalise.length2 = 1 := by
  have hpos := sqrt_pos_of_exact _ (length2_pos_of_ne_zero v hv) hs
  obtain ⟨_, hsq⟩ := hs
  have hne : LibM.sqrt v.length2 ≠ 0 := ne_of_gt hpos
  unfold Vec3.normalise
  unfold Vec3.length2 at hsq hne ⊢
  simp only
  field_simp
  linear_combination -hsq

end Geometry

section Sphere

variable {F : Type} [LinearOrderedField F]

variable [LibM F]

theorem sphere_distance_unit
 (surf : Surface F) (c : Vec3 F) (r : F) (ray : Ray F)
    (hu : ray.direction.length2 = 1) :
    (WorldObject.sphere surf c r).distance ray =
      if sphereTmp c r ray < 0 then -1
      else if -sphereB c ray + LibM.sqrt (sphereTmp c r ray) < 0 then -1
      else if -sphereB c ray - LibM.sqrt (sphereTmp c r ray) > 0
        then (-sphereB c ray - LibM.sqrt (sphereTmp c r ray)) / 2
      else (-sphereB c ray + LibM.sqrt (sphereTmp c r ray)) / 2 := by
  simp only [WorldObject.distance, sphereTmp, sphereB, hu, div_one]

end Sphere

section Scenes

open World Examples

theorem downRay_eq : downRay = ⟨⟨0, 10, 0⟩, ⟨0, -1, 0⟩⟩ := by
  simp [downRay, Ray.new, Vec3.normalise, LibM.sqrt, sqrtRat]

theorem floorPlane_eq : floorPlane = .plane (Surface.new .uniform) ⟨0, 0, 0⟩ ⟨0, 1, 0⟩ := by
  simp [floorPlane, WO_Plane, Vec3.normalise, LibM.sqrt, sqrtRat]

theorem floorPlane_distance : floorPlane.distance downRay = 10 := by
  rw [downRay_eq, floorPlane_eq]
  simp [WorldObject.distance, Vec3.dotProduct]

theorem castRay_floorWorld : floorWorld.castRay downRay = 0 := by
  simp [castRay, castRayLoop, floorWorld, World.new, addWorldObject, floorPlane_distance, minCastDist]
  norm_num

theorem castRay_nearest_hit_witness :
    floorWorld.castRay downRay = 0 ∧ ∃ o : WorldObject ℚ, (0 : Int) ≤ 0 ∧
      (0 : Int).toNat < floorWorld.objects.length ∧
      floorWorld.objects[(0 : Int).toNat]? = some o ∧
      floorWorld.minCastDist = 1 / 1000 ∧ floorWorld.minCastDist < o.distance downRay ∧
      (∀ (j : Nat) (oj : WorldObject ℚ), floorWorld.objects[j]? = some oj →
        floorWorld.minCastDist < oj.distance downRay → o.distance downRay ≤ oj.distance downRay) ∧
      (∀ (j : Nat) (oj : WorldObject ℚ), (j : Int) < 0 → floorWorld.objects[j]? = some oj →
        floorWorld.minCastDist < oj.distance downRay →
        o.distance downRay < oj.distance downRay) :=
  ⟨castRay_floorWorld, castRay_nearest_hit floorWorld downRay 0 castRay_floorWorld (by decide)⟩

theorem castRay_emptyWorld : emptyWorld.castRay downRay = -1 := by
  simp [castRay, castRayLoop, emptyWorld, World.new]

theorem castRay_no_hit_witness :
    emptyWorld.castRay downRay = -1 ∧ ∀ depth : Int, emptyWorld.getColor downRay depth = ⟨1, 1, 1⟩ :=
  ⟨castRay_emptyWorld, (castRay_no_hit emptyWorld downRay).2 castRay_emptyWorld⟩

theorem getColor_depth_bound_witness :
    floorWorld.getColor downRay 11 = ⟨1, 1, 1⟩ ∧ (getColorTrace floorWorld downRay 11).casts = 0 ∧
      (getColorTrace floorWorld downRay 11).depths = [11] :=
  (getColor_depth_bound floorWorld downRay 11).2.1 (by decide)

end Scenes

section Scenes2

open World Examples

theorem sqrt_rat_one : LibM.sqrt (1 : ℚ) = 1 := by
  show sqrtRat 1 = 1
  simp [sqrtRat]

theorem sqrt_rat_100 : LibM.sqrt (100 : ℚ) = 10 := by
  show sqrtRat 100 = 10
  have h := sqrtRat_mul_self 10 (by norm_num)
  norm_num at h
  exact h

theorem touchRay_eq : touchRay = ⟨⟨0, 0, 0⟩, ⟨0, 0, 1⟩⟩ := by
  simp [touchRay, Ray.new, Vec3.normalise, sqrt_rat_one]

theorem touch_tmp : sphereTmp (⟨0, 0, -5⟩ : Vec3 ℚ) 5 touchRay = 100 := by
  rw [touchRay_eq]
  norm_num [sphereTmp, Vec3.dotProduct, Vec3.length2]

theorem touch_distance : touchSphere.distance touchRay = 0 := by
  unfold touchSphere WO_Sphere
  rw [sphere_distance_unit _ _ _ _ (by rw [touchRay_eq]; norm_num [Vec3.length2]), touch_tmp,
    sqrt_rat_100]
  rw [touchRay_eq]
  norm_num [sphereB, Vec3.dotProduct]

theorem touch_far : sphereFar (⟨0, 0, -5⟩ : Vec3 ℚ) 5 touchRay = 0 := by
  unfold sphereFar
  rw [touch_tmp, sqrt_rat_100, touchRay_eq]
  norm_num [sphereB, Vec3.dotProduct, Vec3.length2]

end Scenes2

section Claims

open World Examples

variable {F : Type} [LinearOrderedField F]

variable [LibM F]

theorem floorPlane_intersection : floorPlane.intersection downRay = ⟨0, 0, 0⟩ := by
  unfold WorldObject.intersection
  rw [floorPlane_distance, downRay_eq]
  ext <;> simp

/-- C6, as amended. For a ray with unit direction (the square root being exact at
a non-negative discriminant) `WO_Sphere::distance` returns `-1` when the
discriminant is negative and when the farther root is negative; when the
farther root is exactly `0` it returns `0`.  In all these cases the result
is not positive. -/
theorem sphere_rejection (surf : Surface F) (c : Vec3 F) (r : F) (ray : Ray F)
    (hu : ray.direction.length2 = 1)
    (hs : 0 ≤ sphereTmp c r ray → SqrtExactAt (sphereTmp c r ray)) :
    (sphereTmp c r ray < 0 → (WO_Sphere surf c r).distance ray = -1) ∧
    (0 ≤ sphereTmp c r ray → sphereFar c r ray < 0 → (WO_Sphere surf c r).distance ray = -1) ∧
    (0 ≤ sphereTmp c r ray → sphereFar c r ray = 0 → (WO_Sphere surf c r).distance ray = 0) ∧
    (sphereTmp c r ray < 0 ∨ sphereFar c r ray ≤ 0 → (WO_Sphere surf c r).distance ray ≤ 0) := by
  unfold WO_Sphere sphereFar
  rw [sphere_distance_unit surf c r ray hu, hu]
  have hfar : ∀ x : F, x / (2 * 1) = x / 2 := fun x => by ring
  rw [hfar]
  refine ⟨fun h => by rw [if_pos h], ?_, ?_, ?_⟩
  · intro h0 h1
    have h2 : -sphereB c ray + LibM.sqrt (sphereTmp c r ray) < 0 := by linarith
    rw [if_neg (not_lt.mpr h0), if_pos h2]
  · intro h0 h1
    obtain ⟨hq, _⟩ := hs h0
    have h2 : -sphereB c ray + LibM.sqrt (sphereTmp c r ray) = 0 := by linarith
    have h3 : ¬ (-sphereB c ray - LibM.sqrt (sphereTmp c r ray) > 0) := by
      intro hc
      linarith
    rw [if_neg (not_lt.mpr h0), if_neg (by rw [h2]; exact lt_irrefl _), if_neg h3, h2]
    norm_num
  · intro h
    by_cases h0 : sphereTmp c r ray < 0
    · rw [if_pos h0]
      norm_num
    · rw [if_neg h0]
      rcases h with h | h
      · exact absurd h h0
      · obtain ⟨hq, _⟩ := hs (le_of_not_lt h0)
        split_ifs with h1 h2
        · norm_num
        · linarith
        · exact h

/-- C8, as amended. The ray constructed by `Ray::Ray` has the origin `o` and
the direction `normalise(v)`, the components of `v` divided by
`sqrt(|v|^2)`.  In exact arithmetic, for every non-zero `v` at whose `|v|^2`
the square root is exact, the `Vec3::length2` of the direction is `1`.  In
binary32 arithmetic, for every non-zero `v` whose components are zero or of a
magnitude between `2^-30` and `2^30`, the `Vec3::length2` of the stored
direction differs from `1` by at most `2^-20`. -/
theorem ray_unit_direction (o v : Vec3 F) (o' v' : Vec3 ℚ) :
    (Ray.new o v).origin = o ∧ (Ray.new o v).direction = v / v.length ∧
    (v ≠ ⟨0, 0, 0⟩ → SqrtExactAt v.length2 → (Ray.new o v).direction.length2 = 1) ∧
    (F32.ray o' v').origin = o' ∧ (F32.ray o' v').direction = F32.normalise v' ∧
    (v' ≠ ⟨0, 0, 0⟩ → F32.MidRange v'.x → F32.MidRange v'.y → F32.MidRange v'.z →
      |F32.length2 (F32.ray o' v').direction - 1| ≤ 1 / 2 ^ 20) :=
  ⟨rfl, rfl, fun hv hs => normalise_length2 v hv hs, rfl, rfl,
    fun hv hx hy hz => F32.normalise_near_unit v' hx hy hz hv⟩

end Claims

section Colours

variable {F : Type} [LinearOrderedField F]

theorem addAssign_leOne (a b : Color F) : (a.addAssign b).LeOne :=
  ⟨min_le_right _ _, min_le_right _ _, min_le_right _ _⟩

theorem mul_leOne (a : Color F) (s : F) : (a.mul s).LeOne :=
  ⟨min_le_right _ _, min_le_right _ _, min_le_right _ _⟩

theorem intersect_leOne (a b : Color F) (hb : b.LeOne) : (a.intersect b).LeOne :=
  ⟨le_trans (min_le_right _ _) hb.1, le_trans (min_le_right _ _) hb.2.1,
    le_trans (min_le_right _ _) hb.2.2⟩

theorem unit_interval_add (x y : F) (hx : 0 ≤ x) (hy : 0 ≤ y) :
    0 ≤ min (x + y) 1 ∧ min (x + y) 1 ≤ 1 :=
  ⟨le_min (add_nonneg hx hy) zero_le_one, min_le_right _ _⟩

theorem unit_interval_mul (s x : F) (hs : 0 ≤ s) (hx : 0 ≤ x) :
    0 ≤ min (s * x) 1 ∧ min (s * x) 1 ≤ 1 :=
  ⟨le_min (mul_nonneg hs hx) zero_le_one, min_le_right _ _⟩

theorem unit_interval_min (x y : F) (hx : 0 ≤ x) (hy : 0 ≤ y) (hx1 : x ≤ 1) :
    0 ≤ min x y ∧ min x y ≤ 1 :=
  ⟨le_min hx hy, le_trans (min_le_left _ _) hx1⟩

/-- C9, as amended. For colours `a` and `b` with channels in `[0,1]`: `a + b`,
`a += b` and `a.intersect(b)` have all channels in `[0,1]`; `a * s` and
`a *= s` have all channels at most `1` for every scalar `s`, and in `[0,1]`
for every `s >= 0`. -/
theorem color_range (a b : Color F) (s : F) (ha : a.InRange) (hb : b.InRange) :
    (a.add b).InRange ∧ (a.addAssign b).InRange ∧ (a.intersect b).InRange ∧
    (a.mul s).LeOne ∧ (a.mulAssign s).LeOne ∧
    (0 ≤ s → (a.mul s).InRange ∧ (a.mulAssign s).InRange) := by
  obtain ⟨⟨har0, har1⟩, ⟨hag0, hag1⟩, ⟨hab0, hab1⟩⟩ := ha
  obtain ⟨⟨hbr0, _⟩, ⟨hbg0, _⟩, ⟨hbb0, _⟩⟩ := hb
  refine ⟨?_, ?_, ?_, mul_leOne a s, ?_, ?_⟩
  · exact ⟨unit_interval_add _ _ har0 hbr0, unit_interval_add _ _ hag0 hbg0,
      unit_interval_add _ _ hab0 hbb0⟩
  · exact ⟨unit_interval_add _ _ har0 hbr0, unit_interval_add _ _ hag0 hbg0,
      unit_interval_add _ _ hab0 hbb0⟩
  · exact ⟨unit_interval_min _ _ har0 hbr0 har1, unit_interval_min _ _ hag0 hbg0 hag1,
      unit_interval_min _ _ hab0 hbb0 hab1⟩
  · exact ⟨min_le_right _ _, min_le_right _ _, min_le_right _ _⟩
  · intro hs
    constructor
    · exact ⟨unit_interval_mul _ _ hs har0, unit_interval_mul _ _ hs hag0,
        unit_interval_mul _ _ hs hab0⟩
    · refine ⟨?_, ?_, ?_⟩
      · have := unit_interval_mul _ _ hs har0
        rw [mul_comm] at this
        exact this
      · have := unit_interval_mul _ _ hs hag0
        rw [mul_comm] at this
        exact this
      · have := unit_interval_mul _ _ hs hab0
        rw [mul_comm] at this
        exact this

/-- C9, counterexample. White scaled by `-1` has the channels `-1`. -/
theorem color_range_counterexample :
    Color.InRange (⟨1, 1, 1⟩ : Color ℚ) ∧
    (⟨1, 1, 1⟩ : Color ℚ).mul (-1) = ⟨-1, -1, -1⟩ ∧
    ¬ Color.InRange ((⟨1, 1, 1⟩ : Color ℚ).mul (-1)) := by
  refine ⟨by norm_num [Color.InRange], by norm_num [Color.mul], ?_⟩
  norm_num [Color.InRange, Color.mul]

theorem color_range_witness :
    Color.InRange (⟨1, 0, 0⟩ : Color ℚ) ∧ Color.InRange (⟨1 / 2, 1, 0⟩ : Color ℚ) ∧
    Color.InRange ((⟨1, 0, 0⟩ : Color ℚ).add ⟨1 / 2, 1, 0⟩) ∧
    Color.InRange ((⟨1, 0, 0⟩ : Color ℚ).mul 2) :=
  have ha : Color.InRange (⟨1, 0, 0⟩ : Color ℚ) := by norm_num [Color.InRange]
  have hb : Color.InRange (⟨1 / 2, 1, 0⟩ : Color ℚ) := by norm_num [Color.InRange]
  ⟨ha, hb, (color_range ⟨1, 0, 0⟩ ⟨1 / 2, 1, 0⟩ 2 ha hb).1,
    ((color_range ⟨1, 0, 0⟩ ⟨1 / 2, 1, 0⟩ 2 ha hb).2.2.2.2.2 (by norm_num)).1⟩

end Colours

namespace World

variable {F : Type} [LinearOrderedField F]

theorem voidColor_leOne (w : World F) : w.voidColor.LeOne := by
  unfold voidColor Color.LeOne
  simp
variable [LibM F]

theorem lightStep_leOne (w : World F) (ray : Ray F) (obj : Int) (inter norm : Vec3 F)
    (surf : Surface F) (lc : Color F) (l : Light F) (h : lc.LeOne) :
    (lightStep w ray obj inter norm surf lc l).LeOne := by
  unfold lightStep
  simp only
  split_ifs
  · exact h
  · exact addAssign_leOne _ _

theorem foldl_lightStep_leOne (w : World F) (ray : Ray F) (obj : Int) (inter norm : Vec3 F)
    (surf : Surface F) (ls : List (Light F)) :
    ∀ lc : Color F, lc.LeOne → (ls.foldl (lightStep w ray obj inter norm surf) lc).LeOne := by
  induction ls with
  | nil =>
    intro lc h
    exact h
  | cons l ls ih =>
    intro lc h
    rw [List.foldl_cons]
    exact ih _ (lightStep_leOne w ray obj inter norm surf lc l h)

theorem lightLoop_leOne (w : World F) (ray : Ray F) (obj : Int) (inter norm : Vec3 F)
    (surf : Surface F) : (lightLoop w ray obj inter norm surf).LeOne :=
  foldl_lightStep_leOne w ray obj inter norm surf w.lights _ (mul_leOne _ _)

/-- C10, as amended. For every world, whatever the coefficients of its surfaces,
every ray and every depth no channel of `World::getColor` exceeds `1`. -/
theorem getColor_le_one (w : World F) (ray : Ray F) (depth : Int) :
    (w.getColor ray depth).LeOne := by
  rw [getColor]
  by_cases hd : depth > 10
  · simp only [hd, ↓reduceDIte]
    exact voidColor_leOne w
  · simp only [hd, ↓reduceDIte]
    by_cases hobj : w.castRay ray = -1
    · simp only [hobj, ↓reduceIte]
      exact voidColor_leOne w
    · simp only [hobj, ↓reduceIte]
      cases hget : w.objects[(w.castRay ray).toNat]? with
      | none => exact voidColor_leOne w
      | some o => exact intersect_leOne _ _ (lightLoop_leOne _ _ _ _ _ _)

end World

section Scenes3

open World Examples

theorem darkPlane_eq : WO_Plane darkSurface (⟨0, 0, 0⟩ : Vec3 ℚ) ⟨0, 1, 0⟩ =
    .plane darkSurface ⟨0, 0, 0⟩ ⟨0, 1, 0⟩ := by
  simp [WO_Plane, Vec3.normalise, sqrt_rat_one]

theorem castRay_darkWorld : darkWorld.castRay downRay = 0 := by
  simp only [castRay, darkWorld, World.new, addWorldObject, darkPlane_eq, downRay_eq,
    List.nil_append, castRayLoop]
  norm_num [WorldObject.distance, Vec3.dotProduct, minCastDist]

/-- C10, counterexample. A plane whose surface has the ambient coefficient
`-1`, in a world without lights: the colour of a ray that hits it has the
channels `-1`. -/
theorem getColor_clamped_counterexample :
    darkWorld.getColor downRay 0 = ⟨-1, -1, -1⟩ ∧
    ¬ Color.InRange (darkWorld.getColor downRay 0) := by
  have h : darkWorld.getColor downRay 0 = ⟨-1, -1, -1⟩ := by
    rw [getColor]
    have hobjs : darkWorld.objects = [.plane darkSurface ⟨0, 0, 0⟩ ⟨0, 1, 0⟩] := by
      simp [darkWorld, World.new, addWorldObject, darkPlane_eq]
    have hl : darkWorld.lights = [] := rfl
    simp only [castRay_darkWorld, hobjs]
    norm_num [lightLoop, hl, WorldObject.surface, Surface.getMirror, darkSurface,
      Surface.setShadingModel, Surface.new, Surface.getColor, Surface.getAmbient,
      ambientColor, Color.mul, Color.intersect]
  rw [h]
  exact ⟨rfl, by norm_num [Color.InRange]⟩

end Scenes3

section Scenes4

open World Examples

theorem mirrorPlane_eq : WO_Plane mirrorSurface (⟨0, 0, 0⟩ : Vec3 ℚ) ⟨0, 1, 0⟩ =
    .plane mirrorSurface ⟨0, 0, 0⟩ ⟨0, 1, 0⟩ := by
  simp [WO_Plane, Vec3.normalise, sqrt_rat_one]

theorem mirrorWorld_objects :
    mirrorWorld.objects = [.plane mirrorSurface ⟨0, 0, 0⟩ ⟨0, 1, 0⟩] := by
  simp [mirrorWorld, World.new, addWorldObject, mirrorPlane_eq]

theorem castRay_mirrorWorld_down : mirrorWorld.castRay downRay = 0 := by
  rw [castRay, mirrorWorld_objects, downRay_eq]
  simp only [castRayLoop]
  norm_num [WorldObject.distance, Vec3.dotProduct, minCastDist]

theorem castRay_mirrorWorld_up :
    mirrorWorld.castRay (Ray.new ⟨0, 0, 0⟩ ⟨0, 1, 0⟩) = -1 := by
  have hray : Ray.new (⟨0, 0, 0⟩ : Vec3 ℚ) ⟨0, 1, 0⟩ = ⟨⟨0, 0, 0⟩, ⟨0, 1, 0⟩⟩ := by
    simp [Ray.new, Vec3.normalise, sqrt_rat_one]
  rw [castRay, mirrorWorld_objects, hray]
  simp only [castRayLoop]
  norm_num [WorldObject.distance, Vec3.dotProduct, minCastDist]

/-- A ray reflected once: the mirror plane is hit at depth `0`, the reflected
ray leaves the scene at depth `1`. -/
theorem getColorTrace_mirrorWorld :
    (getColorTrace mirrorWorld downRay 0).depths = [0, 1] ∧
    (getColorTrace mirrorWorld downRay 0).casts = 2 := by
  have hinter : (WorldObject.plane mirrorSurface (⟨0, 0, 0⟩ : Vec3 ℚ) ⟨0, 1, 0⟩).intersection
      downRay = ⟨0, 0, 0⟩ := by
    have h := floorPlane_intersection
    rw [floorPlane_eq] at h
    exact h
  have hrefl : reflectionDir (⟨0, 1, 0⟩ : Vec3 ℚ) downRay = ⟨0, 1, 0⟩ := by
    rw [downRay_eq]
    ext <;> norm_num [reflectionDir, Vec3.dotProduct]
  have hl : mirrorWorld.lights = [] := rfl
  have hmir : mirrorSurface.mirrorCoef ≠ 0 := by
    norm_num [mirrorSurface, Surface.setMirror]
  have hsub : getColorTrace mirrorWorld (Ray.new ⟨0, 0, 0⟩ ⟨0, 1, 0⟩) 1 =
      ⟨mirrorWorld.voidColor, [1], 1⟩ := by
    rw [getColorTrace]
    simp [castRay_mirrorWorld_up]
  rw [getColorTrace]
  simp only [castRay_mirrorWorld_down, mirrorWorld_objects, Int.toNat_zero,
    List.getElem?_cons_zero, show ¬ ((0 : Int) > 10) by decide,
    show ¬ ((0 : Int) = -1) by decide, ↓reduceDIte, ↓reduceIte]
  simp only [WorldObject.normal, WorldObject.surface, Surface.getMirror, hinter, hrefl, hsub,
    hl, hmir, ne_eq, not_false_eq_true, ↓reduceIte, zero_add, List.length_nil, add_zero]
  exact ⟨trivial, trivial⟩

end Scenes4

section Witnesses

open World Examples

theorem sqrtExactAt_one : SqrtExactAt (1 : ℚ) := by
  have h := sqrtExactAt_mul_self 1 (by norm_num)
  norm_num at h
  exact h

theorem sqrtExactAt_25 : SqrtExactAt (25 : ℚ) := by
  have h := sqrtExactAt_mul_self 5 (by norm_num)
  norm_num at h
  exact h

theorem sqrtExactAt_100 : SqrtExactAt (100 : ℚ) := by
  have h := sqrtExactAt_mul_self 10 (by norm_num)
  norm_num at h
  exact h

theorem touchRay_unit : touchRay.direction.length2 = 1 := by
  rw [touchRay_eq]
  norm_num [Vec3.length2]

/-- C6, counterexample. A ray that starts on the sphere and leaves it has unit
direction, a non-negative discriminant and the farther root `0`; the distance
returned is `0`, not `-1`. -/
theorem sphere_rejection_counterexample :
    touchRay.direction.length2 = 1 ∧ 0 ≤ sphereTmp (⟨0, 0, -5⟩ : Vec3 ℚ) 5 touchRay ∧
    sphereFar (⟨0, 0, -5⟩ : Vec3 ℚ) 5 touchRay ≤ 0 ∧
    touchSphere.distance touchRay = 0 ∧ touchSphere.distance touchRay ≠ -1 := by
  refine ⟨touchRay_unit, ?_, ?_, touch_distance, ?_⟩
  · rw [touch_tmp]
    norm_num
  · rw [touch_far]
  · rw [touch_distance]
    norm_num

theorem sphere_rejection_witness :
    touchRay.direction.length2 = 1 ∧ SqrtExactAt (sphereTmp (⟨0, 0, -5⟩ : Vec3 ℚ) 5 touchRay) ∧
    sphereFar (⟨0, 0, -5⟩ : Vec3 ℚ) 5 touchRay ≤ 0 ∧ touchSphere.distance touchRay ≤ 0 :=
  have hs : SqrtExactAt (sphereTmp (⟨0, 0, -5⟩ : Vec3 ℚ) 5 touchRay) := by
    rw [touch_tmp]
    exact sqrtExactAt_100
  have hfar : sphereFar (⟨0, 0, -5⟩ : Vec3 ℚ) 5 touchRay ≤ 0 := by
    rw [touch_far]
  ⟨touchRay_unit, hs, hfar,
    (sphere_rejection (Surface.new .uniform) ⟨0, 0, -5⟩ 5 touchRay touchRay_unit
      (fun _ => hs)).2.2.2 (Or.inr hfar)⟩

theorem midRange_one : F32.MidRange 1 :=
  Or.inr ⟨by norm_num, by norm_num⟩

theorem ray_unit_direction_witness :
    (⟨3, 4, 0⟩ : Vec3 ℚ) ≠ ⟨0, 0, 0⟩ ∧ SqrtExactAt (Vec3.length2 (⟨3, 4, 0⟩ : Vec3 ℚ)) ∧
    (Ray.new (⟨0, 0, 0⟩ : Vec3 ℚ) ⟨3, 4, 0⟩).direction.length2 = 1 ∧
    (⟨1, 1, 1⟩ : Vec3 ℚ) ≠ ⟨0, 0, 0⟩ ∧ F32.MidRange 1 ∧
    |F32.length2 (F32.ray ⟨0, 0, 0⟩ ⟨1, 1, 1⟩).direction - 1| ≤ 1 / 2 ^ 20 :=
  have hv : (⟨3, 4, 0⟩ : Vec3 ℚ) ≠ ⟨0, 0, 0⟩ := by simp
  have hs : SqrtExactAt (Vec3.length2 (⟨3, 4, 0⟩ : Vec3 ℚ)) := by
    have h := sqrtExactAt_25
    norm_num [Vec3.length2]
    exact h
  have hv1 : (⟨1, 1, 1⟩ : Vec3 ℚ) ≠ ⟨0, 0, 0⟩ := by simp
  ⟨hv, hs, (ray_unit_direction (⟨0, 0, 0⟩ : Vec3 ℚ) ⟨3, 4, 0⟩ ⟨0, 0, 0⟩ ⟨1, 1, 1⟩).2.2.1 hv hs,
    hv1, midRange_one,
    (ray_unit_direction (⟨0, 0, 0⟩ : Vec3 ℚ) ⟨3, 4, 0⟩ ⟨0, 0, 0⟩ ⟨1, 1, 1⟩).2.2.2.2.2 hv1
      midRange_one midRange_one midRange_one⟩

/-- C8, counterexample. The direction `(1,1,1)` in binary32 arithmetic: the
magnitude is `sqrt(3) = 14529495 / 2^23`, each component of the stored
direction is `4843165 / 2^23 = 0.57735026...`, and the squared length of the
stored direction is `16777215 / 2^24 = 0.99999994...`, not `1`. -/
theorem ray_unit_direction_counterexample :
    (⟨1, 1, 1⟩ : Vec3 ℚ) ≠ ⟨0, 0, 0⟩ ∧
    (F32.ray ⟨0, 0, 0⟩ ⟨1, 1, 1⟩).origin = ⟨0, 0, 0⟩ ∧
    (F32.ray ⟨0, 0, 0⟩ ⟨1, 1, 1⟩).direction =
      ⟨4843165 / 8388608, 4843165 / 8388608, 4843165 / 8388608⟩ ∧
    F32.length2 (F32.ray ⟨0, 0, 0⟩ ⟨1, 1, 1⟩).direction = 16777215 / 16777216 ∧
    F32.length2 (F32.ray ⟨0, 0, 0⟩ ⟨1, 1, 1⟩).direction ≠ 1 := by
  have hd : (F32.ray ⟨0, 0, 0⟩ ⟨1, 1, 1⟩).direction =
      ⟨4843165 / 8388608, 4843165 / 8388608, 4843165 / 8388608⟩ := F32.normalise_ones
  refine ⟨by simp, rfl, hd, ?_, ?_⟩
  · rw [hd, F32.length2_ones]
  · rw [hd, F32.length2_ones]
    norm_num

end Witnesses

section CameraClaims

variable {F : Type} [LinearOrderedField F]

theorem clamp_bounds (p x : F) (hp : 0 ≤ p) :
    -p / 2 ≤ min (p / 2) (max (-p / 2) x) ∧ min (p / 2) (max (-p / 2) x) ≤ p / 2 := by
  constructor
  · apply le_min
    · linarith
    · exact le_max_left _ _
  · exact min_le_left _ _

variable [LibM F]

/-- C15, as amended. After `Camera::updateRotation(dH, dV)` the pitch `rotHor`
is the `float` to which the clamp `min(pi/2, max(-pi/2, rotHor + dH))`, a
`double`, is converted.  The clamp lies in `[-pi/2, pi/2]` (for `M_PI >= 0`);
the stored pitch lies between the conversions of `-pi/2` and of `pi/2` (the
conversion being monotone).  The yaw `rotVer` is `rotVer + dV`; the rotation
matrix is `Mat3Identity().rotateVer(rotVer).rotateHor(rotHor)` for the new
angles; the origin and the image size are unchanged.  The pitch of a
constructed camera lies between the same two bounds. -/
theorem camera_updateRotation (c : Camera F) (dH dV : F) (hpi : (0 : F) ≤ LibM.pi)
    (hmono : Monotone (LibM.toFloat : F → F)) :
    (c.updateRotation dH dV).rotHor =
      LibM.toFloat (min (LibM.pi / 2) (max (-LibM.pi / 2) (c.rotHor + dH))) ∧
    (-LibM.pi / 2 ≤ min (LibM.pi / 2) (max (-LibM.pi / 2) (c.rotHor + dH)) ∧
      min (LibM.pi / 2) (max (-LibM.pi / 2) (c.rotHor + dH)) ≤ LibM.pi / 2) ∧
    (LibM.toFloat (-LibM.pi / 2) ≤ (c.updateRotation dH dV).rotHor ∧
      (c.updateRotation dH dV).rotHor ≤ LibM.toFloat (LibM.pi / 2)) ∧
    (c.updateRotation dH dV).rotVer = c.rotVer + dV ∧
    (c.updateRotation dH dV).rotation =
      (Mat3Identity.rotateVer (c.updateRotation dH dV).rotVer).rotateHor
        (c.updateRotation dH dV).rotHor ∧
    (c.updateRotation dH dV).origin = c.origin ∧
    (c.updateRotation dH dV).w = c.w ∧ (c.updateRotation dH dV).h = c.h ∧
    (∀ (w h : Int) (o : Vec3 F) (rh rv : F),
      LibM.toFloat (-LibM.pi / 2) ≤ (Camera.new w h o rh rv).rotHor ∧
      (Camera.new w h o rh rv).rotHor ≤ LibM.toFloat (LibM.pi / 2)) :=
  ⟨rfl, clamp_bounds _ _ hpi,
    ⟨hmono (clamp_bounds _ _ hpi).1, hmono (clamp_bounds _ _ hpi).2⟩, rfl, rfl, rfl, rfl, rfl,
    fun _ _ _ rh _ => ⟨hmono (clamp_bounds _ rh hpi).1, hmono (clamp_bounds _ rh hpi).2⟩⟩

theorem pi_rat_nonneg : (0 : ℚ) ≤ LibM.pi := by
  show (0 : ℚ) ≤ piDouble
  norm_num [piDouble]

theorem toFloat_rat_mono : Monotone (LibM.toFloat : ℚ → ℚ) :=
  F32.round_mono

theorem camera_rotHor_zero : (Camera.new 4 4 (⟨0, 0, 0⟩ : Vec3 ℚ) 0 0).rotHor = 0 := by
  show F32.round (min (piDouble / 2) (max (-piDouble / 2) 0)) = 0
  have h : min (piDouble / 2) (max (-piDouble / 2) 0) = 0 := by
    norm_num [piDouble]
  rw [h, F32.round_zero]

theorem camera_rotHor_seven :
    ((Camera.new 4 4 (⟨0, 0, 0⟩ : Vec3 ℚ) 0 0).updateRotation 7 0).rotHor =
      13176795 / 8388608 := by
  show F32.round (min (piDouble / 2) (max (-piDouble / 2)
    ((Camera.new 4 4 (⟨0, 0, 0⟩ : Vec3 ℚ) 0 0).rotHor + 7))) = 13176795 / 8388608
  have h : min (piDouble / 2) (max (-piDouble / 2) ((0 : ℚ) + 7)) = piDouble / 2 := by
    norm_num [piDouble]
  rw [camera_rotHor_zero, h, F32.round_half_pi]

/-- C15, counterexample. A camera with the pitch `0` after
`updateRotation(7, 0)`: the clamp is `M_PI / 2 = 1.5707963267948966`, and the
stored pitch is the nearest `float`, `13176795 / 2^23 = 1.5707963705062866`;
it exceeds `M_PI / 2` and is not the value of the clamp.  The pitch of a
camera constructed with the pitch `7` is the same. -/
theorem camera_updateRotation_counterexample :
    ((Camera.new 4 4 (⟨0, 0, 0⟩ : Vec3 ℚ) 0 0).updateRotation 7 0).rotHor =
      13176795 / 8388608 ∧
    (LibM.pi : ℚ) / 2 < ((Camera.new 4 4 (⟨0, 0, 0⟩ : Vec3 ℚ) 0 0).updateRotation 7 0).rotHor ∧
    ((Camera.new 4 4 (⟨0, 0, 0⟩ : Vec3 ℚ) 0 0).updateRotation 7 0).rotHor ≠
      min (LibM.pi / 2) (max (-LibM.pi / 2)
        ((Camera.new 4 4 (⟨0, 0, 0⟩ : Vec3 ℚ) 0 0).rotHor + 7)) ∧
    (LibM.pi : ℚ) / 2 < (Camera.new 4 4 (⟨0, 0, 0⟩ : Vec3 ℚ) 7 0).rotHor := by
  have hlt : (LibM.pi : ℚ) / 2 < 13176795 / 8388608 := by
    show piDouble / 2 < 13176795 / 8388608
    norm_num [piDouble]
  have hnew : (Camera.new 4 4 (⟨0, 0, 0⟩ : Vec3 ℚ) 7 0).rotHor = 13176795 / 8388608 := by
    show F32.round (min (piDouble / 2) (max (-piDouble / 2) 7)) = 13176795 / 8388608
    have h : min (piDouble / 2) (max (-piDouble / 2) (7 : ℚ)) = piDouble / 2 := by
      norm_num [piDouble]
    rw [h, F32.round_half_pi]
  refine ⟨camera_rotHor_seven, ?_, ?_, ?_⟩
  · rw [camera_rotHor_seven]
    exact hlt
  · rw [camera_rotHor_seven, camera_rotHor_zero]
    have h : min ((LibM.pi : ℚ) / 2) (max (-LibM.pi / 2) ((0 : ℚ) + 7)) = LibM.pi / 2 := by
      show min (piDouble / 2) (max (-piDouble / 2) ((0 : ℚ) + 7)) = piDouble / 2
      norm_num [piDouble]
    rw [h]
    exact ne_of_gt hlt
  · rw [hnew]
    exact hlt

theorem camera_updateRotation_witness :
    (0 : ℚ) ≤ LibM.pi ∧ Monotone (LibM.toFloat : ℚ → ℚ) ∧
    LibM.toFloat (-(LibM.pi : ℚ) / 2) = -(13176795 / 8388608) ∧
    LibM.toFloat ((LibM.pi : ℚ) / 2) = 13176795 / 8388608 ∧
    LibM.toFloat (-(LibM.pi : ℚ) / 2) ≤
      ((Camera.new 4 4 (⟨0, 0, 0⟩ : Vec3 ℚ) 0 0).updateRotation 7 1).rotHor ∧
    ((Camera.new 4 4 (⟨0, 0, 0⟩ : Vec3 ℚ) 0 0).updateRotation 7 1).rotHor ≤
      LibM.toFloat ((LibM.pi : ℚ) / 2) :=
  ⟨pi_rat_nonneg, toFloat_rat_mono, F32.round_neg_half_pi, F32.round_half_pi,
    (camera_updateRotation (Camera.new 4 4 (⟨0, 0, 0⟩ : Vec3 ℚ) 0 0) 7 1 pi_rat_nonneg
      toFloat_rat_mono).2.2.1⟩

end CameraClaims

section Blend

variable {F : Type} [LinearOrderedField F]

theorem reflectionDir_eq (norm : Vec3 F) (ray : Ray F) :
    World.reflectionDir norm ray =
      ray.direction - norm * (2 * norm.dotProduct ray.direction) := by
  ext <;> simp only [World.reflectionDir, Vec3.add_x, Vec3.add_y, Vec3.add_z, Vec3.sub_x, Vec3.sub_y,
    Vec3.sub_z, Vec3.smul_x, Vec3.smul_y, Vec3.smul_z] <;> ring

theorem blend_channel (b r m : F) (hm0 : 0 < m) (hm1 : m ≤ 1) (hb0 : 0 ≤ b) (hb1 : b ≤ 1)
    (hr1 : r ≤ 1) :
    min (min ((1 - m) * b) 1 + min (m * r) 1) 1 = b * (1 - m) + r * m := by
  have h1 : (1 - m) * b ≤ 1 := by nlinarith
  have h2 : m * r ≤ 1 := by nlinarith
  have h3 : (1 - m) * b + m * r ≤ 1 := by nlinarith
  rw [min_eq_left h1, min_eq_left h2, min_eq_left h3]
  ring

end Blend

namespace World

variable {F : Type} [LinearOrderedField F] [LibM F]

/-- On a hit at a depth up to `10`, `getColor` is the `intersect` of the locals
`surfaceColor` and `lightColor`. -/
theorem getColor_hit (w : World F) (ray : Ray F) (depth : Int) (o : WorldObject F)
    (hd : depth ≤ 10) (hobj : w.castRay ray ≠ -1)
    (ho : w.objects[(w.castRay ray).toNat]? = some o) :
    w.getColor ray depth = (w.surfaceColor ray depth o).intersect
      (lightLoop w ray (w.castRay ray) (o.intersection ray) (o.normal ray) o.surface) := by
  have hd2 : ¬ depth > 10 := by omega
  rw [getColor]
  simp only [hd2, ↓reduceDIte, hobj, ↓reduceIte, ho]
  rfl

/-- On a hit at a depth up to `10`, the evaluations caused by `getColor` are
its own, followed by those of the call for the reflected ray, if the mirror
coefficient is not zero. -/
theorem getColorTrace_hit (w : World F) (ray : Ray F) (depth : Int) (o : WorldObject F)
    (hd : depth ≤ 10) (hobj : w.castRay ray ≠ -1)
    (ho : w.objects[(w.castRay ray).toNat]? = some o) :
    (getColorTrace w ray depth).depths =
      if o.surface.getMirror (o.intersection ray) ≠ 0 then
        depth :: (getColorTrace w
          (Ray.new (o.intersection ray) (reflectionDir (o.normal ray) ray)) (depth + 1)).depths
      else [depth] := by
  have hd2 : ¬ depth > 10 := by omega
  rw [getColorTrace]
  simp only [hd2, ↓reduceDIte, hobj, ↓reduceIte, ho]
  split_ifs <;> rfl

theorem lightStep_eq (w : World F) (ray : Ray F) (obj : Int) (inter norm : Vec3 F)
    (surf : Surface F) (lc : Color F) (l : Light F) :
    lightStep w ray obj inter norm surf lc l =
      if w.castRay (lightRay inter l) = -1 ∨ w.castRay (lightRay inter l) ≠ obj then lc
      else (lc.addAssign (diffuseTerm inter norm surf l)).addAssign
        (specularTerm ray inter norm surf l) := rfl

theorem foldl_lightStep_unlit (w : World F) (ray : Ray F) (obj : Int) (inter norm : Vec3 F)
    (surf : Surface F) (ls : List (Light F))
    (h : ∀ l ∈ ls, w.castRay (lightRay inter l) ≠ obj) :
    ∀ lc : Color F, ls.foldl (lightStep w ray obj inter norm surf) lc = lc := by
  induction ls with
  | nil =>
    intro lc
    rfl
  | cons l ls ih =>
    intro lc
    rw [List.foldl_cons, lightStep_eq,
      if_pos (Or.inr (h l (List.mem_cons_self l ls)))]
    exact ih (fun l2 hl2 => h l2 (List.mem_cons_of_mem l hl2)) lc

/-- C11. For a primary hit of `ray` on the object with index `castRay(ray)`
at the point `inter`, one round of the light loop adds the diffuse and the
specular term of the light to `lightColor` if `castRay` of the ray from the
light in the direction `normalise(inter - light.origin)` returns that same
index, and leaves `lightColor` as it is otherwise.  The result of
`getColor` is `surfaceColor.intersect(lightColor)`; when no light passes the
test, or there is no light, it is
`surfaceColor.intersect(ambientColor * surface.ambient)`, channel by channel
the minimum of the two. -/
theorem shadow_test (w : World F) (ray : Ray F) (depth : Int) (o : WorldObject F)
    (hd : depth ≤ 10) (hobj : w.castRay ray ≠ -1)
    (ho : w.objects[(w.castRay ray).toNat]? = some o) :
    (∀ (lc : Color F) (l : Light F),
      (w.castRay (lightRay (o.intersection ray) l) = w.castRay ray →
        lightStep w ray (w.castRay ray) (o.intersection ray) (o.normal ray) o.surface lc l =
          (lc.addAssign (diffuseTerm (o.intersection ray) (o.normal ray) o.surface l)).addAssign
            (specularTerm ray (o.intersection ray) (o.normal ray) o.surface l)) ∧
      (w.castRay (lightRay (o.intersection ray) l) ≠ w.castRay ray →
        lightStep w ray (w.castRay ray) (o.intersection ray) (o.normal ray) o.surface lc l =
          lc)) ∧
    w.getColor ray depth = (w.surfaceColor ray depth o).intersect
      (w.lights.foldl
        (lightStep w ray (w.castRay ray) (o.intersection ray) (o.normal ray) o.surface)
        (w.ambientColor.mul o.surface.getAmbient)) ∧
    ((∀ l ∈ w.lights, w.castRay (lightRay (o.intersection ray) l) ≠ w.castRay ray) →
      w.getColor ray depth =
        (w.surfaceColor ray depth o).intersect (w.ambientColor.mul o.surface.getAmbient) ∧
      (w.getColor ray depth).r =
        min (w.surfaceColor ray depth o).r (w.ambientColor.mul o.surface.getAmbient).r ∧
      (w.getColor ray depth).g =
        min (w.surfaceColor ray depth o).g (w.ambientColor.mul o.surface.getAmbient).g ∧
      (w.getColor ray depth).b =
        min (w.surfaceColor ray depth o).b (w.ambientColor.mul o.surface.getAmbient).b) ∧
    (w.lights = [] →
      w.getColor ray depth =
        (w.surfaceColor ray depth o).intersect (w.ambientColor.mul o.surface.getAmbient)) := by
  have hhit := getColor_hit w ray depth o hd hobj ho
  have hunlit : (∀ l ∈ w.lights, w.castRay (lightRay (o.intersection ray) l) ≠ w.castRay ray) →
      w.getColor ray depth =
        (w.surfaceColor ray depth o).intersect (w.ambientColor.mul o.surface.getAmbient) := by
    intro h
    rw [hhit, lightLoop, foldl_lightStep_unlit w ray _ _ _ _ w.lights h]
  refine ⟨?_, hhit, ?_, ?_⟩
  · intro lc l
    constructor
    · intro h
      rw [lightStep_eq, if_neg]
      rintro (h1 | h1)
      · exact hobj (h ▸ h1)
      · exact h1 h
    · intro h
      rw [lightStep_eq, if_pos (Or.inr h)]
  · intro h
    have heq := hunlit h
    refine ⟨heq, ?_, ?_, ?_⟩ <;> rw [heq] <;> rfl
  · intro h
    apply hunlit
    intro l hl
    rw [h] at hl
    exact absurd hl (List.not_mem_nil l)

/-- C12. In `World::getColor` at a depth up to `10`, for a hit on an object
`o` at the point `inter` with the normal `norm`, the base colour `B` and the
mirror coefficient `m` of its surface: if `m = 0` then `surfaceColor = B` and
`getColor` is not called again; if `0 < m <= 1` and `B` and the colour `R` of
the reflected ray, `getColor` at `depth + 1` of the ray from `inter` in the
direction `direction - 2 * (norm . direction) * norm`, have their channels
in `[0,1]`, then `surfaceColor` is `B * (1 - m) + R * m` in every channel. -/
theorem mirror_blend (w : World F) (ray : Ray F) (depth : Int) (o : WorldObject F)
    (hd : depth ≤ 10) (hobj : w.castRay ray ≠ -1)
    (ho : w.objects[(w.castRay ray).toNat]? = some o) :
    w.getColor ray depth = (w.surfaceColor ray depth o).intersect
      (lightLoop w ray (w.castRay ray) (o.intersection ray) (o.normal ray) o.surface) ∧
    (o.surface.getMirror (o.intersection ray) = 0 →
      w.surfaceColor ray depth o = o.surface.getColor (o.intersection ray) ∧
      (getColorTrace w ray depth).depths = [depth]) ∧
    (∀ (m : F) (B R : Color F), m = o.surface.getMirror (o.intersection ray) →
      B = o.surface.getColor (o.intersection ray) →
      R = w.getColor (Ray.new (o.intersection ray)
        (ray.direction - o.normal ray * (2 * (o.normal ray).dotProduct ray.direction)))
        (depth + 1) →
      0 < m → m ≤ 1 → B.InRange → R.InRange →
      w.surfaceColor ray depth o =
        ⟨B.r * (1 - m) + R.r * m, B.g * (1 - m) + R.g * m, B.b * (1 - m) + R.b * m⟩) := by
  refine ⟨getColor_hit w ray depth o hd hobj ho, ?_, ?_⟩
  · intro hm
    constructor
    · simp only [surfaceColor, hm, ne_eq, not_true_eq_false, ↓reduceIte]
    · rw [getColorTrace_hit w ray depth o hd hobj ho]
      simp only [hm, ne_eq, not_true_eq_false, ↓reduceIte]
  · intro m B R hm hB hR hm0 hm1 hBr hRr
    have hne : o.surface.getMirror (o.intersection ray) ≠ 0 := by
      rw [← hm]
      exact ne_of_gt hm0
    rw [← reflectionDir_eq] at hR
    simp only [surfaceColor, hne, ne_eq, not_false_eq_true, ↓reduceIte, ← hm, ← hB, ← hR]
    obtain ⟨⟨hb1, hb2⟩, ⟨hb3, hb4⟩, ⟨hb5, hb6⟩⟩ := hBr
    obtain ⟨⟨hr1, hr2⟩, ⟨hr3, hr4⟩, ⟨hr5, hr6⟩⟩ := hRr
    simp only [Color.add, Color.mul]
    rw [blend_channel B.r R.r m hm0 hm1 hb1 hb2 hr2,
      blend_channel B.g R.g m hm0 hm1 hb3 hb4 hr4,
      blend_channel B.b R.b m hm0 hm1 hb5 hb6 hr6]
    rw [if_pos (ne_of_gt hm0)]

end World
namespace World

variable {F : Type} [LinearOrderedField F] [LibM F]

/-- A ray that hits nothing has the colour `voidColor`. -/
theorem getColor_miss (w : World F) (ray : Ray F) (depth : Int) (h : w.castRay ray = -1) :
    w.getColor ray depth = w.voidColor := by
  rw [getColor]
  by_cases hd : depth > 10
  · simp [hd]
  · simp [hd, h]

end World

section ShadingWitnesses

open World Examples

theorem sqrt_rat_400 : LibM.sqrt (400 : ℚ) = 20 := by
  show sqrtRat 400 = 20
  have h := sqrtRat_mul_self 20 (by norm_num)
  norm_num at h
  exact h

theorem litWorld_objects :
    litWorld.objects = [.plane (Surface.new .uniform) ⟨0, 0, 0⟩ ⟨0, 1, 0⟩] := by
  simp [litWorld, floorWorld, World.new, addWorldObject, addLight, floorPlane_eq]

theorem castRay_litWorld_down : litWorld.castRay downRay = 0 := by
  rw [castRay, litWorld_objects, downRay_eq]
  simp only [castRayLoop]
  norm_num [WorldObject.distance, Vec3.dotProduct, minCastDist]

theorem litWorld_hit : litWorld.objects[(litWorld.castRay downRay).toNat]? =
    some (.plane (Surface.new .uniform) ⟨0, 0, 0⟩ ⟨0, 1, 0⟩) := by
  rw [castRay_litWorld_down, litWorld_objects]
  rfl

theorem plainPlane_intersection :
    (WorldObject.plane (Surface.new .uniform) (⟨0, 0, 0⟩ : Vec3 ℚ) ⟨0, 1, 0⟩).intersection
      downRay = ⟨0, 0, 0⟩ := by
  have h := floorPlane_intersection
  rw [floorPlane_eq] at h
  exact h

theorem litWorld_lightRay :
    lightRay (⟨0, 0, 0⟩ : Vec3 ℚ) ⟨⟨1, 1, 1⟩, ⟨0, 20, 0⟩⟩ = ⟨⟨0, 20, 0⟩, ⟨0, -1, 0⟩⟩ := by
  have h1 : ((⟨0, 0, 0⟩ : Vec3 ℚ) - ⟨0, 20, 0⟩).normalise = ⟨0, -1, 0⟩ := by
    simp only [Vec3.normalise, Vec3.sub_x, Vec3.sub_y, Vec3.sub_z]
    norm_num
    rw [sqrt_rat_400]
    norm_num
  simp only [lightRay, h1, Ray.new]
  simp [Vec3.normalise, sqrt_rat_one]

theorem castRay_litWorld_light :
    litWorld.castRay (lightRay (⟨0, 0, 0⟩ : Vec3 ℚ) ⟨⟨1, 1, 1⟩, ⟨0, 20, 0⟩⟩) = 0 := by
  rw [litWorld_lightRay, castRay, litWorld_objects]
  simp only [castRayLoop]
  norm_num [WorldObject.distance, Vec3.dotProduct, minCastDist]

theorem shadow_test_witness :
    (0 : Int) ≤ 10 ∧ litWorld.castRay downRay ≠ -1 ∧
    litWorld.castRay (lightRay
      ((WorldObject.plane (Surface.new .uniform) (⟨0, 0, 0⟩ : Vec3 ℚ) ⟨0, 1, 0⟩).intersection
        downRay) ⟨⟨1, 1, 1⟩, ⟨0, 20, 0⟩⟩) = litWorld.castRay downRay ∧
    lightStep litWorld downRay (litWorld.castRay downRay)
      ((WorldObject.plane (Surface.new .uniform) (⟨0, 0, 0⟩ : Vec3 ℚ) ⟨0, 1, 0⟩).intersection
        downRay)
      ((WorldObject.plane (Surface.new .uniform) (⟨0, 0, 0⟩ : Vec3 ℚ) ⟨0, 1, 0⟩).normal downRay)
      (WorldObject.plane (Surface.new .uniform) (⟨0, 0, 0⟩ : Vec3 ℚ) ⟨0, 1, 0⟩).surface
      ⟨0, 0, 0⟩ ⟨⟨1, 1, 1⟩, ⟨0, 20, 0⟩⟩ =
      (Color.addAssign ⟨0, 0, 0⟩ (diffuseTerm
        ((WorldObject.plane (Surface.new .uniform) (⟨0, 0, 0⟩ : Vec3 ℚ) ⟨0, 1, 0⟩).intersection
          downRay)
        ((WorldObject.plane (Surface.new .uniform) (⟨0, 0, 0⟩ : Vec3 ℚ) ⟨0, 1, 0⟩).normal
          downRay)
        (WorldObject.plane (Surface.new .uniform) (⟨0, 0, 0⟩ : Vec3 ℚ) ⟨0, 1, 0⟩).surface
        ⟨⟨1, 1, 1⟩, ⟨0, 20, 0⟩⟩)).addAssign
      (specularTerm downRay
        ((WorldObject.plane (Surface.new .uniform) (⟨0, 0, 0⟩ : Vec3 ℚ) ⟨0, 1, 0⟩).intersection
          downRay)
        ((WorldObject.plane (Surface.new .uniform) (⟨0, 0, 0⟩ : Vec3 ℚ) ⟨0, 1, 0⟩).normal
          downRay)
        (WorldObject.plane (Surface.new .uniform) (⟨0, 0, 0⟩ : Vec3 ℚ) ⟨0, 1, 0⟩).surface
        ⟨⟨1, 1, 1⟩, ⟨0, 20, 0⟩⟩) :=
  have hobj : litWorld.castRay downRay ≠ -1 := by
    rw [castRay_litWorld_down]
    decide
  have hlit : litWorld.castRay (lightRay
      ((WorldObject.plane (Surface.new .uniform) (⟨0, 0, 0⟩ : Vec3 ℚ) ⟨0, 1, 0⟩).intersection
        downRay) ⟨⟨1, 1, 1⟩, ⟨0, 20, 0⟩⟩) = litWorld.castRay downRay := by
    rw [plainPlane_intersection, castRay_litWorld_light, castRay_litWorld_down]
  ⟨by decide, hobj, hlit,
    ((shadow_test litWorld downRay 0 _ (by decide) hobj litWorld_hit).1 ⟨0, 0, 0⟩
      ⟨⟨1, 1, 1⟩, ⟨0, 20, 0⟩⟩).1 hlit⟩

theorem mirrorWorld_hit : mirrorWorld.objects[(mirrorWorld.castRay downRay).toNat]? =
    some (.plane mirrorSurface ⟨0, 0, 0⟩ ⟨0, 1, 0⟩) := by
  rw [castRay_mirrorWorld_down, mirrorWorld_objects]
  rfl

theorem mirrorPlane_intersection :
    (WorldObject.plane mirrorSurface (⟨0, 0, 0⟩ : Vec3 ℚ) ⟨0, 1, 0⟩).intersection downRay =
      ⟨0, 0, 0⟩ := by
  have h := floorPlane_intersection
  rw [floorPlane_eq] at h
  exact h

theorem mirrorWorld_reflected :
    mirrorWorld.getColor (Ray.new
      ((WorldObject.plane mirrorSurface (⟨0, 0, 0⟩ : Vec3 ℚ) ⟨0, 1, 0⟩).intersection downRay)
      (downRay.direction -
        (WorldObject.plane mirrorSurface (⟨0, 0, 0⟩ : Vec3 ℚ) ⟨0, 1, 0⟩).normal downRay *
          (2 * ((WorldObject.plane mirrorSurface (⟨0, 0, 0⟩ : Vec3 ℚ) ⟨0, 1, 0⟩).normal
            downRay).dotProduct downRay.direction))) (0 + 1) = ⟨1, 1, 1⟩ := by
  have hdir : downRay.direction -
      (WorldObject.plane mirrorSurface (⟨0, 0, 0⟩ : Vec3 ℚ) ⟨0, 1, 0⟩).normal downRay *
        (2 * ((WorldObject.plane mirrorSurface (⟨0, 0, 0⟩ : Vec3 ℚ) ⟨0, 1, 0⟩).normal
          downRay).dotProduct downRay.direction) = ⟨0, 1, 0⟩ := by
    rw [downRay_eq]
    ext <;> norm_num [WorldObject.normal, Vec3.dotProduct]
  rw [mirrorPlane_intersection, hdir, getColor_miss _ _ _ castRay_mirrorWorld_up]
  rfl

theorem mirror_blend_witness :
    (0 : Int) ≤ 10 ∧ mirrorWorld.castRay downRay ≠ -1 ∧
    mirrorWorld.surfaceColor downRay 0 (.plane mirrorSurface ⟨0, 0, 0⟩ ⟨0, 1, 0⟩) =
      ⟨1 * (1 - 1 / 2) + 1 * (1 / 2), 0 * (1 - 1 / 2) + 1 * (1 / 2),
        0 * (1 - 1 / 2) + 1 * (1 / 2)⟩ :=
  have hobj : mirrorWorld.castRay downRay ≠ -1 := by
    rw [castRay_mirrorWorld_down]
    decide
  ⟨by decide, hobj,
    (mirror_blend mirrorWorld downRay 0 _ (by decide) hobj mirrorWorld_hit).2.2
      (1 / 2) ⟨1, 0, 0⟩ ⟨1, 1, 1⟩ rfl rfl mirrorWorld_reflected.symm (by norm_num) (by norm_num)
      (by norm_num [Color.InRange]) (by norm_num [Color.InRange])⟩

end ShadingWitnesses

section Scheduler

theorem pow2Loop_spec (a b : Int) (tmp : Int) (hpos : 0 < tmp) :
    ∃ n : Nat, pow2Loop a b tmp hpos = tmp * 2 ^ n ∧
      a ≤ pow2Loop a b tmp hpos ∧ b ≤ pow2Loop a b tmp hpos ∧
      (n = 0 ∨ tmp * 2 ^ (n - 1) < max a b) := by
  induction tmp, hpos using pow2Loop.induct a b with
  | case1 tmp hpos hlt ih =>
    obtain ⟨n, h1, h2, h3, h4⟩ := ih
    rw [pow2Loop, dif_pos hlt]
    refine ⟨n + 1, ?_, h2, h3, Or.inr ?_⟩
    · rw [h1, pow_succ]
      ring
    · rcases h4 with h4 | h4
      · subst h4
        simp only [zero_add, Nat.sub_self, pow_zero, mul_one]
        rcases hlt with h | h
        · exact lt_of_lt_of_le h (le_max_left _ _)
        · exact lt_of_lt_of_le h (le_max_right _ _)
      · have hn : n ≠ 0 := by
          rintro rfl
          simp only [Nat.zero_sub, pow_zero, mul_one] at h4
          have : tmp < max a b := by
            rcases hlt with h | h
            · exact lt_of_lt_of_le h (le_max_left _ _)
            · exact lt_of_lt_of_le h (le_max_right _ _)
          omega
        obtain ⟨m, rfl⟩ : ∃ m, n = m + 1 := ⟨n - 1, by omega⟩
        simp only [Nat.add_sub_cancel] at h4 ⊢
        rw [pow_succ]
        have : tmp * (2 ^ m * 2) = tmp * 2 * 2 ^ m := by ring
        rw [this]
        exact h4
  | case2 tmp hpos hge =>
    rw [pow2Loop, dif_neg hge]
    push_neg at hge
    exact ⟨0, by simp, hge.1, hge.2, Or.inl rfl⟩

/-- The value that both reset loops compute, started at `1`: the least power of
two that is not below `a` and not below `b`. -/
theorem pow2Loop_least (a b : Int) :
    ∃ k : Nat, pow2Loop a b 1 Int.one_pos = 2 ^ k ∧ max a b ≤ 2 ^ k ∧
      ∀ j : Nat, max a b ≤ 2 ^ j → (2 : Int) ^ k ≤ 2 ^ j := by
  obtain ⟨n, h1, h2, h3, h4⟩ := pow2Loop_spec a b 1 Int.one_pos
  rw [one_mul] at h1
  refine ⟨n, h1, ?_, ?_⟩
  · rw [← h1]
    exact max_le h2 h3
  · intro j hj
    rcases h4 with h4 | h4
    · subst h4
      simp only [pow_zero]
      exact one_le_pow₀ (by norm_num)
    · rw [one_mul] at h4
      have hlt : (2 : Int) ^ (n - 1) < 2 ^ j := lt_of_lt_of_le h4 hj
      have hnj : n - 1 < j := (pow_lt_pow_iff_right₀ (by norm_num)).mp hlt
      have hn : n ≠ 0 := by
        rintro rfl
        simp at h4
        have := pow_pos (show (0 : Int) < 2 by norm_num) j
        omega
      exact pow_le_pow_right₀ (by norm_num) (by omega)

theorem mem_intRange (a b x : Int) : x ∈ intRange a b ↔ a ≤ x ∧ x < b := by
  unfold intRange
  simp only [List.mem_map, List.mem_range]
  constructor
  · rintro ⟨k, hk, rfl⟩
    omega
  · rintro ⟨h1, h2⟩
    exact ⟨(x - a).toNat, by omega, by omega⟩

theorem mem_rectCells (left bottom right top : Int) (cell : Int × Int) :
    cell ∈ rectCells left bottom right top ↔
      (left ≤ cell.1 ∧ cell.1 < right) ∧ (bottom ≤ cell.2 ∧ cell.2 < top) := by
  obtain ⟨j, i⟩ := cell
  unfold rectCells
  simp only [List.mem_flatMap, List.mem_map, mem_intRange, Prod.mk.injEq]
  constructor
  · rintro ⟨i2, hi, j2, hj, rfl, rfl⟩
    exact ⟨hj, hi⟩
  · rintro ⟨hj, hi⟩
    exact ⟨i, hi, j, hj, rfl, rfl⟩

theorem paint_texture {F : Type} (s : DM_Iterative F) (color : Color F) :
    (DM_Iterative.paint s color).texture =
      (Cursor.stepCells s.win_width s.win_height s.cursor).foldl
        (writeCell s.win_pow2 color) s.texture := by
  simp only [DM_Iterative.paint, DM_Iterative.drawRect, DM_Iterative.cursor, Cursor.stepCells, List.foldl_append]


theorem mem_stepCells (w h : Int) (c : Cursor) (cell : Int × Int)
    (hc : cell ∈ Cursor.stepCells w h c) :
    c.InPaintedQuadrant cell ∧ cell.1 < w - 1 ∧ cell.2 < h - 1 := by
  simp only [Cursor.stepCells, List.mem_append, mem_rectCells] at hc
  unfold Cursor.InPaintedQuadrant
  omega

theorem not_topLeft_of_painted (c : Cursor) (cell : Int × Int)
    (h : c.InPaintedQuadrant cell) : ¬ c.InTopLeftQuadrant cell := by
  unfold Cursor.InPaintedQuadrant at h
  unfold Cursor.InTopLeftQuadrant
  omega

theorem writeCell_apply {F : Type} (p : Int) (color : Color F) (tex : Int → F)
    (c : Int × Int) (a : Int) :
    writeCell p color tex c a =
      if a = cellIndex p c + 2 then color.b
      else if a = cellIndex p c + 1 then color.g
      else if a = cellIndex p c then color.r
      else tex a := by
  simp only [writeCell, Function.update_apply]

theorem writeCell_cases {F : Type} (p : Int) (color : Color F) (tex : Int → F)
    (c : Int × Int) (a : Int) :
    ((a < cellIndex p c ∨ cellIndex p c + 3 ≤ a) ∧ writeCell p color tex c a = tex a) ∨
    (∃ k : Int, 0 ≤ k ∧ k < 3 ∧ a = cellIndex p c + k ∧
      writeCell p color tex c a = color.chan k) := by
  rw [writeCell_apply]
  by_cases h2 : a = cellIndex p c + 2
  · right
    exact ⟨2, by norm_num, by norm_num, h2, by simp [h2, Color.chan]⟩
  · by_cases h1 : a = cellIndex p c + 1
    · right
      exact ⟨1, by norm_num, by norm_num, h1, by simp [h1, Color.chan]⟩
    · by_cases h0 : a = cellIndex p c
      · right
        exact ⟨0, by norm_num, by norm_num, by omega, by simp [h0, Color.chan]⟩
      · left
        refine ⟨by omega, ?_⟩
        rw [if_neg h2, if_neg h1, if_neg h0]

/-- An index outside the three floats of every cell of a list keeps its value
when the cells are written. -/
theorem foldl_writeCell_frame {F : Type} (p : Int) (color : Color F)
    (cells : List (Int × Int)) :
    ∀ (tex : Int → F) (a : Int),
      (∀ c ∈ cells, a < cellIndex p c ∨ cellIndex p c + 3 ≤ a) →
      (cells.foldl (writeCell p color) tex) a = tex a := by
  induction cells with
  | nil =>
    intro tex a _
    rfl
  | cons c cs ih =>
    intro tex a h
    rw [List.foldl_cons, ih _ a (fun c2 hc2 => h c2 (List.mem_cons_of_mem c hc2))]
    rcases writeCell_cases p color tex c a with ⟨_, h1⟩ | ⟨k, hk0, hk3, hk, _⟩
    · exact h1
    · have := h c (List.mem_cons_self c cs)
      omega

/-- After the cells of a list are written with one colour, every index holds
its old value or a channel of that colour. -/
theorem foldl_writeCell_cases {F : Type} (p : Int) (color : Color F)
    (cells : List (Int × Int)) :
    ∀ (tex : Int → F) (a : Int),
      (cells.foldl (writeCell p color) tex) a = tex a ∨
      ∃ c ∈ cells, ∃ k : Int, 0 ≤ k ∧ k < 3 ∧ a = cellIndex p c + k ∧
        (cells.foldl (writeCell p color) tex) a = color.chan k := by
  induction cells with
  | nil =>
    intro tex a
    exact Or.inl rfl
  | cons c cs ih =>
    intro tex a
    rw [List.foldl_cons]
    rcases ih (writeCell p color tex c) a with h | ⟨c2, hc2, k, hk0, hk3, hk, hval⟩
    · rcases writeCell_cases p color tex c a with ⟨_, h1⟩ | ⟨k, hk0, hk3, hk, hval⟩
      · exact Or.inl (h.trans h1)
      · exact Or.inr ⟨c, List.mem_cons_self c cs, k, hk0, hk3, hk, h.trans hval⟩
    · exact Or.inr ⟨c2, List.mem_cons_of_mem c hc2, k, hk0, hk3, hk, hval⟩

/-- Two cells of one texture row with the same index are the same cell. -/
theorem cellIndex_inj (p : Int) (c1 c2 : Int × Int) (k : Int) (hk0 : 0 ≤ k) (hk3 : k < 3)
    (h1 : 0 ≤ c1.1) (h1p : c1.1 < p) (h2 : 0 ≤ c2.1) (h2p : c2.1 < p)
    (hidx : cellIndex p c1 ≤ cellIndex p c2 + k ∧ cellIndex p c2 + k < cellIndex p c1 + 3) :
    c1 = c2 := by
  obtain ⟨j1, i1⟩ := c1
  obtain ⟨j2, i2⟩ := c2
  simp only [cellIndex] at hidx h1 h1p h2 h2p
  have hsum : i1 * p + j1 = i2 * p + j2 := by omega
  have hmul : (i1 - i2) * p = j2 - j1 := by linear_combination hsum
  have hdvd : p ∣ j2 - j1 := ⟨i1 - i2, by rw [← hmul]; ring⟩
  have habs : |j2 - j1| < p := by
    rw [abs_lt]
    constructor <;> omega
  have hj : j2 - j1 = 0 := Int.eq_zero_of_abs_lt_dvd hdvd habs
  have hp : p ≠ 0 := by omega
  have hi : i1 - i2 = 0 := by
    rw [hj] at hmul
    rcases mul_eq_zero.mp hmul with h | h
    · exact h
    · exact absurd h hp
  have e1 : j1 = j2 := by omega
  have e2 : i1 = i2 := by omega
  rw [e1, e2]

theorem runInv_reset (w h : Int) (hw : 1 ≤ w) (hh : 1 ≤ h) :
    Cursor.RunInv w h ⟨pow2Loop h w 1 Int.one_pos, 0, 0, false⟩ := by
  obtain ⟨k, hk, _⟩ := pow2Loop_least h w
  refine ⟨⟨k, hk⟩, ?_, ?_, ?_, ?_, ?_⟩ <;> dsimp only <;> first | omega | simp

theorem two_pow_halve (k : Nat) (h : ¬ ((2 : Int) ^ k ≤ 1)) :
    ∃ m : Nat, k = m + 1 ∧ (2 : Int) ^ k / 2 = 2 ^ m := by
  cases k with
  | zero => simp at h
  | succ m =>
    refine ⟨m, rfl, ?_⟩
    rw [pow_succ]
    exact Int.mul_ediv_cancel _ (by norm_num)

theorem runInv_advance (w h : Int) (c : Cursor) (hw : 1 ≤ w) (hh : 1 ≤ h)
    (hinv : Cursor.RunInv w h c) : Cursor.RunInv w h (Cursor.advance w h c) := by
  obtain ⟨t, l, b, d⟩ := c
  obtain ⟨⟨k, hk⟩, hl0, hlw, hb0, hbh, hdone⟩ := hinv
  dsimp only at hk hl0 hlw hb0 hbh hdone
  have hpos : (0 : Int) < 2 ^ k := pow_pos (by norm_num) k
  unfold Cursor.advance
  dsimp only
  by_cases h1 : b + (t + t) ≥ h
  · rw [if_pos h1]
    dsimp only
    by_cases h2 : l + (t + t) ≥ w
    · rw [if_pos h2]
      by_cases h3 : t ≤ 1
      · rw [if_pos h3]
        refine ⟨⟨k, hk⟩, ?_, ?_, ?_, ?_, ?_⟩ <;> dsimp only <;> intros <;> omega
      · rw [if_neg h3]
        rw [hk] at h3
        obtain ⟨m, _, hm⟩ := two_pow_halve k h3
        refine ⟨⟨m, ?_⟩, ?_, ?_, ?_, ?_, ?_⟩ <;> dsimp only
        · rw [hk, hm]
        · omega
        · omega
        · omega
        · omega
        · intro hd
          have := hdone hd
          omega
    · rw [if_neg h2]
      refine ⟨⟨k, hk⟩, ?_, ?_, ?_, ?_, ?_⟩ <;> dsimp only <;> first | omega | exact hdone
  · rw [if_neg h1]
    dsimp only
    have h2 : ¬ l ≥ w := by omega
    rw [if_neg h2]
    refine ⟨⟨k, hk⟩, ?_, ?_, ?_, ?_, ?_⟩ <;> dsimp only <;> first | omega | exact hdone

theorem runInv_iterate (w h : Int) (hw : 1 ≤ w) (hh : 1 ≤ h) (n : Nat) :
    Cursor.RunInv w h
      ((Cursor.advance w h)^[n] ⟨pow2Loop h w 1 Int.one_pos, 0, 0, false⟩) := by
  induction n with
  | zero => exact runInv_reset w h hw hh
  | succ n ih =>
    rw [Function.iterate_succ_apply']
    exact runInv_advance w h _ hw hh ih

namespace DM_Iterative

variable {F : Type} [LinearOrderedField F] [LibM F]

theorem drawNext_cursor (s : DM_Iterative F) :
    s.drawNext.cursor = Cursor.advance s.win_width s.win_height s.cursor := by
  simp only [drawNext, cursor, paint, drawRect]

theorem drawNext_frame (s : DM_Iterative F) :
    s.drawNext.win_width = s.win_width ∧ s.drawNext.win_height = s.win_height ∧
    s.drawNext.win_pow2 = s.win_pow2 ∧ s.drawNext.win_size_pad = s.win_size_pad ∧
    s.drawNext.camera = s.camera ∧ s.drawNext.world = s.world := by
  simp only [drawNext, paint, drawRect, and_self]

theorem drawNext_texture (s : DM_Iterative F) :
    s.drawNext.texture =
      (Cursor.stepCells s.win_width s.win_height s.cursor).foldl
        (writeCell s.win_pow2 (s.world.getColor (s.camera.getRay s.tile_left s.tile_bottom) 0))
        s.texture := by
  rw [← paint_texture]
  simp only [drawNext]

theorem iterate_drawNext_frame (s : DM_Iterative F) (n : Nat) :
    (drawNext^[n] s).win_width = s.win_width ∧ (drawNext^[n] s).win_height = s.win_height ∧
    (drawNext^[n] s).win_pow2 = s.win_pow2 := by
  induction n with
  | zero => exact ⟨rfl, rfl, rfl⟩
  | succ n ih =>
    rw [Function.iterate_succ_apply']
    obtain ⟨h1, h2, h3, _⟩ := drawNext_frame (drawNext^[n] s)
    exact ⟨h1.trans ih.1, h2.trans ih.2.1, h3.trans ih.2.2⟩

theorem iterate_drawNext_cursor (s : DM_Iterative F) (n : Nat) :
    (drawNext^[n] s).cursor = (Cursor.advance s.win_width s.win_height)^[n] s.cursor := by
  induction n with
  | zero => rfl
  | succ n ih =>
    rw [Function.iterate_succ_apply', Function.iterate_succ_apply', drawNext_cursor, ih,
      (iterate_drawNext_frame s n).1, (iterate_drawNext_frame s n).2.1]

end DM_Iterative

end Scheduler
section SchedulerClaims

theorem advance_spec (w h : Int) (c : Cursor)
    (hinv : Cursor.RunInv w h c) :
    (Cursor.advance w h c).tile_size ≤ c.tile_size ∧
    ((Cursor.advance w h c).tile_size ≠ c.tile_size ↔
      1 < c.tile_size ∧ Cursor.PassComplete w h c) ∧
    ((Cursor.advance w h c).tile_size ≠ c.tile_size →
      2 * (Cursor.advance w h c).tile_size = c.tile_size ∧
      (Cursor.advance w h c).tile_left = 0 ∧ (Cursor.advance w h c).tile_bottom = 0) ∧
    (c.done = false →
      ((Cursor.advance w h c).done = true ↔ c.tile_size = 1 ∧ Cursor.PassComplete w h c)) := by
  obtain ⟨t, l, b, d⟩ := c
  obtain ⟨⟨k, hk⟩, hl0, hlw, hb0, hbh, hdone⟩ := hinv
  dsimp only at hk hl0 hlw hb0 hbh hdone
  have hpos : (0 : Int) < 2 ^ k := pow_pos (by norm_num) k
  unfold Cursor.advance Cursor.PassComplete
  dsimp only
  by_cases h1 : b + (t + t) ≥ h
  · rw [if_pos h1]
    dsimp only
    by_cases h2 : l + (t + t) ≥ w
    · rw [if_pos h2]
      by_cases h3 : t ≤ 1
      · rw [if_pos h3]
        dsimp only
        refine ⟨le_refl _, ?_, ?_, ?_⟩
        · constructor
          · intro hne
            exact absurd rfl hne
          · intro hc
            omega
        · intro hne
          exact absurd rfl hne
        · intro _
          constructor
          · intro _
            exact ⟨by omega, h1, h2⟩
          · intro _
            rfl
      · rw [if_neg h3]
        dsimp only
        have h3k := h3
        rw [hk] at h3k
        obtain ⟨m, hkm, hm⟩ := two_pow_halve k h3k
        have hmpos : (0 : Int) < 2 ^ m := pow_pos (by norm_num) m
        have hdouble : (2 : Int) ^ k = 2 * 2 ^ m := by
          rw [hkm, pow_succ]
          ring
        have ht2 : t / 2 = 2 ^ m := by rw [hk, hm]
        rw [ht2]
        refine ⟨by omega, ?_, ?_, ?_⟩
        · constructor
          · intro _
            exact ⟨by omega, h1, h2⟩
          · intro _
            omega
        · intro _
          exact ⟨by omega, rfl, rfl⟩
        · intro hd
          constructor
          · intro hd2
            rw [hd] at hd2
            exact absurd hd2 (by decide)
          · intro hc
            omega
    · rw [if_neg h2]
      refine ⟨le_refl _, ?_, ?_, ?_⟩
      · constructor
        · intro hne
          exact absurd rfl hne
        · intro hc
          omega
      · intro hne
        exact absurd rfl hne
      · intro hd
        constructor
        · intro hd2
          dsimp only at hd2
          rw [hd] at hd2
          exact absurd hd2 (by decide)
        · intro hc
          omega
  · rw [if_neg h1]
    dsimp only
    have h2 : ¬ l ≥ w := by omega
    rw [if_neg h2]
    refine ⟨le_refl _, ?_, ?_, ?_⟩
    · constructor
      · intro hne
        exact absurd rfl hne
      · intro hc
        omega
    · intro hne
      exact absurd rfl hne
    · intro hd
      constructor
      · intro hd2
        dsimp only at hd2
        rw [hd] at hd2
        exact absurd hd2 (by decide)
      · intro hc
        omega

theorem pow2Loop_four : pow2Loop 4 4 1 Int.one_pos = 4 := by
  simp [pow2Loop]

variable {F : Type}

/-- C16. `DM_Iterative::updateWindowContent` sets `tile_size` (and
`win_size_pad`) to the least power of two that is not below `max(w, h)`, the
cursor to `(0, 0)` and `done` to `false`, whatever the state before; the
steering members of the result depend on `w` and `h` only, and a second call
changes nothing.  For `w, h <= 2^30` the tile size is at most `2^30`. -/
theorem scheduler_reset (s : DM_Iterative F) :
    (∃ k : Nat, s.updateWindowContent.tile_size = 2 ^ k ∧
      max s.win_width s.win_height ≤ 2 ^ k ∧
      ∀ j : Nat, max s.win_width s.win_height ≤ 2 ^ j → (2 : Int) ^ k ≤ 2 ^ j) ∧
    s.updateWindowContent.tile_left = 0 ∧ s.updateWindowContent.tile_bottom = 0 ∧
    s.updateWindowContent.done = false ∧
    s.updateWindowContent.win_size_pad = s.updateWindowContent.tile_size ∧
    (∀ s2 : DM_Iterative F, s2.win_width = s.win_width → s2.win_height = s.win_height →
      s2.updateWindowContent.cursor = s.updateWindowContent.cursor) ∧
    s.updateWindowContent.updateWindowContent = s.updateWindowContent ∧
    (s.win_width ≤ 2 ^ 30 → s.win_height ≤ 2 ^ 30 →
      s.updateWindowContent.tile_size ≤ 2 ^ 30) := by
  obtain ⟨k, hk, hmax, hmin⟩ := pow2Loop_least s.win_height s.win_width
  rw [max_comm] at hmax hmin
  have hts : s.updateWindowContent.tile_size = 2 ^ k := hk
  refine ⟨⟨k, hts, hmax, hmin⟩, rfl, rfl, rfl, rfl, ?_, rfl, ?_⟩
  · intro s2 h1 h2
    simp only [DM_Iterative.updateWindowContent, DM_Iterative.cursor, h1, h2]
  · intro h1 h2
    rw [hts]
    exact hmin 30 (max_le h1 h2)

/-- The reset state of a canvas of `4 x 4` cells. -/
theorem reset_cursor_4x4 (s : DM_Iterative F) (hw : s.win_width = 4) (hh : s.win_height = 4) :
    (DM_Iterative.updateWindowContent s).cursor = ⟨4, 0, 0, false⟩ := by
  simp only [DM_Iterative.updateWindowContent, DM_Iterative.cursor, hw, hh, pow2Loop_four]

theorem stepCells_4x4_first : Cursor.stepCells 4 4 ⟨4, 0, 0, false⟩ = [] := by
  decide

/-- A run writes neither the cell `(0,0)` nor a cell of the last column or of
the last row. -/
theorem runCells_gap (w h : Int) (n : Nat) :
    ∀ c : Cursor, Cursor.RunInv w h c → 1 ≤ w → 1 ≤ h →
      ∀ cell ∈ Cursor.runCells w h n c,
        cell ≠ (0, 0) ∧ cell.1 < w - 1 ∧ cell.2 < h - 1 := by
  induction n with
  | zero =>
    intro c _ _ _ cell hcell
    simp [Cursor.runCells] at hcell
  | succ n ih =>
    intro c hinv hw hh cell hcell
    simp only [Cursor.runCells, List.mem_append] at hcell
    rcases hcell with hcell | hcell
    · obtain ⟨hq, hx, hy⟩ := mem_stepCells w h c cell hcell
      refine ⟨?_, hx, hy⟩
      obtain ⟨⟨k, hk⟩, hl0, _, hb0, _, _⟩ := hinv
      have hpos : (0 : Int) < 2 ^ k := pow_pos (by norm_num) k
      rintro rfl
      unfold Cursor.InPaintedQuadrant at hq
      dsimp only at hq
      omega
    · exact ih _ (runInv_advance w h c hw hh hinv) hw hh cell hcell

end SchedulerClaims

namespace DM_Iterative

variable {F : Type} [LinearOrderedField F] [LibM F]

/-- An index outside the floats of every cell written in `n` steps keeps its
value. -/
theorem iterate_texture_frame (n : Nat) :
    ∀ (s : DM_Iterative F) (a : Int),
      (∀ c ∈ Cursor.runCells s.win_width s.win_height n s.cursor,
        a < cellIndex s.win_pow2 c ∨ cellIndex s.win_pow2 c + 3 ≤ a) →
      (drawNext^[n] s).texture a = s.texture a := by
  induction n with
  | zero =>
    intro s a _
    rfl
  | succ n ih =>
    intro s a h
    rw [Function.iterate_succ_apply]
    obtain ⟨hw, hh, hp, _⟩ := drawNext_frame s
    rw [ih s.drawNext a]
    · rw [drawNext_texture]
      apply foldl_writeCell_frame
      intro c hc
      exact h c (by
        simp only [Cursor.runCells, List.mem_append]
        exact Or.inl hc)
    · intro c hc
      rw [hw, hh, drawNext_cursor] at hc
      rw [hp]
      exact h c (by
        simp only [Cursor.runCells, List.mem_append]
        exact Or.inr hc)

/-- The first step on a canvas of `4 x 4` cells writes nothing. -/
theorem first_step_4x4 (s : DM_Iterative F) (hw : s.win_width = 4) (hh : s.win_height = 4) :
    s.updateWindowContent.drawNext.texture = s.updateWindowContent.texture := by
  have hw0 : s.updateWindowContent.win_width = 4 := hw
  have hh0 : s.updateWindowContent.win_height = 4 := hh
  rw [drawNext_texture, hw0, hh0, reset_cursor_4x4 s hw hh, stepCells_4x4_first]
  rfl

/-- C17, as amended. On a canvas of `4 x 4` cells the scheduler starts after the
reset with the tile size `4`.  Its first step of `drawNext`, at tile size
`4`, writes no cell and halves the tile size to `2`, the cursor staying at
`(0, 0)`.  The second step paints with the one colour sampled at the pixel
`(0, 0)`, and every cell it writes lies in the right, the below or the
diagonal quadrant of size `2` of the block at the origin, none in the
quadrant `[0,2) x [0,2)`. -/
theorem scheduler_4x4 (s : DM_Iterative F) (hw : s.win_width = 4) (hh : s.win_height = 4) :
    s.updateWindowContent.tile_size = 4 ∧
    s.updateWindowContent.cursor = ⟨4, 0, 0, false⟩ ∧
    Cursor.stepCells 4 4 s.updateWindowContent.cursor = [] ∧
    s.updateWindowContent.drawNext.texture = s.updateWindowContent.texture ∧
    s.updateWindowContent.drawNext.cursor = ⟨2, 0, 0, false⟩ ∧
    s.updateWindowContent.drawNext.drawNext.texture =
      (Cursor.stepCells 4 4 ⟨2, 0, 0, false⟩).foldl
        (writeCell s.win_pow2 (s.world.getColor (s.camera.getRay 0 0) 0))
        s.updateWindowContent.drawNext.texture ∧
    (∀ cell ∈ Cursor.stepCells 4 4 ⟨2, 0, 0, false⟩,
      (2 ≤ cell.1 ∧ cell.1 < 4 ∧ 0 ≤ cell.2 ∧ cell.2 < 2) ∨
      (0 ≤ cell.1 ∧ cell.1 < 2 ∧ 2 ≤ cell.2 ∧ cell.2 < 4) ∨
      (2 ≤ cell.1 ∧ cell.1 < 4 ∧ 2 ≤ cell.2 ∧ cell.2 < 4)) ∧
    (∀ cell ∈ Cursor.stepCells 4 4 ⟨2, 0, 0, false⟩,
      ¬ (0 ≤ cell.1 ∧ cell.1 < 2 ∧ 0 ≤ cell.2 ∧ cell.2 < 2)) := by
  have hcur : s.updateWindowContent.cursor = ⟨4, 0, 0, false⟩ := reset_cursor_4x4 s hw hh
  have hw0 : s.updateWindowContent.win_width = 4 := hw
  have hh0 : s.updateWindowContent.win_height = 4 := hh
  have hcells : Cursor.stepCells 4 4 ⟨4, 0, 0, false⟩ = [] := stepCells_4x4_first
  have hcur1 : s.updateWindowContent.drawNext.cursor = ⟨2, 0, 0, false⟩ := by
    rw [drawNext_cursor, hw0, hh0, hcur]
    decide
  have hquad : ∀ cell ∈ Cursor.stepCells 4 4 ⟨2, 0, 0, false⟩,
      (2 ≤ cell.1 ∧ cell.1 < 4 ∧ 0 ≤ cell.2 ∧ cell.2 < 2) ∨
      (0 ≤ cell.1 ∧ cell.1 < 2 ∧ 2 ≤ cell.2 ∧ cell.2 < 4) ∨
      (2 ≤ cell.1 ∧ cell.1 < 4 ∧ 2 ≤ cell.2 ∧ cell.2 < 4) := by
    intro cell hcell
    have h := (mem_stepCells 4 4 _ cell hcell).1
    unfold Cursor.InPaintedQuadrant at h
    dsimp only at h
    omega
  refine ⟨congrArg Cursor.tile_size hcur, hcur, ?_, ?_, hcur1, ?_, hquad, ?_⟩
  · rw [hcur]
    exact hcells
  · exact first_step_4x4 s hw hh
  · have hl : s.updateWindowContent.drawNext.tile_left = 0 :=
      congrArg Cursor.tile_left hcur1
    have hb : s.updateWindowContent.drawNext.tile_bottom = 0 :=
      congrArg Cursor.tile_bottom hcur1
    obtain ⟨h1, h2, h3, _, h5, h6⟩ := drawNext_frame s.updateWindowContent
    rw [drawNext_texture, h1, h2, h3, h5, h6, hw0, hh0, hcur1, hl, hb]
    rfl
  · intro cell hcell
    have := hquad cell hcell
    omega

/-- C19. One step of `DM_Iterative::drawNext` in any state paints with one
colour, `world.getColor(camera.getRay(tile_left, tile_bottom))`: every index
of the texture keeps its value or receives a channel of that colour, as one
of the three floats of a written cell.  Every cell written lies in the right,
the below or the diagonal quadrant of the block at the cursor, so inside
`[left, left + 2t) x [bottom, bottom + 2t)` and outside the top-left quadrant
`[left, left + t) x [bottom, bottom + t)`; the floats of the cells of the
top-left quadrant (for a cursor and a canvas inside the texture) keep their
values. -/
theorem drawNext_one_sample (s : DM_Iterative F) :
    s.drawNext.texture =
      (Cursor.stepCells s.win_width s.win_height s.cursor).foldl
        (writeCell s.win_pow2 (s.world.getColor (s.camera.getRay s.tile_left s.tile_bottom) 0))
        s.texture ∧
    (∀ a : Int, s.drawNext.texture a = s.texture a ∨
      ∃ cell ∈ Cursor.stepCells s.win_width s.win_height s.cursor,
        ∃ k : Int, 0 ≤ k ∧ k < 3 ∧ a = cellIndex s.win_pow2 cell + k ∧
          s.drawNext.texture a =
            (s.world.getColor (s.camera.getRay s.tile_left s.tile_bottom) 0).chan k) ∧
    (∀ cell ∈ Cursor.stepCells s.win_width s.win_height s.cursor,
      s.cursor.InPaintedQuadrant cell ∧ ¬ s.cursor.InTopLeftQuadrant cell ∧
      s.tile_left ≤ cell.1 ∧ cell.1 < s.tile_left + s.tile_size + s.tile_size ∧
      s.tile_bottom ≤ cell.2 ∧ cell.2 < s.tile_bottom + s.tile_size + s.tile_size) ∧
    (0 ≤ s.tile_left → s.win_width ≤ s.win_pow2 →
      ∀ (cell : Int × Int) (k : Int), s.cursor.InTopLeftQuadrant cell → cell.1 < s.win_pow2 →
        0 ≤ k → k < 3 →
        s.drawNext.texture (cellIndex s.win_pow2 cell + k) =
          s.texture (cellIndex s.win_pow2 cell + k)) := by
  refine ⟨drawNext_texture s, ?_, ?_, ?_⟩
  · intro a
    rw [drawNext_texture]
    exact foldl_writeCell_cases _ _ _ _ a
  · intro cell hcell
    have hq := (mem_stepCells _ _ _ cell hcell).1
    refine ⟨hq, not_topLeft_of_painted _ _ hq, ?_⟩
    unfold Cursor.InPaintedQuadrant at hq
    simp only [cursor] at hq
    omega
  · intro hl hwp cell k htl hcp hk0 hk3
    rw [drawNext_texture]
    apply foldl_writeCell_frame
    intro c hc
    obtain ⟨hq, hx, _⟩ := mem_stepCells _ _ _ c hc
    by_contra hcon
    have hidx : cellIndex s.win_pow2 c ≤ cellIndex s.win_pow2 cell + k ∧
        cellIndex s.win_pow2 cell + k < cellIndex s.win_pow2 c + 3 := by omega
    have hc0 : 0 ≤ c.1 := by
      unfold Cursor.InPaintedQuadrant at hq
      simp only [cursor] at hq
      omega
    have hcell0 : 0 ≤ cell.1 := by
      unfold Cursor.InTopLeftQuadrant at htl
      simp only [cursor] at htl
      omega
    have heq := cellIndex_inj s.win_pow2 c cell k hk0 hk3 hc0 (by omega) hcell0 hcp hidx
    rw [heq] at hq
    exact not_topLeft_of_painted _ _ hq htl

/-- C20. In a run of `drawNext` steps from the reset state of a canvas with
`w, h >= 1`: the tile size is a power of two; a step leaves it as it is or,
exactly when it is greater than `1` and the cursor leaves the canvas on both
axes, halves it and puts the cursor back to `(0, 0)`; `done` is never set
while the tile size is greater than `1`, and a step sets it exactly when the
tile size is `1` and the cursor leaves the canvas on both axes. -/
theorem done_only_at_tile_one (s0 : DM_Iterative F) (n : Nat)
    (hw : 1 ≤ s0.win_width) (hh : 1 ≤ s0.win_height) :
    ∀ s : DM_Iterative F, s = drawNext^[n] s0.updateWindowContent →
      (∃ k : Nat, s.tile_size = 2 ^ k) ∧
      s.drawNext.tile_size ≤ s.tile_size ∧
      (s.drawNext.tile_size ≠ s.tile_size ↔
        1 < s.tile_size ∧ Cursor.PassComplete s0.win_width s0.win_height s.cursor) ∧
      (s.drawNext.tile_size ≠ s.tile_size →
        2 * s.drawNext.tile_size = s.tile_size ∧
        s.drawNext.tile_left = 0 ∧ s.drawNext.tile_bottom = 0) ∧
      (s.done = true → s.tile_size = 1) ∧
      (s.done = false →
        (s.drawNext.done = true ↔
          s.tile_size = 1 ∧ Cursor.PassComplete s0.win_width s0.win_height s.cursor)) := by
  intro s hs
  have hfw : s.win_width = s0.win_width := by
    rw [hs]
    exact (iterate_drawNext_frame _ n).1
  have hfh : s.win_height = s0.win_height := by
    rw [hs]
    exact (iterate_drawNext_frame _ n).2.1
  have hinv : Cursor.RunInv s0.win_width s0.win_height s.cursor := by
    rw [hs, iterate_drawNext_cursor]
    exact runInv_iterate s0.win_width s0.win_height hw hh n
  have hspec := advance_spec s0.win_width s0.win_height s.cursor hinv
  have hnext : s.drawNext.cursor = Cursor.advance s0.win_width s0.win_height s.cursor := by
    rw [drawNext_cursor, hfw, hfh]
  rw [← hnext] at hspec
  exact ⟨hinv.1, hspec.1, hspec.2.1, hspec.2.2.1, hinv.2.2.2.2.2, hspec.2.2.2⟩

end DM_Iterative
section SchedulerScenes

open DM_Iterative Examples

theorem canvas4_cursor : canvas4.cursor = ⟨4, 0, 0, false⟩ :=
  reset_cursor_4x4 (blankCanvas.updateWindowSize 4 4 (fun _ => 0)) rfl rfl

theorem canvas4_pow2 : canvas4.win_pow2 = 4 := by
  show pow2Loop 4 4 1 Int.one_pos = 4
  exact pow2Loop_four

theorem canvas4_iterate_cursor (n : Nat) :
    (drawNext^[n] canvas4).cursor = (Cursor.advance 4 4)^[n] ⟨4, 0, 0, false⟩ := by
  rw [iterate_drawNext_cursor, canvas4_cursor]
  rfl

theorem runCells_4x4 :
    Cursor.runCells 4 4 6 ⟨4, 0, 0, false⟩ =
      [(2, 0), (2, 1), (0, 2), (1, 2), (2, 2), (1, 0), (0, 1), (1, 1), (1, 2), (2, 1)] := by
  decide

theorem scheduler_reset_witness :
    (blankCanvas.updateWindowSize 4 4 (fun _ => 0)).win_width ≤ 2 ^ 30 ∧
    (blankCanvas.updateWindowSize 4 4 (fun _ => 0)).win_height ≤ 2 ^ 30 ∧
    canvas4.tile_size ≤ 2 ^ 30 :=
  have h1 : (blankCanvas.updateWindowSize 4 4 (fun _ => 0)).win_width ≤ 2 ^ 30 := by
    show (4 : Int) ≤ 2 ^ 30
    norm_num
  have h2 : (blankCanvas.updateWindowSize 4 4 (fun _ => 0)).win_height ≤ 2 ^ 30 := by
    show (4 : Int) ≤ 2 ^ 30
    norm_num
  ⟨h1, h2, (scheduler_reset (blankCanvas.updateWindowSize 4 4 (fun _ => 0))).2.2.2.2.2.2.2 h1 h2⟩

/-- C17, counterexample. The first step on the canvas of `4 x 4` cells, at tile
size `4`, hands three empty rectangles to `drawRect` and leaves the texture
as it is: it does not paint three quadrants of size `2`. -/
theorem scheduler_4x4_counterexample :
    canvas4.win_width = 4 ∧ canvas4.win_height = 4 ∧ canvas4.tile_size = 4 ∧
    Cursor.stepCells canvas4.win_width canvas4.win_height canvas4.cursor = [] ∧
    canvas4.drawNext.texture = canvas4.texture := by
  refine ⟨rfl, rfl, congrArg Cursor.tile_size canvas4_cursor, ?_,
    first_step_4x4 (blankCanvas.updateWindowSize 4 4 (fun _ => 0)) rfl rfl⟩
  rw [canvas4_cursor]
  exact stepCells_4x4_first

theorem scheduler_4x4_witness :
    (blankCanvas.updateWindowSize 4 4 (fun _ => 0)).win_width = 4 ∧
    (blankCanvas.updateWindowSize 4 4 (fun _ => 0)).win_height = 4 ∧
    canvas4.drawNext.cursor = ⟨2, 0, 0, false⟩ :=
  ⟨rfl, rfl,
    (scheduler_4x4 (blankCanvas.updateWindowSize 4 4 (fun _ => 0)) rfl rfl).2.2.2.2.1⟩

/-- C18, the code at the failing input. On the canvas of `4 x 4` cells the run
from the reset state sets `done` with its sixth step and not before; the
cells written in these six steps are those of `[0,3) x [0,3)` without
`(0,0)`; the floats of the cells `(0,0)` and `(3,3)` still have the values
they had before the run.  On every canvas with `w, h >= 1` no step of a run
writes the cell `(0,0)`, a cell of the last column or a cell of the last
row. -/
theorem coverage_gap_4x4 :
    (drawNext^[6] canvas4).done = true ∧
    (∀ n : Nat, n < 6 → (drawNext^[n] canvas4).done = false) ∧
    Cursor.runCells canvas4.win_width canvas4.win_height 6 canvas4.cursor =
      [(2, 0), (2, 1), (0, 2), (1, 2), (2, 2), (1, 0), (0, 1), (1, 1), (1, 2), (2, 1)] ∧
    (∀ k : Int, 0 ≤ k → k < 3 →
      (drawNext^[6] canvas4).texture (cellIndex canvas4.win_pow2 (0, 0) + k) =
        canvas4.texture (cellIndex canvas4.win_pow2 (0, 0) + k)) ∧
    (∀ k : Int, 0 ≤ k → k < 3 →
      (drawNext^[6] canvas4).texture (cellIndex canvas4.win_pow2 (3, 3) + k) =
        canvas4.texture (cellIndex canvas4.win_pow2 (3, 3) + k)) ∧
    (∀ (w h : Int) (n : Nat), 1 ≤ w → 1 ≤ h →
      ∀ cell ∈ Cursor.runCells w h n ⟨pow2Loop h w 1 Int.one_pos, 0, 0, false⟩,
        cell ≠ (0, 0) ∧ cell.1 < w - 1 ∧ cell.2 < h - 1) := by
  have hcells : Cursor.runCells canvas4.win_width canvas4.win_height 6 canvas4.cursor =
      [(2, 0), (2, 1), (0, 2), (1, 2), (2, 2), (1, 0), (0, 1), (1, 1), (1, 2), (2, 1)] := by
    rw [canvas4_cursor]
    exact runCells_4x4
  refine ⟨?_, ?_, hcells, ?_, ?_, ?_⟩
  · have h := congrArg Cursor.done (canvas4_iterate_cursor 6)
    rw [show (drawNext^[6] canvas4).cursor.done = (drawNext^[6] canvas4).done from rfl] at h
    rw [h]
    decide
  · intro n hn
    have h := congrArg Cursor.done (canvas4_iterate_cursor n)
    rw [show (drawNext^[n] canvas4).cursor.done = (drawNext^[n] canvas4).done from rfl] at h
    rw [h]
    interval_cases n <;> decide
  · intro k hk0 hk3
    apply iterate_texture_frame
    rw [hcells, canvas4_pow2]
    intro c hc
    simp only [List.mem_cons, List.mem_singleton, List.not_mem_nil, or_false] at hc
    rcases hc with rfl | rfl | rfl | rfl | rfl | rfl | rfl | rfl | rfl | rfl <;>
      simp only [cellIndex] <;> omega
  · intro k hk0 hk3
    apply iterate_texture_frame
    rw [hcells, canvas4_pow2]
    intro c hc
    simp only [List.mem_cons, List.mem_singleton, List.not_mem_nil, or_false] at hc
    rcases hc with rfl | rfl | rfl | rfl | rfl | rfl | rfl | rfl | rfl | rfl <;>
      simp only [cellIndex] <;> omega
  · intro w h n hw hh cell hcell
    exact runCells_gap w h n _ (runInv_reset w h hw hh) hw hh cell hcell

theorem drawNext_one_sample_witness :
    0 ≤ canvas4.drawNext.tile_left ∧ canvas4.drawNext.win_width ≤ canvas4.drawNext.win_pow2 ∧
    canvas4.drawNext.cursor.InTopLeftQuadrant (1, 1) ∧
    canvas4.drawNext.drawNext.texture (cellIndex canvas4.drawNext.win_pow2 (1, 1) + 2) =
      canvas4.drawNext.texture (cellIndex canvas4.drawNext.win_pow2 (1, 1) + 2) :=
  have hcur : canvas4.drawNext.cursor = ⟨2, 0, 0, false⟩ := by
    have h := canvas4_iterate_cursor 1
    rw [Function.iterate_one] at h
    rw [h]
    decide
  have hl : 0 ≤ canvas4.drawNext.tile_left := by
    rw [show canvas4.drawNext.tile_left = canvas4.drawNext.cursor.tile_left from rfl, hcur]
  have hp : canvas4.drawNext.win_pow2 = 4 := by
    rw [(drawNext_frame canvas4).2.2.1, canvas4_pow2]
  have hwp : canvas4.drawNext.win_width ≤ canvas4.drawNext.win_pow2 := by
    rw [hp, (drawNext_frame canvas4).1]
    show (4 : Int) ≤ 4
    exact le_refl _
  have htl : canvas4.drawNext.cursor.InTopLeftQuadrant (1, 1) := by
    rw [hcur]
    unfold Cursor.InTopLeftQuadrant
    decide
  ⟨hl, hwp, htl,
    (drawNext_one_sample canvas4.drawNext).2.2.2 hl hwp (1, 1) 2 htl
      (by rw [hp]; decide) (by decide) (by decide)⟩

theorem done_only_at_tile_one_witness :
    1 ≤ (blankCanvas.updateWindowSize 4 4 (fun _ => 0)).win_width ∧
    1 ≤ (blankCanvas.updateWindowSize 4 4 (fun _ => 0)).win_height ∧
    ((drawNext^[5] canvas4).done = true → (drawNext^[5] canvas4).tile_size = 1) ∧
    ∃ k : Nat, (drawNext^[5] canvas4).tile_size = 2 ^ k :=
  have h1 : 1 ≤ (blankCanvas.updateWindowSize 4 4 (fun _ => 0)).win_width := by
    show (1 : Int) ≤ 4
    decide
  have h2 : 1 ≤ (blankCanvas.updateWindowSize 4 4 (fun _ => 0)).win_height := by
    show (1 : Int) ≤ 4
    decide
  ⟨h1, h2,
    (done_only_at_tile_one (blankCanvas.updateWindowSize 4 4 (fun _ => 0)) 5 h1 h2
      (drawNext^[5] canvas4) rfl).2.2.2.2.1,
    (done_only_at_tile_one (blankCanvas.updateWindowSize 4 4 (fun _ => 0)) 5 h1 h2
      (drawNext^[5] canvas4) rfl).1⟩

end SchedulerScenes

section MatrixClaims

variable {F : Type} [LinearOrderedField F]

theorem length2_eq_dot (v : Vec3 F) : v.length2 = v.dotProduct v := rfl

/-- What `Mat3::inverse` returns, multiplied with the matrix from either
side, is the identity scaled by the square of the determinant. -/
theorem inverse_mul_scaled (m : Mat3 F) :
    m.mul m.inverse = Mat3Identity.smul (m.det * m.det) ∧
    m.inverse.mul m = Mat3Identity.smul (m.det * m.det) := by
  constructor <;> ext <;>
    simp only [Mat3.mul, Mat3.inverse, Mat3.det, Mat3.smul, Mat3Identity, Mat3.ofScalars,
      Mat3.getRowX, Mat3.getRowY, Mat3.getRowZ, Vec3.dotProduct, Vec3.smul_x, Vec3.smul_y,
      Vec3.smul_z] <;> ring

variable [LibM F]

end MatrixClaims
section MatrixClaims2

variable {F : Type} [LinearOrderedField F]

theorem reflection_dot (n : Vec3 F) (ray : Ray F) (hn : n.length2 = 1) :
    (World.reflectionDir n ray).dotProduct (World.reflectionDir n ray) =
      ray.direction.dotProduct ray.direction ∧
    n.dotProduct (World.reflectionDir n ray) = -(n.dotProduct ray.direction) := by
  unfold Vec3.length2 at hn
  constructor
  · simp only [World.reflectionDir, Vec3.dotProduct, Vec3.add_x, Vec3.add_y, Vec3.add_z,
      Vec3.smul_x, Vec3.smul_y, Vec3.smul_z]
    linear_combination
      4 * (n.x * ray.direction.x + n.y * ray.direction.y + n.z * ray.direction.z) ^ 2 * hn
  · simp only [World.reflectionDir, Vec3.dotProduct, Vec3.add_x, Vec3.add_y, Vec3.add_z,
      Vec3.smul_x, Vec3.smul_y, Vec3.smul_z]
    linear_combination
      -2 * (n.x * ray.direction.x + n.y * ray.direction.y + n.z * ray.direction.z) * hn

theorem ne_zero_of_length2_pos (v : Vec3 F) (h : 0 < v.length2) : v ≠ ⟨0, 0, 0⟩ := by
  rintro rfl
  simp [Vec3.length2] at h

/-- C26, what the code computes. `Mat3::inverse` scales the adjugate with
`* det`: for every matrix `M`, `M * M.inverse()` and `M.inverse() * M` are
the identity scaled by the square of the determinant.  For `2 * identity`,
whose determinant is `8`, the product is `64 * identity`, not the identity. -/
theorem inverse_not_inverse (m : Mat3 F) :
    m.mul m.inverse = Mat3Identity.smul (m.det * m.det) ∧
    m.inverse.mul m = Mat3Identity.smul (m.det * m.det) ∧
    Examples.doubleMat.det = 8 ∧
    Examples.doubleMat.inverse = Mat3.ofScalars 32 0 0 0 32 0 0 0 32 ∧
    Examples.doubleMat.mul Examples.doubleMat.inverse = Mat3.ofScalars 64 0 0 0 64 0 0 0 64 ∧
    Examples.doubleMat.mul Examples.doubleMat.inverse ≠ Mat3Identity := by
  have hdet : Examples.doubleMat.det = 8 := by
    norm_num [Examples.doubleMat, Mat3.det, Mat3.ofScalars]
  have hprod : Examples.doubleMat.mul Examples.doubleMat.inverse =
      Mat3.ofScalars 64 0 0 0 64 0 0 0 64 := by
    rw [(inverse_mul_scaled Examples.doubleMat).1, hdet]
    ext <;> norm_num [Mat3.smul, Mat3Identity, Mat3.ofScalars]
  refine ⟨(inverse_mul_scaled m).1, (inverse_mul_scaled m).2, hdet, ?_, hprod, ?_⟩
  · ext <;> norm_num [Examples.doubleMat, Mat3.inverse, Mat3.ofScalars]
  · rw [hprod]
    intro h
    have h2 := congrArg (fun M : Mat3 ℚ => M.x.x) h
    norm_num [Mat3Identity, Mat3.ofScalars] at h2

variable [LibM F]

/-- C22. For every unit normal `n` and every direction `d` the reflection
direction `r = n * (-2 * (n . d)) + d` of `World::getColor` satisfies
`r . r = d . d` and `n . r = -(n . d)`.  For a unit direction `d`, `r` has
squared length `1` and is not zero, and (the square root being exact at
`1`) the magnitude by which the constructor of the reflected `Ray` divides
is not zero and the direction of that ray has squared length `1`. -/
theorem reflection_nondegenerate (n : Vec3 F) (ray : Ray F) (hn : n.length2 = 1) :
    (World.reflectionDir n ray).dotProduct (World.reflectionDir n ray) =
      ray.direction.dotProduct ray.direction ∧
    n.dotProduct (World.reflectionDir n ray) = -(n.dotProduct ray.direction) ∧
    (ray.direction.length2 = 1 →
      (World.reflectionDir n ray).length2 = 1 ∧
      World.reflectionDir n ray ≠ ⟨0, 0, 0⟩ ∧
      (SqrtExactAt (1 : F) → ∀ inter : Vec3 F,
        LibM.sqrt (World.reflectionDir n ray).length2 ≠ 0 ∧
        (Ray.new inter (World.reflectionDir n ray)).direction.length2 = 1)) := by
  obtain ⟨h1, h2⟩ := reflection_dot n ray hn
  refine ⟨h1, h2, ?_⟩
  intro hd
  have hlen : (World.reflectionDir n ray).length2 = 1 := by
    rw [length2_eq_dot, h1, ← length2_eq_dot, hd]
  have hne : World.reflectionDir n ray ≠ ⟨0, 0, 0⟩ :=
    ne_zero_of_length2_pos _ (by rw [hlen]; exact zero_lt_one)
  refine ⟨hlen, hne, ?_⟩
  intro hs inter
  have hs2 : SqrtExactAt (World.reflectionDir n ray).length2 := by
    rw [hlen]
    exact hs
  refine ⟨?_, normalise_length2 _ hne hs2⟩
  rw [hlen]
  exact ne_of_gt (sqrt_pos_of_exact 1 zero_lt_one hs)

end MatrixClaims2

section MatrixWitnesses

open Examples

theorem trigExactAt_zero : TrigExactAt (0 : ℚ) :=
  trigExactAt_rat 0

theorem reflection_nondegenerate_witness :
    Vec3.length2 (⟨0, 1, 0⟩ : Vec3 ℚ) = 1 ∧ downRay.direction.length2 = 1 ∧
    SqrtExactAt (1 : ℚ) ∧
    (Ray.new ⟨0, 0, 0⟩ (World.reflectionDir (⟨0, 1, 0⟩ : Vec3 ℚ) downRay)).direction.length2
      = 1 :=
  have hn : Vec3.length2 (⟨0, 1, 0⟩ : Vec3 ℚ) = 1 := by norm_num [Vec3.length2]
  have hd : downRay.direction.length2 = 1 := by
    rw [downRay_eq]
    norm_num [Vec3.length2]
  ⟨hn, hd, sqrtExactAt_one,
    (((reflection_nondegenerate ⟨0, 1, 0⟩ downRay hn).2.2 hd).2.2 sqrtExactAt_one
      ⟨0, 0, 0⟩).2⟩

end MatrixWitnesses

section SchedulerInvariants

theorem gridInv_advance (w h pad : Int) (c : Cursor) (hrun : Cursor.RunInv w h c)
    (hinv : c.GridInv pad) : (Cursor.advance w h c).GridInv pad := by
  obtain ⟨t, l, b, d⟩ := c
  obtain ⟨⟨k, hk⟩, hl0, hlw, hb0, hbh, _⟩ := hrun
  obtain ⟨hpad, ⟨ml, hml⟩, ⟨mb, hmb⟩⟩ := hinv
  dsimp only at hk hl0 hlw hb0 hbh hpad hml hmb
  have hpos : (0 : Int) < 2 ^ k := pow_pos (by norm_num) k
  have hzero : ∀ x : Int, ∃ m : Nat, (0 : Int) = (m : Int) * (2 * x) :=
    fun x => ⟨0, by simp⟩
  unfold Cursor.advance
  dsimp only
  by_cases h1 : b + (t + t) ≥ h
  · rw [if_pos h1]
    dsimp only
    by_cases h2 : l + (t + t) ≥ w
    · rw [if_pos h2]
      by_cases h3 : t ≤ 1
      · rw [if_pos h3]
        exact ⟨hpad, hzero _, hzero _⟩
      · rw [if_neg h3]
        refine ⟨?_, hzero _, hzero _⟩
        dsimp only
        omega
    · rw [if_neg h2]
      refine ⟨hpad, ⟨ml + 1, ?_⟩, hzero _⟩
      dsimp only
      rw [hml]
      push_cast
      ring
  · rw [if_neg h1]
    dsimp only
    have h2 : ¬ l ≥ w := by omega
    rw [if_neg h2]
    refine ⟨hpad, ⟨ml, hml⟩, ⟨mb + 1, ?_⟩⟩
    dsimp only
    rw [hmb]
    push_cast
    ring

theorem gridInv_iterate (w h : Int) (hw : 1 ≤ w) (hh : 1 ≤ h) (n : Nat) :
    ((Cursor.advance w h)^[n] ⟨pow2Loop h w 1 Int.one_pos, 0, 0, false⟩).GridInv
      (pow2Loop h w 1 Int.one_pos) := by
  induction n with
  | zero => exact ⟨le_refl _, ⟨0, by simp⟩, ⟨0, by simp⟩⟩
  | succ n ih =>
    rw [Function.iterate_succ_apply']
    exact gridInv_advance w h _ _ (runInv_iterate w h hw hh n) ih

theorem iterate_drawNext_pad {F : Type} [LinearOrderedField F] [LibM F]
    (s : DM_Iterative F) (n : Nat) :
    (DM_Iterative.drawNext^[n] s).win_size_pad = s.win_size_pad := by
  induction n with
  | zero => rfl
  | succ n ih =>
    rw [Function.iterate_succ_apply']
    exact (DM_Iterative.drawNext_frame _).2.2.2.1.trans ih

end SchedulerInvariants
namespace DM_Iterative

variable {F : Type} [LinearOrderedField F] [LibM F]

/-- C21. In every state reached by steps of `drawNext` from the reset state of
a canvas with `w, h >= 1`: `tile_size` is a power of two with
`1 <= tile_size <= win_size_pad`, `tile_left` and `tile_bottom` are
non-negative multiples of `2 * tile_size`, and `0 <= tile_left < w` and
`0 <= tile_bottom < h`. -/
theorem scheduler_invariant (s0 : DM_Iterative F) (n : Nat)
    (hw : 1 ≤ s0.win_width) (hh : 1 ≤ s0.win_height) :
    ∀ s : DM_Iterative F, s = drawNext^[n] s0.updateWindowContent →
      (∃ k : Nat, s.tile_size = 2 ^ k) ∧ 1 ≤ s.tile_size ∧ s.tile_size ≤ s.win_size_pad ∧
      (∃ m : Nat, s.tile_left = (m : Int) * (2 * s.tile_size)) ∧
      (∃ m : Nat, s.tile_bottom = (m : Int) * (2 * s.tile_size)) ∧
      0 ≤ s.tile_left ∧ s.tile_left < s0.win_width ∧
      0 ≤ s.tile_bottom ∧ s.tile_bottom < s0.win_height := by
  intro s hs
  have hcur : s.cursor = (Cursor.advance s0.win_width s0.win_height)^[n]
      ⟨pow2Loop s0.win_height s0.win_width 1 Int.one_pos, 0, 0, false⟩ := by
    rw [hs, iterate_drawNext_cursor]
    rfl
  have hrun : Cursor.RunInv s0.win_width s0.win_height s.cursor := by
    rw [hcur]
    exact runInv_iterate _ _ hw hh n
  have hgrid : s.cursor.GridInv (pow2Loop s0.win_height s0.win_width 1 Int.one_pos) := by
    rw [hcur]
    exact gridInv_iterate _ _ hw hh n
  have hpad : s.win_size_pad = pow2Loop s0.win_height s0.win_width 1 Int.one_pos := by
    rw [hs, iterate_drawNext_pad]
    rfl
  obtain ⟨⟨k, hk⟩, hl0, hlw, hb0, hbh, _⟩ := hrun
  obtain ⟨hle, hml, hmb⟩ := hgrid
  have hk2 : s.tile_size = 2 ^ k := hk
  have hpos : (0 : Int) < 2 ^ k := pow_pos (by norm_num) k
  refine ⟨⟨k, hk2⟩, ?_, ?_, hml, hmb, hl0, hlw, hb0, hbh⟩
  · rw [hk2]
    omega
  · rw [hpad]
    exact hle

end DM_Iterative

section SchedulerInvariantWitnesses

open DM_Iterative Examples

theorem scheduler_invariant_witness :
    1 ≤ (blankCanvas.updateWindowSize 4 4 (fun _ => 0)).win_width ∧
    1 ≤ (blankCanvas.updateWindowSize 4 4 (fun _ => 0)).win_height ∧
    1 ≤ (drawNext^[3] canvas4).tile_size ∧
    (drawNext^[3] canvas4).tile_size ≤ (drawNext^[3] canvas4).win_size_pad :=
  have h1 : 1 ≤ (blankCanvas.updateWindowSize 4 4 (fun _ => 0)).win_width := by
    show (1 : Int) ≤ 4
    decide
  have h2 : 1 ≤ (blankCanvas.updateWindowSize 4 4 (fun _ => 0)).win_height := by
    show (1 : Int) ≤ 4
    decide
  ⟨h1, h2,
    (scheduler_invariant (blankCanvas.updateWindowSize 4 4 (fun _ => 0)) 3 h1 h2
      (drawNext^[3] canvas4) rfl).2.1,
    (scheduler_invariant (blankCanvas.updateWindowSize 4 4 (fun _ => 0)) 3 h1 h2
      (drawNext^[3] canvas4) rfl).2.2.1⟩

end SchedulerInvariantWitnesses

section StepCount

theorem ceilDiv_lt_iff (w b m : Int) (hb : 0 < b) : m < ceilDiv w b ↔ b * m < w := by
  unfold ceilDiv
  rw [Int.lt_iff_add_one_le, Int.le_ediv_iff_mul_le hb]
  have : (m + 1) * b = b * m + b := by ring
  rw [this]
  omega

theorem ceilDiv_pos (w b : Int) (hb : 0 < b) (hw : 1 ≤ w) : 1 ≤ ceilDiv w b := by
  have := (ceilDiv_lt_iff w b 0 hb).mpr (by omega)
  omega

theorem advance_inner (w h t l b : Int) (d : Bool) (hb : b + (t + t) < h) (hl : l < w) :
    Cursor.advance w h ⟨t, l, b, d⟩ = ⟨t, l, b + (t + t), d⟩ := by
  have h1 : ¬ (b + (t + t) ≥ h) := by omega
  have h2 : ¬ (l ≥ w) := by omega
  unfold Cursor.advance
  dsimp only
  rw [if_neg h1]
  dsimp only
  rw [if_neg h2]

theorem advance_column (w h t l b : Int) (d : Bool) (hb : h ≤ b + (t + t))
    (hl : l + (t + t) < w) :
    Cursor.advance w h ⟨t, l, b, d⟩ = ⟨t, l + (t + t), 0, d⟩ := by
  have h1 : b + (t + t) ≥ h := by omega
  have h2 : ¬ (l + (t + t) ≥ w) := by omega
  unfold Cursor.advance
  dsimp only
  rw [if_pos h1]
  dsimp only
  rw [if_neg h2]

theorem advance_last (w h t l b : Int) (d : Bool) (hb : h ≤ b + (t + t))
    (hl : w ≤ l + (t + t)) :
    Cursor.advance w h ⟨t, l, b, d⟩ =
      if t ≤ 1 then ⟨t, 0, 0, true⟩ else ⟨t / 2, 0, 0, d⟩ := by
  have h1 : b + (t + t) ≥ h := by omega
  have h2 : l + (t + t) ≥ w := by omega
  unfold Cursor.advance
  dsimp only
  rw [if_pos h1]
  dsimp only
  rw [if_pos h2]

/-- One more step inside a column of a pass. -/
theorem pass_step_inner (w h t l : Int) (x : Cursor) (N c : Nat)
    (hN : (Cursor.advance w h)^[N] x = ⟨t, l, 2 * t * (c : Int), false⟩)
    (hl : l < w) (hc : 2 * t * ((c + 1 : Nat) : Int) < h) :
    (Cursor.advance w h)^[N + 1] x = ⟨t, l, 2 * t * ((c + 1 : Nat) : Int), false⟩ := by
  have e : 2 * t * ((c + 1 : Nat) : Int) = 2 * t * (c : Int) + (t + t) := by
    push_cast
    ring
  rw [Function.iterate_succ_apply', hN, advance_inner w h t l _ false (by omega) hl, e]

/-- Inside a pass with the tile size `t` the cursor visits the blocks column
by column. -/
theorem pass_pos (w h t : Int) (ht : 1 ≤ t) (hh : 1 ≤ h) :
    ∀ a c : Nat, 2 * t * (a : Int) < w → 2 * t * (c : Int) < h →
      (Cursor.advance w h)^[a * (ceilDiv h (2 * t)).toNat + c] ⟨t, 0, 0, false⟩ =
        ⟨t, 2 * t * (a : Int), 2 * t * (c : Int), false⟩ := by
  have hb : (0 : Int) < 2 * t := by omega
  have hch := ceilDiv_pos h (2 * t) hb hh
  have hcast : (((ceilDiv h (2 * t)).toNat : Nat) : Int) = ceilDiv h (2 * t) :=
    Int.toNat_of_nonneg (by omega)
  intro a
  induction a with
  | zero =>
    intro c
    induction c with
    | zero =>
      intro _ _
      simp
    | succ c ih =>
      intro hw hc
      have hc0 : 2 * t * (c : Int) < h := by
        have e : 2 * t * ((c + 1 : Nat) : Int) = 2 * t * (c : Int) + (t + t) := by
          push_cast
          ring
        omega
      have h1 := ih hw hc0
      have h2 := pass_step_inner w h t _ _ _ c h1 hw hc
      rw [← Nat.add_assoc]
      exact h2
  | succ a iha =>
    intro c
    induction c with
    | zero =>
      intro hw _
      have ea : 2 * t * ((a + 1 : Nat) : Int) = 2 * t * (a : Int) + (t + t) := by
        push_cast
        ring
      have hw0 : 2 * t * (a : Int) < w := by omega
      obtain ⟨c0, hc0⟩ : ∃ c0 : Nat, (ceilDiv h (2 * t)).toNat = c0 + 1 :=
        ⟨(ceilDiv h (2 * t)).toNat - 1, by omega⟩
      have hc0lt : ((c0 : Nat) : Int) < ceilDiv h (2 * t) := by omega
      have hc0h : 2 * t * (c0 : Int) < h := (ceilDiv_lt_iff h (2 * t) _ hb).mp hc0lt
      have hfull : ¬ (2 * t * ((c0 + 1 : Nat) : Int) < h) := by
        intro hlt
        have := (ceilDiv_lt_iff h (2 * t) _ hb).mpr hlt
        omega
      have ec : 2 * t * ((c0 + 1 : Nat) : Int) = 2 * t * (c0 : Int) + (t + t) := by
        push_cast
        ring
      have h1 := iha c0 hw0 hc0h
      have hidx : (a + 1) * (ceilDiv h (2 * t)).toNat + 0 =
          (a * (ceilDiv h (2 * t)).toNat + c0) + 1 := by
        rw [hc0]
        ring
      rw [hidx, Function.iterate_succ_apply', h1,
        advance_column w h t _ _ false (by omega) (by omega), ea]
      simp
    | succ c ih =>
      intro hw hc
      have hc0 : 2 * t * (c : Int) < h := by
        have e : 2 * t * ((c + 1 : Nat) : Int) = 2 * t * (c : Int) + (t + t) := by
          push_cast
          ring
        omega
      have h1 := ih hw hc0
      have h2 := pass_step_inner w h t _ _ _ c h1 hw hc
      rw [← Nat.add_assoc]
      exact h2

/-- A pass with the tile size `t` takes `passSteps w h t` steps; its last step
sets `done` at tile size `1` and halves the tile size otherwise; `done` is
not set before. -/
theorem pass_end (w h t : Int) (ht : 1 ≤ t) (hw : 1 ≤ w) (hh : 1 ≤ h) :
    (Cursor.advance w h)^[passSteps w h t] ⟨t, 0, 0, false⟩ =
      (if t ≤ 1 then ⟨t, 0, 0, true⟩ else ⟨t / 2, 0, 0, false⟩) ∧
    ∀ n : Nat, n < passSteps w h t →
      ((Cursor.advance w h)^[n] ⟨t, 0, 0, false⟩).done = false := by
  have hb : (0 : Int) < 2 * t := by omega
  have hch := ceilDiv_pos h (2 * t) hb hh
  have hcw := ceilDiv_pos w (2 * t) hb hw
  obtain ⟨c0, hc0⟩ : ∃ c0 : Nat, (ceilDiv h (2 * t)).toNat = c0 + 1 :=
    ⟨(ceilDiv h (2 * t)).toNat - 1, by omega⟩
  obtain ⟨a0, ha0⟩ : ∃ a0 : Nat, (ceilDiv w (2 * t)).toNat = a0 + 1 :=
    ⟨(ceilDiv w (2 * t)).toNat - 1, by omega⟩
  have hlt : ∀ (x : Int) (m m0 : Nat), 1 ≤ ceilDiv x (2 * t) →
      (ceilDiv x (2 * t)).toNat = m0 + 1 → m ≤ m0 → 2 * t * (m : Int) < x := by
    intro x m m0 hx hm0 hm
    apply (ceilDiv_lt_iff x (2 * t) _ hb).mp
    omega
  have hge : ∀ (x : Int) (m0 : Nat), 1 ≤ ceilDiv x (2 * t) →
      (ceilDiv x (2 * t)).toNat = m0 + 1 → x ≤ 2 * t * (m0 : Int) + (t + t) := by
    intro x m0 hx hm0
    by_contra hcon
    have e : 2 * t * ((m0 + 1 : Nat) : Int) = 2 * t * (m0 : Int) + (t + t) := by
      push_cast
      ring
    have := (ceilDiv_lt_iff x (2 * t) ((m0 + 1 : Nat) : Int) hb).mpr (by omega)
    omega
  constructor
  · have h1 := pass_pos w h t ht hh a0 c0 (hlt w a0 a0 hcw ha0 (le_refl _))
      (hlt h c0 c0 hch hc0 (le_refl _))
    have hidx : passSteps w h t = (a0 * (ceilDiv h (2 * t)).toNat + c0) + 1 := by
      unfold passSteps
      rw [ha0, hc0]
      ring
    rw [hidx, Function.iterate_succ_apply', h1,
      advance_last w h t _ _ false (hge h c0 hch hc0) (hge w a0 hcw ha0)]
  · intro n hn
    unfold passSteps at hn
    have hchpos : 0 < (ceilDiv h (2 * t)).toNat := by omega
    have hdiv : n / (ceilDiv h (2 * t)).toNat ≤ a0 := by
      have : n / (ceilDiv h (2 * t)).toNat < (ceilDiv w (2 * t)).toNat :=
        Nat.div_lt_of_lt_mul (by rw [Nat.mul_comm]; exact hn)
      omega
    have hmod : n % (ceilDiv h (2 * t)).toNat ≤ c0 := by
      have := Nat.mod_lt n hchpos
      omega
    have h1 := pass_pos w h t ht hh _ _ (hlt w _ a0 hcw ha0 hdiv) (hlt h _ c0 hch hc0 hmod)
    have hidx : n / (ceilDiv h (2 * t)).toNat * (ceilDiv h (2 * t)).toNat +
        n % (ceilDiv h (2 * t)).toNat = n := by
      rw [Nat.mul_comm]
      exact Nat.div_add_mod n _
    rw [hidx] at h1
    rw [h1]

theorem stepCount_zero (w h : Int) : stepCount w h 0 = passSteps w h 1 := by
  simp [stepCount, List.range_succ]

theorem stepCount_succ (w h : Int) (k : Nat) :
    stepCount w h (k + 1) = stepCount w h k + passSteps w h (2 ^ (k + 1)) := by
  unfold stepCount
  rw [List.range_succ, List.map_append, List.sum_append]
  simp

/-- From the tile size `2^k` and the cursor `(0,0)` the run sets `done` with
step number `stepCount w h k`, and not before. -/
theorem run_done (w h : Int) (hw : 1 ≤ w) (hh : 1 ≤ h) :
    ∀ k : Nat,
      (Cursor.advance w h)^[stepCount w h k] ⟨2 ^ k, 0, 0, false⟩ = ⟨1, 0, 0, true⟩ ∧
      ∀ n : Nat, n < stepCount w h k →
        ((Cursor.advance w h)^[n] ⟨2 ^ k, 0, 0, false⟩).done = false := by
  intro k
  induction k with
  | zero =>
    obtain ⟨h1, h2⟩ := pass_end w h 1 (le_refl _) hw hh
    rw [stepCount_zero, pow_zero]
    rw [if_pos (le_refl _)] at h1
    exact ⟨h1, h2⟩
  | succ k ih =>
    have hpos : (0 : Int) < 2 ^ k := pow_pos (by norm_num) k
    have hdouble : (2 : Int) ^ (k + 1) = 2 ^ k * 2 := pow_succ 2 k
    obtain ⟨h1, h2⟩ := pass_end w h (2 ^ (k + 1)) (by omega) hw hh
    rw [if_neg (by omega)] at h1
    have hhalf : (2 : Int) ^ (k + 1) / 2 = 2 ^ k := by
      rw [hdouble]
      exact Int.mul_ediv_cancel _ (by norm_num)
    rw [hhalf] at h1
    rw [stepCount_succ]
    constructor
    · rw [Function.iterate_add_apply, h1]
      exact ih.1
    · intro n hn
      by_cases hlt : n < passSteps w h (2 ^ (k + 1))
      · exact h2 n hlt
      · have hsplit : n = (n - passSteps w h (2 ^ (k + 1))) + passSteps w h (2 ^ (k + 1)) := by
          omega
        rw [hsplit, Function.iterate_add_apply, h1]
        exact ih.2 _ (by omega)

theorem stepCount_4x4 : stepCount 4 4 2 = 6 := by
  decide

end StepCount
section StepCountClaim

theorem ceilDiv_eq_ceil (a b : Int) (hb : 0 < b) :
    ceilDiv a b = ⌈(a : ℚ) / (b : ℚ)⌉ := by
  have hbq : (0 : ℚ) < (b : ℚ) := by exact_mod_cast hb
  have h1 : b * (ceilDiv a b - 1) < a :=
    (ceilDiv_lt_iff a b (ceilDiv a b - 1) hb).mp (by omega)
  have h2 : a ≤ b * ceilDiv a b := by
    by_contra hcon
    have := (ceilDiv_lt_iff a b (ceilDiv a b) hb).mpr (by omega)
    omega
  symm
  rw [Int.ceil_eq_iff]
  constructor
  · rw [lt_div_iff₀ hbq]
    have : (((b * (ceilDiv a b - 1) : Int)) : ℚ) < (a : ℚ) := by exact_mod_cast h1
    push_cast at this
    linarith
  · rw [div_le_iff₀ hbq]
    have : (a : ℚ) ≤ ((b * ceilDiv a b : Int) : ℚ) := by exact_mod_cast h2
    push_cast at this
    linarith

namespace DM_Iterative

variable {F : Type} [LinearOrderedField F] [LibM F]

/-- C23. For a canvas with `w, h >= 1` the tile size `T` of the reset state is a
power of two `2^k`, and the run of `drawNext` steps from the reset state has
`done = true` after `stepCount w h k` steps and `done = false` after every
smaller number of steps, where `stepCount w h k` is the sum over
`t = 1, 2, ..., 2^k = T` of `ceilDiv w (2t) * ceilDiv h (2t)` and `ceilDiv` is
the quotient rounded up; for the 4x4 canvas (`k = 2`) the sum is `6`. -/
theorem scheduler_step_count (s0 : DM_Iterative F)
    (hw : 1 ≤ s0.win_width) (hh : 1 ≤ s0.win_height) :
    (∃ k : Nat, s0.updateWindowContent.tile_size = 2 ^ k) ∧
    (∀ k : Nat, s0.updateWindowContent.tile_size = 2 ^ k →
      (drawNext^[stepCount s0.win_width s0.win_height k] s0.updateWindowContent).done = true ∧
      ∀ n : Nat, n < stepCount s0.win_width s0.win_height k →
        (drawNext^[n] s0.updateWindowContent).done = false) ∧
    (∀ k : Nat, stepCount s0.win_width s0.win_height k =
      ((List.range (k + 1)).map (fun (i : Nat) =>
        (⌈(s0.win_width : ℚ) / ((2 * 2 ^ i : Int) : ℚ)⌉).toNat *
        (⌈(s0.win_height : ℚ) / ((2 * 2 ^ i : Int) : ℚ)⌉).toNat)).sum) ∧
    stepCount 4 4 2 = 6 := by
  have hdone : ∀ n : Nat, (drawNext^[n] s0.updateWindowContent).done =
      ((Cursor.advance s0.win_width s0.win_height)^[n]
        ⟨pow2Loop s0.win_height s0.win_width 1 Int.one_pos, 0, 0, false⟩).done := by
    intro n
    show (drawNext^[n] s0.updateWindowContent).cursor.done = _
    rw [iterate_drawNext_cursor]
    rfl
  refine ⟨?_, ?_, ?_, stepCount_4x4⟩
  · obtain ⟨k, hk, _⟩ := pow2Loop_least s0.win_height s0.win_width
    exact ⟨k, hk⟩
  · intro k hk
    have hk' : pow2Loop s0.win_height s0.win_width 1 Int.one_pos = 2 ^ k := hk
    obtain ⟨h1, h2⟩ := run_done s0.win_width s0.win_height hw hh k
    constructor
    · rw [hdone, hk', h1]
    · intro n hn
      rw [hdone, hk']
      exact h2 n hn
  · intro k
    unfold stepCount passSteps
    congr 1
    apply List.map_congr_left
    intro i _
    have hpos : (0 : Int) < 2 * 2 ^ i := by positivity
    rw [ceilDiv_eq_ceil _ _ hpos, ceilDiv_eq_ceil _ _ hpos]

end DM_Iterative

open DM_Iterative Examples

theorem scheduler_step_count_witness :
    1 ≤ (blankCanvas.updateWindowSize 4 4 (fun _ => 0)).win_width ∧
    1 ≤ (blankCanvas.updateWindowSize 4 4 (fun _ => 0)).win_height ∧
    canvas4.tile_size = 2 ^ 2 ∧
    (drawNext^[6] canvas4).done = true ∧
    (drawNext^[5] canvas4).done = false :=
  have h1 : 1 ≤ (blankCanvas.updateWindowSize 4 4 (fun _ => 0)).win_width := by
    show (1 : Int) ≤ 4
    decide
  have h2 : 1 ≤ (blankCanvas.updateWindowSize 4 4 (fun _ => 0)).win_height := by
    show (1 : Int) ≤ 4
    decide
  have h3 : canvas4.tile_size = 2 ^ 2 := by
    show pow2Loop 4 4 1 Int.one_pos = 2 ^ 2
    rw [pow2Loop_four]
    rfl
  have h4 : (drawNext^[stepCount 4 4 2] canvas4).done = true ∧
      ∀ n : Nat, n < stepCount 4 4 2 → (drawNext^[n] canvas4).done = false :=
    (scheduler_step_count (blankCanvas.updateWindowSize 4 4 (fun _ => 0)) h1 h2).2.1 2 h3
  have h5 : stepCount 4 4 2 = 6 := by decide
  ⟨h1, h2, h3, by rw [← h5]; exact h4.1, h4.2 5 (by rw [h5]; decide)⟩

end StepCountClaim

section WellFormedScenes

variable {F : Type} [LinearOrderedField F]

theorem inRange_iff (c : Color F) : c.InRange ↔ c.Nonneg ∧ c.LeOne := by
  unfold Color.InRange Color.Nonneg Color.LeOne
  tauto

theorem mul_nonneg_color (c : Color F) (s : F) (hs : 0 ≤ s) (hc : c.Nonneg) :
    (c.mul s).Nonneg :=
  ⟨le_min (mul_nonneg hs hc.1) zero_le_one, le_min (mul_nonneg hs hc.2.1) zero_le_one,
    le_min (mul_nonneg hs hc.2.2) zero_le_one⟩

theorem add_nonneg_color (a b : Color F) (ha : a.Nonneg) (hb : b.Nonneg) :
    (a.add b).Nonneg :=
  ⟨le_min (add_nonneg ha.1 hb.1) zero_le_one, le_min (add_nonneg ha.2.1 hb.2.1) zero_le_one,
    le_min (add_nonneg ha.2.2 hb.2.2) zero_le_one⟩

theorem addAssign_nonneg_color (a b : Color F) (ha : a.Nonneg) (hb : b.Nonneg) :
    (a.addAssign b).Nonneg :=
  ⟨le_min (add_nonneg ha.1 hb.1) zero_le_one, le_min (add_nonneg ha.2.1 hb.2.1) zero_le_one,
    le_min (add_nonneg ha.2.2 hb.2.2) zero_le_one⟩

theorem intersect_nonneg_color (a b : Color F) (ha : a.Nonneg) (hb : b.Nonneg) :
    (a.intersect b).Nonneg :=
  ⟨le_min ha.1 hb.1, le_min ha.2.1 hb.2.1, le_min ha.2.2 hb.2.2⟩

theorem voidColor_nonneg (w : World F) : w.voidColor.Nonneg := by
  unfold World.voidColor Color.Nonneg
  simp

variable [LibM F]

/-- The colour of a surface of the class `Surface` is its base colour. -/
theorem surface_getColor_uniform (s : Surface F) (hk : s.kind = .uniform) (p : Vec3 F) :
    s.getColor p = s.color := by
  unfold Surface.getColor
  rw [hk]

theorem surface_getColor_nonneg (s : Surface F) (hs : s.WellFormed) (hk : s.kind = .uniform)
    (p : Vec3 F) : (s.getColor p).Nonneg := by
  rw [surface_getColor_uniform s hk p]
  exact ((inRange_iff _).mp hs.1).1

namespace World

theorem lightStep_nonneg (w : World F) (ray : Ray F) (obj : Int) (inter norm : Vec3 F)
    (surf : Surface F) (hs : surf.WellFormed) (lc : Color F) (l : Light F)
    (hl : l.color.InRange) (h : lc.Nonneg) :
    (lightStep w ray obj inter norm surf lc l).Nonneg := by
  obtain ⟨_, _, hdif, hspec, _, _⟩ := hs
  have hlc : l.color.Nonneg := ((inRange_iff _).mp hl).1
  rw [lightStep_eq]
  split_ifs
  · exact h
  · apply addAssign_nonneg_color
    · apply addAssign_nonneg_color _ _ h
      exact mul_nonneg_color _ _ (mul_nonneg hdif (le_max_left _ _)) hlc
    · exact mul_nonneg_color _ _
        (mul_nonneg hspec (zpow_nonneg (le_max_left _ _) _)) hlc

theorem foldl_lightStep_nonneg (w : World F) (ray : Ray F) (obj : Int) (inter norm : Vec3 F)
    (surf : Surface F) (hs : surf.WellFormed) (ls : List (Light F))
    (hls : ∀ l ∈ ls, l.color.InRange) :
    ∀ lc : Color F, lc.Nonneg → (ls.foldl (lightStep w ray obj inter norm surf) lc).Nonneg := by
  induction ls with
  | nil =>
    intro lc h
    exact h
  | cons l ls ih =>
    intro lc h
    rw [List.foldl_cons]
    exact ih (fun l' hl' => hls l' (List.mem_cons_of_mem _ hl')) _
      (lightStep_nonneg w ray obj inter norm surf hs lc l (hls l (List.mem_cons_self _ _)) h)

theorem lightLoop_nonneg (w : World F) (hw : w.WellFormed) (ray : Ray F) (obj : Int)
    (inter norm : Vec3 F) (surf : Surface F) (hs : surf.WellFormed) :
    (lightLoop w ray obj inter norm surf).Nonneg := by
  unfold lightLoop
  apply foldl_lightStep_nonneg w ray obj inter norm surf hs w.lights hw.2
  apply mul_nonneg_color _ _ hs.2.1
  unfold ambientColor Color.Nonneg
  simp

theorem getColor_cutoff (w : World F) (ray : Ray F) (depth : Int) (h : depth > 10) :
    w.getColor ray depth = w.voidColor := by
  rw [getColor]
  simp [h]

/-- In a well-formed world without a pattern surface no channel of `getColor`
is negative. -/
theorem getColor_nonneg (w : World F) (hw : w.WellFormed) (hp : w.Plain) :
    ∀ (n : Nat) (ray : Ray F) (depth : Int), 11 - depth ≤ (n : Int) →
      (w.getColor ray depth).Nonneg := by
  intro n
  induction n with
  | zero =>
    intro ray depth hd
    rw [getColor_cutoff w ray depth (by omega)]
    exact voidColor_nonneg w
  | succ n ih =>
    intro ray depth hd
    by_cases hcut : depth > 10
    · rw [getColor_cutoff w ray depth hcut]
      exact voidColor_nonneg w
    · by_cases hobj : w.castRay ray = -1
      · rw [getColor_miss w ray depth hobj]
        exact voidColor_nonneg w
      · obtain ⟨o, _, ho⟩ := castRay_lt_length w ray hobj
        have hmem : o ∈ w.objects := List.getElem?_mem ho
        have hs : o.surface.WellFormed := hw.1 o hmem
        have hk : o.surface.kind = .uniform := hp o hmem
        rw [getColor_hit w ray depth o (by omega) hobj ho]
        apply intersect_nonneg_color _ _ _ (lightLoop_nonneg w hw _ _ _ _ _ hs)
        unfold surfaceColor
        simp only
        split_ifs with hm
        · apply add_nonneg_color
          · apply mul_nonneg_color _ _ _ (surface_getColor_nonneg _ hs hk _)
            have := hs.2.2.2.2.2.2
            unfold Surface.getMirror
            linarith
          · apply mul_nonneg_color _ _ hs.2.2.2.2.2.1
            exact ih _ _ (by push_cast at hd; omega)
        · exact surface_getColor_nonneg _ hs hk _

/-- No channel of `getColor` exceeds `1`: the result is the void colour or a
channel-wise minimum with the clamped light colour. -/
theorem getColor_upper (w : World F) (ray : Ray F) (depth : Int) :
    (w.getColor ray depth).LeOne := by
  by_cases hcut : depth > 10
  · rw [getColor_cutoff w ray depth hcut]
    exact voidColor_leOne w
  · by_cases hobj : w.castRay ray = -1
    · rw [getColor_miss w ray depth hobj]
      exact voidColor_leOne w
    · obtain ⟨o, _, ho⟩ := castRay_lt_length w ray hobj
      rw [getColor_hit w ray depth o (by omega) hobj ho]
      exact intersect_leOne _ _ (lightLoop_leOne _ _ _ _ _ _)

/-- C27, as amended. In a well-formed world (every surface with base colour
channels in `[0,1]`, ambient, diffuse and specular coefficients and Phong
exponent not negative and a mirror coefficient in `[0,1]`, every light colour
with channels in `[0,1]`) whose surfaces are all of the class `Surface`
itself, none of `S_Pattern`, all three channels of `World::getColor` lie in
`[0,1]` for every ray and every depth; and in every world no channel of
`World::getColor` exceeds `1`. -/
theorem getColor_in_range (w : World F) :
    (w.WellFormed → w.Plain →
      ∀ (ray : Ray F) (depth : Int), (w.getColor ray depth).InRange) ∧
    (∀ (ray : Ray F) (depth : Int), (w.getColor ray depth).LeOne) := by
  constructor
  · intro hw hp ray depth
    rw [inRange_iff]
    exact ⟨getColor_nonneg w hw hp (11 - depth).toNat ray depth (Int.self_le_toNat _),
      getColor_upper w ray depth⟩
  · intro ray depth
    exact getColor_upper w ray depth

end World

end WellFormedScenes

section WellFormedWitness

open World Examples

theorem litWorld_wellFormed : litWorld.WellFormed := by
  constructor
  · intro o ho
    rw [litWorld_objects] at ho
    simp only [List.mem_singleton] at ho
    subst ho
    simp only [WorldObject.surface, Surface.WellFormed, Surface.new, Color.InRange]
    norm_num
  · intro l hl
    have hls : litWorld.lights = [⟨⟨1, 1, 1⟩, ⟨0, 20, 0⟩⟩] := rfl
    rw [hls] at hl
    simp only [List.mem_singleton] at hl
    subst hl
    simp only [Color.InRange]
    norm_num

theorem litWorld_plain : litWorld.Plain := by
  intro o ho
  rw [litWorld_objects] at ho
  simp only [List.mem_singleton] at ho
  subst ho
  rfl

theorem getColor_in_range_witness :
    litWorld.WellFormed ∧ litWorld.Plain ∧ (litWorld.getColor downRay 0).InRange :=
  ⟨litWorld_wellFormed, litWorld_plain,
    (getColor_in_range litWorld).1 litWorld_wellFormed litWorld_plain downRay 0⟩

theorem patternPlane_eq : WO_Plane patternSurface (⟨0, 0, 0⟩ : Vec3 ℚ) ⟨0, 1, 0⟩ =
    .plane patternSurface ⟨0, 0, 0⟩ ⟨0, 1, 0⟩ := by
  simp [WO_Plane, Vec3.normalise, sqrt_rat_one]

theorem patternWorld_objects :
    patternWorld.objects = [.plane patternSurface ⟨0, 0, 0⟩ ⟨0, 1, 0⟩] := by
  simp [patternWorld, World.new, addWorldObject, patternPlane_eq]

theorem patternRay_eq : patternRay = ⟨⟨5744379708833792, 10, 1⟩, ⟨0, -1, 0⟩⟩ := by
  simp [patternRay, Ray.new, Vec3.normalise, sqrt_rat_one]

theorem castRay_patternWorld : patternWorld.castRay patternRay = 0 := by
  rw [castRay, patternWorld_objects, patternRay_eq]
  simp only [castRayLoop]
  norm_num [WorldObject.distance, Vec3.dotProduct, minCastDist]

theorem patternWorld_hit : patternWorld.objects[(patternWorld.castRay patternRay).toNat]? =
    some (.plane patternSurface ⟨0, 0, 0⟩ ⟨0, 1, 0⟩) := by
  rw [castRay_patternWorld, patternWorld_objects]
  rfl

theorem patternPlane_intersection :
    (WorldObject.plane patternSurface (⟨0, 0, 0⟩ : Vec3 ℚ) ⟨0, 1, 0⟩).intersection patternRay =
      ⟨5744379708833792, 0, 1⟩ := by
  unfold WorldObject.intersection
  rw [patternRay_eq]
  ext <;> norm_num [WorldObject.distance, Vec3.dotProduct]

/-- The colour of the pattern surface at the point `(5744379708833792, 0, 1)`:
`fmod(|x|, M_PI)` is `3.1415926329...`, which is stored in `modx` as the
`float` `13176795 / 2^22 = 3.14159274...`, above `pi`. -/
theorem patternSurface_getColor :
    patternSurface.getColor ⟨5744379708833792, 0, 1⟩ =
      ⟨1 * sinRat (13176795 / 4194304) * sinRat 1, 0 * sinRat (13176795 / 4194304) * sinRat 1,
        0 * sinRat (13176795 / 4194304) * sinRat 1⟩ := by
  have hx : LibM.toFloat (LibM.fmod |(5744379708833792 : ℚ)| LibM.pi) = 13176795 / 4194304 := by
    show F32.round (fmodRat |5744379708833792| piDouble) = 13176795 / 4194304
    rw [fmodRat_far, round_fmod_far]
  have hz : LibM.toFloat (LibM.fmod |(1 : ℚ)| LibM.pi) = 1 := by
    show F32.round (fmodRat |1| piDouble) = 1
    rw [fmodRat_one, F32.round_one]
  show (⟨(1 : ℚ) * LibM.sin (LibM.toFloat (LibM.fmod |(5744379708833792 : ℚ)| LibM.pi)) *
      LibM.sin (LibM.toFloat (LibM.fmod |(1 : ℚ)| LibM.pi)),
    0 * LibM.sin (LibM.toFloat (LibM.fmod |(5744379708833792 : ℚ)| LibM.pi)) *
      LibM.sin (LibM.toFloat (LibM.fmod |(1 : ℚ)| LibM.pi)),
    0 * LibM.sin (LibM.toFloat (LibM.fmod |(5744379708833792 : ℚ)| LibM.pi)) *
      LibM.sin (LibM.toFloat (LibM.fmod |(1 : ℚ)| LibM.pi))⟩ : Color ℚ) = _
  rw [hx, hz]
  rfl

theorem patternWorld_wellFormed : patternWorld.WellFormed := by
  constructor
  · intro o ho
    rw [patternWorld_objects] at ho
    simp only [List.mem_singleton] at ho
    subst ho
    simp only [WorldObject.surface, Surface.WellFormed, patternSurface, Surface.new,
      Color.InRange]
    norm_num
  · intro l hl
    have hls : patternWorld.lights = [] := rfl
    rw [hls] at hl
    simp at hl

/-- C27, counterexample. The plane `y = 0` with a default surface of the class
`S_Pattern` (base colour `(1,0,0)`, coefficients `0.3`, `0.4`, `0.5`, Phong
exponent `20`, mirror coefficient `0`), no light: the world is well-formed.
The ray from `(5744379708833792, 10, 1)` straight down hits the plane at
`(5744379708833792, 0, 1)`; there `modx` is `3.14159274...`, the sine of
which is negative, `modz` is `1`, and the red channel of `getColor` is
negative. -/
theorem getColor_in_range_counterexample :
    patternWorld.WellFormed ∧
    (patternWorld.getColor patternRay 0).r = sinRat (13176795 / 4194304) * sinRat 1 ∧
    -(8 / 10 ^ 8) < (patternWorld.getColor patternRay 0).r ∧
    (patternWorld.getColor patternRay 0).r < -(7 / 10 ^ 8) ∧
    ¬ (patternWorld.getColor patternRay 0).InRange := by
  have hval : -(8 / 10 ^ 8) < sinRat (13176795 / 4194304) * sinRat 1 ∧
      sinRat (13176795 / 4194304) * sinRat 1 < -(7 / 10 ^ 8) := by
    norm_num [sinRat, sinPoly, cosPoly]
  have hneg : sinRat (13176795 / 4194304) * sinRat 1 < 0 := by
    have := hval.2
    norm_num at this ⊢
    linarith
  have hr : (patternWorld.getColor patternRay 0).r =
      sinRat (13176795 / 4194304) * sinRat 1 := by
    rw [getColor_hit patternWorld patternRay 0 _ (by norm_num)
      (by rw [castRay_patternWorld]; norm_num) patternWorld_hit]
    have hl : patternWorld.lights = [] := rfl
    have hsurf : surfaceColor patternWorld patternRay 0
        (.plane patternSurface ⟨0, 0, 0⟩ ⟨0, 1, 0⟩) =
        patternSurface.getColor ⟨5744379708833792, 0, 1⟩ := by
      unfold surfaceColor
      simp only [WorldObject.surface]
      rw [if_neg (by simp [Surface.getMirror, patternSurface, Surface.new]),
        patternPlane_intersection]
    rw [hsurf, patternSurface_getColor]
    simp only [lightLoop, hl, List.foldl_nil, Color.intersect, Color.mul, ambientColor,
      WorldObject.surface, Surface.getAmbient, patternSurface, Surface.new]
    rw [one_mul]
    apply min_eq_left
    have : min ((3 / 10 : ℚ) * 1) 1 = 3 / 10 := by norm_num
    rw [this]
    linarith
  refine ⟨patternWorld_wellFormed, hr, ?_, ?_, ?_⟩
  · rw [hr]
    exact hval.1
  · rw [hr]
    exact hval.2
  · intro h
    have := h.1.1
    rw [hr] at this
    linarith

end WellFormedWitness

end Raytracer
